import Mathlib

/-!
Verification development for the Knuth elevator simulator (TAOCP 1, §2.2.5,
as implemented in cxx14.cpp).  The simulator core is shallowly embedded:
the shared world state of `ElevatorSimulation`, the scheduler operations
`schedule` / `schedule_immediately` / `cancel`, the decision subroutine, and
the three task families (elevator, door-close monitor E5, inactivity monitor
E9, users).  The default build configuration is modelled (no EXERCISE_SIX,
no PRINT_STATISTICS); the arrival source is an oracle stream of
`NewUserInfo` records, and the pseudo-random generator of `createNewUser`
is modelled separately as a function of a raw random stream.
-/

set_option maxHeartbeats 1000000

namespace Elevator

/-- `enum Direction { GoingUp, GoingDown, Neutral };` -/
inductive Direction where
  | GoingUp
  | GoingDown
  | Neutral
deriving DecidableEq

open Direction

/-- Task identities: the three singleton tasks owned by the simulation plus
dynamically allocated user tasks (identified by allocation number). -/
inductive TaskId where
  | elevatortask
  | e5task
  | e9task
  | usertask (n : Nat)
deriving DecidableEq

open TaskId

/-- One record produced by `createNewUser` (struct NewUserInfo). -/
structure NewUserInfo where
  in_ : Int
  out_ : Int
  giveuptime_ : Int
  intertime_ : Int
deriving DecidableEq

/-- The mutable per-user data (`UserTask::in_`, `UserTask::out_`). -/
structure UserData where
  in_ : Int
  out_ : Int
deriving DecidableEq

-- Duration constants of ElevatorSimulation.
def durationBeforeRapidDoorClose : Int := 25
def durationBeforeInactivity : Int := 300
def durationBeforeDoorClose : Int := 76
def durationOfDoorOpen : Int := 20
def durationOfLeaving : Int := 25
def durationOfEntering : Int := 25
def delayAfterDoorFlutter : Int := 40
def durationOfDoorClose : Int := 20
def durationOfUpwardAcceleration : Int := 15
def durationOfDownwardAcceleration : Int := 15
def durationOfDoorOpenFromDecisionSubroutine : Int := 20
def delayBeforeHoming : Int := 20
def durationOfUpwardTravel : Int := 51
def durationOfUpwardDeceleration : Int := 14
def durationOfDownwardTravel : Int := 61
def durationOfDownwardDeceleration : Int := 23

/-- The world state of `ElevatorSimulation` together with the per-task
resume points and fire times (C++ stores `nextinst_` / `nexttime_` inside
each task object; here they are total maps from task identity).  `wait_`
is the pending sequence of the scheduler, `queue_ k` the waiting roster of
floor `k` (user ids), `elevator_` the in-car roster.  `arrivals_` is the
oracle stream consumed by `createNewUser`, `arrivalIdx_` the number of
users created so far, `nextUserId_` the allocation counter for user task
identities (user 0 is created by the constructor). -/
structure Sim where
  floor_ : Int
  d1_ : Bool
  d2_ : Bool
  d3_ : Bool
  state_ : Direction
  callup_ : Int → Bool
  calldown_ : Int → Bool
  callcar_ : Int → Bool
  wait_ : List TaskId
  nextinst_ : TaskId → Int
  nexttime_ : TaskId → Int
  queue_ : Int → List Nat
  elevator_ : List Nat
  users_ : Nat → UserData
  nextUserId_ : Nat
  arrivals_ : Nat → NewUserInfo
  arrivalIdx_ : Nat

/-- `std_erase`: remove the (at most one) occurrence of `value`. -/
def std_erase {α : Type} [DecidableEq α] (ctr : List α) (value : α) : List α :=
  ctr.erase value

/-- The comparator `Task::ByNextTime` is the strict `nexttime_ <`;
`std::stable_sort` with a strict comparator is a stable sort putting the
sequence into nondecreasing key order, i.e. a merge sort with the
reflexive comparator `nexttime_ ≤`. -/
def byNextTimeLE (nexttime : TaskId → Int) (p q : TaskId) : Bool :=
  decide (nexttime p ≤ nexttime q)

/-- `ElevatorSimulation::schedule(t, step, when)`: set the task's resume
point and fire time, remove any existing pending entry, push it at the back
and stable-sort the pending sequence by fire time. -/
def schedule (s : Sim) (t : TaskId) (step : Int) (when : Int) : Sim :=
  let nextinst' := Function.update s.nextinst_ t step
  let nexttime' := Function.update s.nexttime_ t when
  { s with
    nextinst_ := nextinst'
    nexttime_ := nexttime'
    wait_ := (std_erase s.wait_ t ++ [t]).mergeSort (byNextTimeLE nexttime') }

/-- `ElevatorSimulation::schedule_immediately(t, step, when)`: same field
updates, but the task is pushed at the very front of the pending
sequence. -/
def schedule_immediately (s : Sim) (t : TaskId) (step : Int) (when : Int) : Sim :=
  { s with
    nextinst_ := Function.update s.nextinst_ t step
    nexttime_ := Function.update s.nexttime_ t when
    wait_ := t :: std_erase s.wait_ t }

/-- `ElevatorSimulation::cancel(t)`. -/
def cancel (s : Sim) (t : TaskId) : Sim :=
  { s with wait_ := std_erase s.wait_ t }

/-- The floor indices scanned by every `for (int j=0; j < 5; ++j)` loop. -/
def floors : List Int := [0, 1, 2, 3, 4]

/-- Any call outstanding at floor `j` (up button, down button or car call). -/
def callAt (s : Sim) (j : Int) : Bool :=
  s.callup_ j || s.calldown_ j || s.callcar_ j

/-- `ElevatorSimulation::decision(now, fromE6)` (steps D1 – D5). -/
def decision (s : Sim) (now : Int) (fromE6 : Bool) : Sim :=
  -- D1. Decision necessary?
  if s.state_ ≠ Neutral then s
  -- D2. Should doors open?
  else if s.nextinst_ elevatortask = 1 ∧
      (s.callup_ 2 || s.calldown_ 2 || s.callcar_ 2) = true then
    schedule s elevatortask 3 (now + durationOfDoorOpenFromDecisionSubroutine)
  else
    -- D3. Any calls?
    let jj : Int :=
      match floors.find? (fun j => decide (j ≠ s.floor_) && callAt s j) with
      | some j => j
      | none => if fromE6 then 2 else -1
    if jj ≠ -1 then
      -- D4. Set STATE.
      let s1 := { s with
        state_ := if jj < s.floor_ then GoingDown
                  else if jj > s.floor_ then GoingUp else Neutral }
      -- D5. Elevator dormant?
      if s1.nextinst_ elevatortask = 1 ∧ jj ≠ 2 then
        schedule s1 elevatortask 6 (now + delayBeforeHoming)
      else s1
    else s

/-- `random_between(lo, hi)` from `createNewUser`. -/
def random_between (lo hi : Nat) (r : Nat) : Nat :=
  lo + r % (1 + hi - lo)

/-- `createNewUser` in the default (random) build: the `i`-th user consumes
four draws of the xoshiro stream `rand`. -/
def createNewUserRandom (rand : Nat → Nat) (i : Nat) : NewUserInfo :=
  let inF := random_between 0 4 (rand (4 * i))
  let outF := (inF + random_between 1 4 (rand (4 * i + 1))) % 5
  let giveup := random_between 300 1200 (rand (4 * i + 2))
  let intertime := random_between 10 900 (rand (4 * i + 3))
  ⟨(inF : Int), (outF : Int), (giveup : Int), (intertime : Int)⟩

/-- The fixed table replayed under USE_KNUTH_DATA. -/
def knuthData : List NewUserInfo :=
  [⟨0, 2, 152 - 0, 38 - 0⟩,
   ⟨4, 1, 36000, 136 - 38⟩,
   ⟨2, 1, 36000, 141 - 136⟩,
   ⟨2, 1, 36000, 291 - 141⟩,
   ⟨3, 1, 36000, 364 - 291⟩,
   ⟨2, 1, 540 - 364, 602 - 364⟩,
   ⟨1, 2, 36000, 827 - 602⟩,
   ⟨1, 0, 36000, 876 - 827⟩,
   ⟨1, 3, 36000, 1048 - 876⟩,
   ⟨0, 4, 36000, 4384 - 1048⟩,
   ⟨2, 3, 36000, 4845 - 4384⟩]

/-- `elevator_is_available(in, out)` in the default build (no
EXERCISE_SIX): the car is at the entry floor. -/
def elevator_is_available (s : Sim) (inF : Int) : Bool :=
  decide (s.floor_ = inF)

/-- The direction recomputation of step E2 ("Change of state?"):
`passenger_wants_up` is set by a car call strictly above the current
floor, `waiter_wants_up` by an up/down button strictly above; dually
below. -/
def passenger_wants_up (s : Sim) : Bool :=
  floors.any (fun j => decide (j ≠ s.floor_) && s.callcar_ j && decide (j > s.floor_))

def passenger_wants_down (s : Sim) : Bool :=
  floors.any (fun j => decide (j ≠ s.floor_) && s.callcar_ j && decide (¬(j > s.floor_)))

def waiter_wants_up (s : Sim) : Bool :=
  floors.any (fun j =>
    decide (j ≠ s.floor_) && (s.callup_ j || s.calldown_ j) && decide (j > s.floor_))

def waiter_wants_down (s : Sim) : Bool :=
  floors.any (fun j =>
    decide (j ≠ s.floor_) && (s.callup_ j || s.calldown_ j) && decide (¬(j > s.floor_)))

/-- The new direction computed by E2. -/
def e2NewState (s : Sim) : Direction :=
  if s.state_ = GoingUp ∧ ¬(passenger_wants_up s || waiter_wants_up s) = true then
    (if passenger_wants_down s then GoingDown else Neutral)
  else if s.state_ = GoingDown ∧ ¬(passenger_wants_down s || waiter_wants_down s) = true then
    (if passenger_wants_up s then GoingUp else Neutral)
  else s.state_

/-- E3 ("Open doors"): set `d1_` and `d2_`, start the inactivity timer E9
and the door-close timer E5, schedule the doors-held step E4. -/
def elevatorE3 (s : Sim) (now : Int) : Sim :=
  let s1 := { s with d1_ := true, d2_ := true }
  let s2 := schedule s1 e9task 9 (now + durationBeforeInactivity)
  let s3 := schedule s2 e5task 5 (now + durationBeforeDoorClose)
  schedule s3 elevatortask 4 (now + durationOfDoorOpen)

/-- `ElevatorTask::resume` (the state machine E1 – E8; `s` already has the
task popped from the pending sequence). -/
def elevatorResume (s : Sim) : Sim :=
  let now := s.nexttime_ elevatortask
  let inst := s.nextinst_ elevatortask
  if inst = 1 then
    -- E1. Wait for call.
    s
  else if inst = 2 then
    -- E2. Change of state?  (falls through to E3)
    elevatorE3 { s with state_ := e2NewState s } now
  else if inst = 3 then
    -- E3. Open doors.
    elevatorE3 s now
  else if inst = 4 then
    -- E4. Let people out, in.
    match s.elevator_.find? (fun p => decide ((s.users_ p).out_ = s.floor_)) with
    | some leaver =>
        schedule (schedule_immediately s (usertask leaver) 6 now)
          elevatortask 4 (now + durationOfLeaving)
    | none =>
        match (s.queue_ s.floor_).find? (fun _ => true) with
        | some enterer =>
            schedule (schedule_immediately s (usertask enterer) 5 now)
              elevatortask 4 (now + durationOfEntering)
        | none => { s with d1_ := false, d3_ := true }
  else if inst = 6 then
    -- E6. Prepare to move.
    let s1 := { s with callcar_ := Function.update s.callcar_ s.floor_ false }
    let s2 := if s1.state_ ≠ GoingDown then
                { s1 with callup_ := Function.update s1.callup_ s1.floor_ false }
              else s1
    let s3 := if s2.state_ ≠ GoingUp then
                { s2 with calldown_ := Function.update s2.calldown_ s2.floor_ false }
              else s2
    let s4 := decision s3 now true
    if s4.state_ = Neutral then
      schedule_immediately s4 elevatortask 1 now
    else
      let s5 := if s4.d2_ then cancel s4 e9task else s4
      if s4.state_ = GoingUp then
        schedule s5 elevatortask 7 (now + durationOfUpwardAcceleration)
      else
        schedule s5 elevatortask 8 (now + durationOfDownwardAcceleration)
  else if inst = 7 then
    -- E7. Go up a floor.
    schedule { s with floor_ := s.floor_ + 1 }
      elevatortask 71 (now + durationOfUpwardTravel)
  else if inst = 71 then
    -- E7, continued: stop here, or keep going up?
    let should_stop := s.callcar_ s.floor_ || s.callup_ s.floor_ ||
      ((decide (s.floor_ = 2) || s.calldown_ s.floor_) &&
        !(passenger_wants_up s || waiter_wants_up s))
    if should_stop then
      schedule s elevatortask 2 (now + durationOfUpwardDeceleration)
    else
      schedule_immediately s elevatortask 7 now
  else if inst = 8 then
    -- E8. Go down a floor.
    schedule { s with floor_ := s.floor_ - 1 }
      elevatortask 81 (now + durationOfDownwardTravel)
  else if inst = 81 then
    -- E8, continued: stop here, or keep going down?
    let should_stop := s.callcar_ s.floor_ || s.calldown_ s.floor_ ||
      ((decide (s.floor_ = 2) || s.callup_ s.floor_) &&
        !(passenger_wants_down s || waiter_wants_down s))
    if should_stop then
      schedule s elevatortask 2 (now + durationOfDownwardDeceleration)
    else
      schedule_immediately s elevatortask 8 now
  else s

/-- `E5Task::resume` (E5, "Close doors"). -/
def e5Resume (s : Sim) : Sim :=
  let now := s.nexttime_ e5task
  if s.d1_ then
    schedule s e5task 5 (now + delayAfterDoorFlutter)
  else
    schedule { s with d3_ := false } elevatortask 6 (now + durationOfDoorClose)

/-- `E9Task::resume` (E9, "Set inaction indicator"). -/
def e9Resume (s : Sim) : Sim :=
  let now := s.nexttime_ e9task
  decision { s with d2_ := false } now false

/-- `UserTask::resume` for user `n` (`s` already has the task popped). -/
def userResume (s : Sim) (n : Nat) : Sim :=
  let now := s.nexttime_ (usertask n)
  let inst := s.nextinst_ (usertask n)
  if inst = 1 then
    -- U1. Enter, prepare for successor.
    let info := s.arrivals_ s.arrivalIdx_
    let s1 := { s with arrivalIdx_ := s.arrivalIdx_ + 1 }
    let fresh := s1.nextUserId_
    let s2 := schedule { s1 with nextUserId_ := s1.nextUserId_ + 1 }
      (usertask fresh) 1 (now + info.intertime_)
    -- U2. Signal and wait.
    let s3 :=
      if elevator_is_available s2 info.in_ = true ∧ s2.nextinst_ elevatortask = 6 then
        schedule_immediately s2 elevatortask 3 now
      else if elevator_is_available s2 info.in_ = true ∧ s2.d3_ = true then
        schedule_immediately { s2 with d3_ := false, d1_ := true } elevatortask 4 now
      else
        let s2' :=
          if info.in_ < info.out_ then
            { s2 with callup_ := Function.update s2.callup_ info.in_ true }
          else
            { s2 with calldown_ := Function.update s2.calldown_ info.in_ true }
        if s2'.d2_ = false ∨ s2'.nextinst_ elevatortask = 1 then
          decision s2' now false
        else s2'
    -- U3. Enter queue.
    let s4 := { s3 with
      users_ := Function.update s3.users_ n ⟨info.in_, info.out_⟩
      queue_ := Function.update s3.queue_ info.in_ (s3.queue_ info.in_ ++ [n]) }
    schedule s4 (usertask n) 4 (now + info.giveuptime_)
  else if inst = 4 then
    -- U4. Give up.
    if ¬(elevator_is_available s (s.users_ n).in_ = true ∧ s.d1_ = true) then
      { s with
        queue_ := Function.update s.queue_ ((s.users_ n).in_)
          (std_erase (s.queue_ ((s.users_ n).in_)) n) }
    else s
  else if inst = 5 then
    -- U5. Get in.
    let u := s.users_ n
    let s1 := { s with
      queue_ := Function.update s.queue_ u.in_ (std_erase (s.queue_ u.in_) n)
      elevator_ := n :: s.elevator_
      callcar_ := Function.update s.callcar_ u.out_ true }
    if s1.state_ = Neutral then
      let s2 := { s1 with state_ := if u.in_ < u.out_ then GoingUp else GoingDown }
      schedule s2 e5task 5 (now + durationBeforeRapidDoorClose)
    else s1
  else if inst = 6 then
    -- U6. Get out.
    { s with elevator_ := std_erase s.elevator_ n }
  else s

/-- One iteration of the driver loop body of `runUntil`: pop the earliest
pending task and resume it.  (On an empty pending sequence the C++ driver
asserts; the model returns the state unchanged, and the emptiness case is
proved unreachable.) -/
def simStep (s : Sim) : Sim :=
  match s.wait_ with
  | [] => s
  | t :: rest =>
    let s' := { s with wait_ := rest }
    match t with
    | elevatortask => elevatorResume s'
    | e5task => e5Resume s'
    | e9task => e9Resume s'
    | usertask n => userResume s' n

/-- The `ElevatorSimulation` constructor: home floor 2, neutral, no calls,
and the first user scheduled to enter at time zero. -/
def initialSim (arrivals : Nat → NewUserInfo) : Sim :=
  let s0 : Sim := {
    floor_ := 2
    d1_ := false
    d2_ := false
    d3_ := false
    state_ := Neutral
    callup_ := fun _ => false
    calldown_ := fun _ => false
    callcar_ := fun _ => false
    wait_ := []
    nextinst_ := fun _ => 1
    nexttime_ := fun _ => -1
    queue_ := fun _ => []
    elevator_ := []
    users_ := fun _ => ⟨0, 0⟩
    nextUserId_ := 1
    arrivals_ := arrivals
    arrivalIdx_ := 0 }
  schedule s0 (usertask 0) 1 0

/-- The state after `n` driver iterations. -/
def reach (arrivals : Nat → NewUserInfo) : Nat → Sim
  | 0 => initialSim arrivals
  | n + 1 => simStep (reach arrivals n)

/-- `ElevatorSimulation::runUntil(deadline)`, with explicit fuel: stop as
soon as the earliest pending fire time reaches the deadline. -/
def runUntil : Nat → Sim → Int → Sim
  | 0, s, _ => s
  | fuel + 1, s, deadline =>
    match s.wait_ with
    | [] => s
    | t :: _ =>
      if s.nexttime_ t ≥ deadline then s
      else runUntil fuel (simStep s) deadline

/-- C `atoi` on an explicit character list: skip whitespace, optional
sign, then a maximal digit prefix; no digits yields 0. -/
def atoiDigits : List Char → Int → Int
  | c :: cs, acc =>
    if c.isDigit then atoiDigits cs (acc * 10 + ((c.toNat : Int) - 48))
    else acc
  | [], acc => acc

def atoiChars : List Char → Int
  | [] => 0
  | c :: cs =>
    if c = ' ' ∨ c = '\t' ∨ c = '\n' ∨ c = '\x0b' ∨ c = '\x0c' ∨ c = '\r' then
      atoiChars cs
    else if c = '-' then - atoiDigits cs 0
    else if c = '+' then atoiDigits cs 0
    else atoiDigits (c :: cs) 0

/-- The `atoi` call of `main`. -/
def atoiModel (str : String) : Int :=
  atoiChars str.data

/-- `main`: parse the optional deadline argument (default 36000 tenths of
a second), run the simulation until the deadline, and return exit status 0
(the C++ `main` has no other return path).  The result pairs the final
simulation state with the process exit status. -/
def mainModel (fuel : Nat) (arrivals : Nat → NewUserInfo) (arg : Option String) :
    Sim × Int :=
  let deadline := match arg with
    | some a => atoiModel a
    | none => 36000
  (runUntil fuel (initialSim arrivals) deadline, 0)

/-! ### Derived notions used by the invariants -/

/-- The elevator's current resume point (the `nextinst_` field of
`elevatortask_`; it identifies the pending step when the task is in the
pending sequence, and the last-entered step otherwise). -/
def einst (s : Sim) : Int := s.nextinst_ elevatortask

/-- User `n`'s current resume point. -/
def uinst (s : Sim) (n : Nat) : Int := s.nextinst_ (usertask n)

/-- Upward travel is justified: some call strictly above the current
floor, or the car is below the home floor 2 (homing). -/
def upOK (s : Sim) : Prop :=
  (∃ j ∈ floors, s.floor_ < j ∧ callAt s j = true) ∨ s.floor_ < 2

/-- Downward travel is justified: some call strictly below the current
floor, or the car is above the home floor 2 (homing). -/
def downOK (s : Sim) : Prop :=
  (∃ j ∈ floors, j < s.floor_ ∧ callAt s j = true) ∨ 2 < s.floor_

/-- Well-formed user data: entry and exit floors in range and distinct. -/
def UserOK (s : Sim) (n : Nat) : Prop :=
  0 ≤ (s.users_ n).in_ ∧ (s.users_ n).in_ ≤ 4 ∧
  0 ≤ (s.users_ n).out_ ∧ (s.users_ n).out_ ≤ 4 ∧
  (s.users_ n).in_ ≠ (s.users_ n).out_

/-- Well-formed arrival record (guaranteed by `createNewUser` in both the
random and the USE_KNUTH_DATA builds). -/
def WFInfo (i : NewUserInfo) : Prop :=
  0 ≤ i.in_ ∧ i.in_ ≤ 4 ∧ 0 ≤ i.out_ ∧ i.out_ ≤ 4 ∧ i.in_ ≠ i.out_

/-! ### Scheduler operation lemmas -/

theorem schedule_floor (s : Sim) (t : TaskId) (i w : Int) :
    (schedule s t i w).floor_ = s.floor_ := rfl

theorem schedule_d1 (s : Sim) (t : TaskId) (i w : Int) :
    (schedule s t i w).d1_ = s.d1_ := rfl

theorem schedule_d2 (s : Sim) (t : TaskId) (i w : Int) :
    (schedule s t i w).d2_ = s.d2_ := rfl

theorem schedule_d3 (s : Sim) (t : TaskId) (i w : Int) :
    (schedule s t i w).d3_ = s.d3_ := rfl

theorem schedule_state (s : Sim) (t : TaskId) (i w : Int) :
    (schedule s t i w).state_ = s.state_ := rfl

theorem schedule_callup (s : Sim) (t : TaskId) (i w : Int) :
    (schedule s t i w).callup_ = s.callup_ := rfl

theorem schedule_calldown (s : Sim) (t : TaskId) (i w : Int) :
    (schedule s t i w).calldown_ = s.calldown_ := rfl

theorem schedule_callcar (s : Sim) (t : TaskId) (i w : Int) :
    (schedule s t i w).callcar_ = s.callcar_ := rfl

theorem schedule_queue (s : Sim) (t : TaskId) (i w : Int) :
    (schedule s t i w).queue_ = s.queue_ := rfl

theorem schedule_elevator (s : Sim) (t : TaskId) (i w : Int) :
    (schedule s t i w).elevator_ = s.elevator_ := rfl

theorem schedule_users (s : Sim) (t : TaskId) (i w : Int) :
    (schedule s t i w).users_ = s.users_ := rfl

theorem schedule_nextUserId (s : Sim) (t : TaskId) (i w : Int) :
    (schedule s t i w).nextUserId_ = s.nextUserId_ := rfl

theorem schedule_arrivals (s : Sim) (t : TaskId) (i w : Int) :
    (schedule s t i w).arrivals_ = s.arrivals_ := rfl

theorem schedule_arrivalIdx (s : Sim) (t : TaskId) (i w : Int) :
    (schedule s t i w).arrivalIdx_ = s.arrivalIdx_ := rfl

theorem schedule_nextinst (s : Sim) (t : TaskId) (i w : Int) :
    (schedule s t i w).nextinst_ = Function.update s.nextinst_ t i := rfl

theorem schedule_nextinst_apply (s : Sim) (t : TaskId) (i w : Int) (x : TaskId) :
    (schedule s t i w).nextinst_ x = if x = t then i else s.nextinst_ x := by
  rw [schedule_nextinst, Function.update_apply]

theorem callAt_congr {s s' : Sim} (hu : s'.callup_ = s.callup_)
    (hd : s'.calldown_ = s.calldown_) (hc : s'.callcar_ = s.callcar_) (j : Int) :
    callAt s' j = callAt s j := by
  simp [callAt, hu, hd, hc]

theorem mem_schedule_wait {s : Sim} {t : TaskId} {i w : Int} {x : TaskId} :
    x ∈ (schedule s t i w).wait_ ↔ x = t ∨ x ∈ s.wait_.erase t := by
  show x ∈ List.mergeSort _ _ ↔ _
  rw [List.mem_mergeSort]
  simp [std_erase, or_comm]

theorem schedule_wait_perm (s : Sim) (t : TaskId) (i w : Int) :
    List.Perm (schedule s t i w).wait_ (s.wait_.erase t ++ [t]) :=
  List.mergeSort_perm _ _

theorem nodup_schedule_wait {s : Sim} (h : s.wait_.Nodup) (t : TaskId) (i w : Int) :
    (schedule s t i w).wait_.Nodup := by
  refine (schedule_wait_perm s t i w).nodup_iff.mpr ?_
  rw [List.nodup_append]
  refine ⟨h.erase t, List.nodup_singleton t, ?_⟩
  intro a ha hb
  rw [List.mem_singleton] at hb
  subst hb
  exact (List.Nodup.not_mem_erase h) ha

theorem schim_floor (s : Sim) (t : TaskId) (i w : Int) :
    (schedule_immediately s t i w).floor_ = s.floor_ := rfl

theorem schim_d1 (s : Sim) (t : TaskId) (i w : Int) :
    (schedule_immediately s t i w).d1_ = s.d1_ := rfl

theorem schim_d2 (s : Sim) (t : TaskId) (i w : Int) :
    (schedule_immediately s t i w).d2_ = s.d2_ := rfl

theorem schim_d3 (s : Sim) (t : TaskId) (i w : Int) :
    (schedule_immediately s t i w).d3_ = s.d3_ := rfl

theorem schim_state (s : Sim) (t : TaskId) (i w : Int) :
    (schedule_immediately s t i w).state_ = s.state_ := rfl

theorem schim_callup (s : Sim) (t : TaskId) (i w : Int) :
    (schedule_immediately s t i w).callup_ = s.callup_ := rfl

theorem schim_calldown (s : Sim) (t : TaskId) (i w : Int) :
    (schedule_immediately s t i w).calldown_ = s.calldown_ := rfl

theorem schim_callcar (s : Sim) (t : TaskId) (i w : Int) :
    (schedule_immediately s t i w).callcar_ = s.callcar_ := rfl

theorem schim_queue (s : Sim) (t : TaskId) (i w : Int) :
    (schedule_immediately s t i w).queue_ = s.queue_ := rfl

theorem schim_elevator (s : Sim) (t : TaskId) (i w : Int) :
    (schedule_immediately s t i w).elevator_ = s.elevator_ := rfl

theorem schim_users (s : Sim) (t : TaskId) (i w : Int) :
    (schedule_immediately s t i w).users_ = s.users_ := rfl

theorem schim_nextUserId (s : Sim) (t : TaskId) (i w : Int) :
    (schedule_immediately s t i w).nextUserId_ = s.nextUserId_ := rfl

theorem schim_arrivals (s : Sim) (t : TaskId) (i w : Int) :
    (schedule_immediately s t i w).arrivals_ = s.arrivals_ := rfl

theorem schim_arrivalIdx (s : Sim) (t : TaskId) (i w : Int) :
    (schedule_immediately s t i w).arrivalIdx_ = s.arrivalIdx_ := rfl

theorem schim_nextinst_apply (s : Sim) (t : TaskId) (i w : Int) (x : TaskId) :
    (schedule_immediately s t i w).nextinst_ x = if x = t then i else s.nextinst_ x := by
  show Function.update s.nextinst_ t i x = _
  rw [Function.update_apply]

theorem schim_wait (s : Sim) (t : TaskId) (i w : Int) :
    (schedule_immediately s t i w).wait_ = t :: s.wait_.erase t := rfl

theorem mem_schim_wait {s : Sim} {t : TaskId} {i w : Int} {x : TaskId} :
    x ∈ (schedule_immediately s t i w).wait_ ↔ x = t ∨ x ∈ s.wait_.erase t := by
  rw [schim_wait, List.mem_cons]

theorem nodup_schim_wait {s : Sim} (h : s.wait_.Nodup) (t : TaskId) (i w : Int) :
    (schedule_immediately s t i w).wait_.Nodup := by
  rw [schim_wait, List.nodup_cons]
  exact ⟨List.Nodup.not_mem_erase h, h.erase t⟩

theorem cancel_wait (s : Sim) (t : TaskId) :
    (cancel s t).wait_ = s.wait_.erase t := rfl

/-- Every field of `cancel s t` other than `wait_` is that of `s`. -/
theorem cancel_fields (s : Sim) (t : TaskId) :
    (cancel s t).floor_ = s.floor_ ∧ (cancel s t).d1_ = s.d1_ ∧
    (cancel s t).d2_ = s.d2_ ∧ (cancel s t).d3_ = s.d3_ ∧
    (cancel s t).state_ = s.state_ ∧ (cancel s t).callup_ = s.callup_ ∧
    (cancel s t).calldown_ = s.calldown_ ∧ (cancel s t).callcar_ = s.callcar_ ∧
    (cancel s t).nextinst_ = s.nextinst_ ∧ (cancel s t).queue_ = s.queue_ ∧
    (cancel s t).elevator_ = s.elevator_ ∧ (cancel s t).users_ = s.users_ ∧
    (cancel s t).nextUserId_ = s.nextUserId_ ∧
    (cancel s t).arrivals_ = s.arrivals_ ∧
    (cancel s t).arrivalIdx_ = s.arrivalIdx_ :=
  ⟨rfl, rfl, rfl, rfl, rfl, rfl, rfl, rfl, rfl, rfl, rfl, rfl, rfl, rfl, rfl⟩

/-! ### A case analysis of the decision subroutine -/

/-- The direction assigned by step D4 toward target floor `jj`. -/
def dirToward (f jj : Int) : Direction :=
  if jj < f then GoingDown else if jj > f then GoingUp else Neutral

/-- D1: with a committed direction the decision subroutine is a no-op. -/
theorem decision_of_not_neutral {s : Sim} (h : s.state_ ≠ Neutral)
    (now : Int) (b : Bool) : decision s now b = s := by
  unfold decision
  rw [if_pos h]

/-- The full case analysis of `decision` from a neutral state: either a
no-op, or D2 schedules the door-opening step 3 (only when the elevator is
dormant at step 1), or D4 assigns the direction toward a target floor
`jj` — a floor with an outstanding call, or the home floor 2 when called
from E6 — optionally (D5) scheduling step 6 when the elevator is dormant. -/
theorem decision_spec (s : Sim) (now : Int) (b : Bool) (hN : s.state_ = Neutral) :
    (b = false ∧ decision s now b = s) ∨
    (einst s = 1 ∧ decision s now b =
      schedule s elevatortask 3 (now + durationOfDoorOpenFromDecisionSubroutine)) ∨
    (∃ jj : Int,
      ((jj ∈ floors ∧ jj ≠ s.floor_ ∧ callAt s jj = true) ∨ (b = true ∧ jj = 2)) ∧
      ((¬(einst s = 1 ∧ jj ≠ 2) ∧
          decision s now b = { s with state_ := dirToward s.floor_ jj }) ∨
       (einst s = 1 ∧ jj ≠ 2 ∧
          decision s now b = schedule { s with state_ := dirToward s.floor_ jj }
            elevatortask 6 (now + delayBeforeHoming)))) := by
  unfold decision
  rw [if_neg (by simp [hN])]
  by_cases h2 : s.nextinst_ elevatortask = 1 ∧
      (s.callup_ 2 || s.calldown_ 2 || s.callcar_ 2) = true
  · rw [if_pos h2]
    exact Or.inr (Or.inl ⟨h2.1, rfl⟩)
  · rw [if_neg h2]
    cases hf : floors.find? (fun j => decide (j ≠ s.floor_) && callAt s j) with
    | some j =>
      have hj := List.find?_some hf
      have hjm := List.mem_of_find?_eq_some hf
      simp only [Bool.and_eq_true, decide_eq_true_eq] at hj
      have hne : j ≠ (-1 : Int) := by
        intro h
        subst h
        simp [floors] at hjm
      refine Or.inr (Or.inr ⟨j, Or.inl ⟨hjm, hj.1, hj.2⟩, ?_⟩)
      simp only [hf]
      rw [if_pos hne]
      by_cases h5 : s.nextinst_ elevatortask = 1 ∧ j ≠ 2
      · rw [if_pos h5]
        exact Or.inr ⟨h5.1, h5.2, rfl⟩
      · rw [if_neg h5]
        exact Or.inl ⟨h5, rfl⟩
    | none =>
      simp only [hf]
      by_cases hb : b = true
      · subst hb
        refine Or.inr (Or.inr ⟨2, Or.inr ⟨rfl, rfl⟩, Or.inl ⟨by simp, ?_⟩⟩)
        simp [dirToward]
      · simp only [Bool.not_eq_true] at hb
        subst hb
        exact Or.inl ⟨rfl, by simp⟩

/-- The weak justification carried while the car is between floors going
up (resume point 71): a call at or above the current floor, or the car at
or below the home floor. -/
def upReach (s : Sim) : Prop :=
  (∃ j ∈ floors, s.floor_ ≤ j ∧ callAt s j = true) ∨ s.floor_ ≤ 2

/-- Dual of `upReach` for downward travel (resume point 81). -/
def downReach (s : Sim) : Prop :=
  (∃ j ∈ floors, j ≤ s.floor_ ∧ callAt s j = true) ∨ 2 ≤ s.floor_

/-- Calls are at least as outstanding in `s'` as in `s`. -/
def callsLE (s s' : Sim) : Prop :=
  ∀ j, callAt s j = true → callAt s' j = true

theorem callsLE_refl (s : Sim) : callsLE s s := fun _ h => h

theorem callsLE_of_eq {s s' : Sim} (hu : s'.callup_ = s.callup_)
    (hd : s'.calldown_ = s.calldown_) (hc : s'.callcar_ = s.callcar_) :
    callsLE s s' := by
  intro j h
  rw [callAt_congr hu hd hc]
  exact h

theorem upOK_mono {s s' : Sim} (hf : s'.floor_ = s.floor_) (hc : callsLE s s') :
    upOK s → upOK s' := by
  rintro (⟨j, hj, hlt, hcall⟩ | hlt)
  · exact Or.inl ⟨j, hj, by rw [hf]; exact hlt, hc j hcall⟩
  · exact Or.inr (by rw [hf]; exact hlt)

theorem downOK_mono {s s' : Sim} (hf : s'.floor_ = s.floor_) (hc : callsLE s s') :
    downOK s → downOK s' := by
  rintro (⟨j, hj, hlt, hcall⟩ | hlt)
  · exact Or.inl ⟨j, hj, by rw [hf]; exact hlt, hc j hcall⟩
  · exact Or.inr (by rw [hf]; exact hlt)

theorem upReach_mono {s s' : Sim} (hf : s'.floor_ = s.floor_) (hc : callsLE s s') :
    upReach s → upReach s' := by
  rintro (⟨j, hj, hle, hcall⟩ | hle)
  · exact Or.inl ⟨j, hj, by rw [hf]; exact hle, hc j hcall⟩
  · exact Or.inr (by rw [hf]; exact hle)

theorem downReach_mono {s s' : Sim} (hf : s'.floor_ = s.floor_) (hc : callsLE s s') :
    downReach s → downReach s' := by
  rintro (⟨j, hj, hle, hcall⟩ | hle)
  · exact Or.inl ⟨j, hj, by rw [hf]; exact hle, hc j hcall⟩
  · exact Or.inr (by rw [hf]; exact hle)

theorem dirToward_eq_up {f j : Int} (h : f < j) : dirToward f j = GoingUp := by
  unfold dirToward
  rw [if_neg (by omega), if_pos (by omega)]

theorem dirToward_eq_down {f j : Int} (h : j < f) : dirToward f j = GoingDown := by
  unfold dirToward
  rw [if_pos h]

theorem dirToward_self (f : Int) : dirToward f f = Neutral := by
  unfold dirToward
  rw [if_neg (by omega), if_neg (by omega)]

theorem dirToward_cases (f j : Int) :
    (j < f ∧ dirToward f j = GoingDown) ∨ (f < j ∧ dirToward f j = GoingUp) ∨
    (j = f ∧ dirToward f j = Neutral) := by
  rcases lt_trichotomy j f with h | h | h
  · exact Or.inl ⟨h, dirToward_eq_down h⟩
  · exact Or.inr (Or.inr ⟨h, h ▸ dirToward_self f⟩)
  · exact Or.inr (Or.inl ⟨h, dirToward_eq_up h⟩)

/-! ### The inductive invariant

One record per reachable state.  Conjuncts are keyed mostly on the
elevator's resume point `einst`, because a task's stored resume point
uniquely determines which of its steps can fire next. -/

structure Inv (s : Sim) : Prop where
  wfArr : ∀ i, WFInfo (s.arrivals_ i)
  floor0 : 0 ≤ s.floor_
  floor4 : s.floor_ ≤ 4
  dExcl : ¬(s.d1_ = true ∧ s.d3_ = true)
  nodupW : s.wait_.Nodup
  qNodup : ∀ k, (s.queue_ k).Nodup
  e1P : einst s = 1 → s.d1_ = false ∧ s.d3_ = false ∧ s.floor_ = 2 ∧ s.state_ = Neutral
  e2P : einst s = 2 → s.d1_ = false ∧ s.d3_ = false
  e3P : einst s = 3 → s.d3_ = false
  e4P : elevatortask ∈ s.wait_ → einst s = 4 → s.d1_ = true ∧ s.d3_ = false
  e6P : einst s = 6 → s.d1_ = false ∧ s.d3_ = false
  e7P : einst s = 7 → s.d1_ = false ∧ s.d3_ = false ∧ s.floor_ < 4 ∧ upOK s
  e71P : einst s = 71 → s.d1_ = false ∧ s.d3_ = false ∧ upReach s
  e8P : einst s = 8 → s.d1_ = false ∧ s.d3_ = false ∧ 0 < s.floor_ ∧ downOK s
  e81P : einst s = 81 → s.d1_ = false ∧ s.d3_ = false ∧ downReach s
  gUp : s.state_ = GoingUp → einst s = 2 ∨ einst s = 71 ∨ upOK s
  gDn : s.state_ = GoingDown → einst s = 2 ∨ einst s = 81 ∨ downOK s
  e5P : e5task ∈ s.wait_ → einst s = 3 ∨ einst s = 4
  queueP : ∀ n k, n ∈ s.queue_ k →
    (uinst s n = 4 ∨ uinst s n = 5) ∧ UserOK s n ∧ (s.users_ n).in_ = k
  carP : ∀ n, n ∈ s.elevator_ → (uinst s n = 5 ∨ uinst s n = 6) ∧ UserOK s n
  disjP : ∀ n k, n ∈ s.queue_ k → n ∉ s.elevator_
  u5P : ∀ n, usertask n ∈ s.wait_ → uinst s n = 5 →
    s.d1_ = true ∧ n ∈ s.queue_ s.floor_ ∧ einst s = 4
  arriveP : ∃ n, usertask n ∈ s.wait_ ∧ uinst s n = 1
  freshP : ∀ m, s.nextUserId_ ≤ m →
    usertask m ∉ s.wait_ ∧ (∀ k, m ∉ s.queue_ k) ∧ m ∉ s.elevator_

attribute [simp] schedule_floor schedule_d1 schedule_d2 schedule_d3 schedule_state
  schedule_callup schedule_calldown schedule_callcar schedule_queue
  schedule_elevator schedule_users schedule_nextUserId schedule_arrivals
  schedule_arrivalIdx schim_floor schim_d1 schim_d2 schim_d3 schim_state
  schim_callup schim_calldown schim_callcar schim_queue schim_elevator
  schim_users schim_nextUserId schim_arrivals schim_arrivalIdx

theorem einst_schedule (s : Sim) (t : TaskId) (i w : Int) :
    einst (schedule s t i w) = if elevatortask = t then i else einst s := by
  rw [einst, schedule_nextinst_apply]
  rfl

theorem uinst_schedule (s : Sim) (t : TaskId) (i w : Int) (n : Nat) :
    uinst (schedule s t i w) n = if usertask n = t then i else uinst s n := by
  rw [uinst, schedule_nextinst_apply]
  rfl

theorem einst_schim (s : Sim) (t : TaskId) (i w : Int) :
    einst (schedule_immediately s t i w) = if elevatortask = t then i else einst s := by
  rw [einst, schim_nextinst_apply]
  rfl

theorem uinst_schim (s : Sim) (t : TaskId) (i w : Int) (n : Nat) :
    uinst (schedule_immediately s t i w) n = if usertask n = t then i else uinst s n := by
  rw [uinst, schim_nextinst_apply]
  rfl

attribute [simp] einst_schedule uinst_schedule einst_schim uinst_schim

theorem initialSim_wait (arr : Nat → NewUserInfo) :
    (initialSim arr).wait_ = [usertask 0] := by
  simp [initialSim, schedule, std_erase]

/-- The constructor establishes the invariant. -/
theorem inv_initial (arr : Nat → NewUserInfo) (h : ∀ i, WFInfo (arr i)) :
    Inv (initialSim arr) := by
  have hw := initialSim_wait arr
  have hei : einst (initialSim arr) = 1 := by rfl
  have hui : ∀ n, uinst (initialSim arr) n = 1 := by
    intro n
    rw [initialSim, uinst_schedule]
    split <;> rfl
  refine ⟨h, by norm_num [initialSim], by norm_num [initialSim],
    by simp [initialSim], ?_, ?_, ?_, ?_, ?_, ?_,
    ?_, ?_, ?_, ?_, ?_, ?_, ?_, ?_, ?_, ?_, ?_, ?_, ?_, ?_⟩
  · rw [hw]
    exact List.nodup_singleton _
  · intro k
    exact List.Pairwise.nil
  · intro _
    exact ⟨rfl, rfl, rfl, rfl⟩
  · intro h2
    rw [hei] at h2
    omega
  · intro h2
    rw [hei] at h2
    omega
  · intro _ h2
    rw [hei] at h2
    omega
  · intro h2
    rw [hei] at h2
    omega
  · intro h2
    rw [hei] at h2
    omega
  · intro h2
    rw [hei] at h2
    omega
  · intro h2
    rw [hei] at h2
    omega
  · intro h2
    rw [hei] at h2
    omega
  · intro h2
    exact absurd h2 (by simp [initialSim])
  · intro h2
    exact absurd h2 (by simp [initialSim])
  · intro h5
    rw [hw] at h5
    simp at h5
  · intro n k hn
    exact absurd hn (by simp [initialSim])
  · intro n hn
    exact absurd hn (by simp [initialSim])
  · intro n k hn
    exact absurd hn (by simp [initialSim])
  · intro n hn h5
    rw [hui n] at h5
    omega
  · exact ⟨0, by rw [hw]; exact List.mem_singleton_self _, hui 0⟩
  · intro m hm
    refine ⟨?_, by simp [initialSim], by simp [initialSim]⟩
    rw [hw]
    intro hmem
    rw [List.mem_singleton] at hmem
    have hm0 : m = 0 := by
      cases hmem
      rfl
    rw [hm0] at hm
    simp [initialSim] at hm

/-- Basic facts about a popped pending sequence. -/
theorem popped_facts {s : Sim} {t : TaskId} {rest : List TaskId}
    (hI : Inv s) (hw : s.wait_ = t :: rest) :
    t ∈ s.wait_ ∧ rest.Nodup ∧ t ∉ rest ∧ ∀ x, x ∈ rest → x ∈ s.wait_ := by
  have hn := hI.nodupW
  rw [hw] at hn
  rw [List.nodup_cons] at hn
  refine ⟨by rw [hw]; exact List.mem_cons_self _ _, hn.2, hn.1, ?_⟩
  intro x hx
  rw [hw]
  exact List.mem_cons_of_mem _ hx

/-- Popping a task that is not a freshly arriving user preserves the
invariant (the world state is untouched; the inactivity flag `d2_` may be
set arbitrarily, as no invariant conjunct mentions it). -/
theorem inv_pop {s : Sim} {t : TaskId} {rest : List TaskId} {b : Bool}
    (hI : Inv s) (hw : s.wait_ = t :: rest)
    (ht : ∀ n, t = usertask n → uinst s n ≠ 1) :
    Inv { s with wait_ := rest, d2_ := b } := by
  obtain ⟨htm, hnr, hnt, hsub⟩ := popped_facts hI hw
  refine ⟨hI.wfArr, hI.floor0, hI.floor4, hI.dExcl, hnr, hI.qNodup,
    hI.e1P, hI.e2P, hI.e3P, ?_, hI.e6P, hI.e7P, hI.e71P, hI.e8P, hI.e81P,
    hI.gUp, hI.gDn, ?_, hI.queueP, hI.carP, hI.disjP, ?_, ?_, ?_⟩
  · intro hm hi
    exact hI.e4P (hsub _ hm) hi
  · intro hm
    exact hI.e5P (hsub _ hm)
  · intro n hm hi
    exact hI.u5P n (hsub _ hm) hi
  · obtain ⟨n, hn, hn1⟩ := hI.arriveP
    refine ⟨n, ?_, hn1⟩
    rw [hw] at hn
    rcases List.mem_cons.mp hn with he | hm
    · exact absurd hn1 (ht n he.symm)
    · exact hm
  · intro m hm
    obtain ⟨h1, h2, h3⟩ := hI.freshP m hm
    refine ⟨?_, h2, h3⟩
    intro hmem
    exact h1 (hsub _ hmem)

/-! ### Wait-queue membership plumbing -/

theorem mem_wait_schedule_elim {s : Sim} {t x : TaskId} {i w : Int}
    (h : x ∈ (schedule s t i w).wait_) : x = t ∨ x ∈ s.wait_ := by
  rcases mem_schedule_wait.mp h with h | h
  · exact Or.inl h
  · exact Or.inr (List.mem_of_mem_erase h)

theorem mem_wait_schedule_of_ne {s : Sim} {t x : TaskId} {i w : Int}
    (hx : x ∈ s.wait_) (hne : x ≠ t) : x ∈ (schedule s t i w).wait_ :=
  mem_schedule_wait.mpr (Or.inr ((List.mem_erase_of_ne hne).mpr hx))

theorem mem_wait_schedule_self {s : Sim} {t : TaskId} {i w : Int} :
    t ∈ (schedule s t i w).wait_ :=
  mem_schedule_wait.mpr (Or.inl rfl)

theorem mem_wait_schim_elim {s : Sim} {t x : TaskId} {i w : Int}
    (h : x ∈ (schedule_immediately s t i w).wait_) : x = t ∨ x ∈ s.wait_ := by
  rcases mem_schim_wait.mp h with h | h
  · exact Or.inl h
  · exact Or.inr (List.mem_of_mem_erase h)

theorem mem_wait_schim_of_ne {s : Sim} {t x : TaskId} {i w : Int}
    (hx : x ∈ s.wait_) (hne : x ≠ t) : x ∈ (schedule_immediately s t i w).wait_ :=
  mem_schim_wait.mpr (Or.inr ((List.mem_erase_of_ne hne).mpr hx))

theorem mem_wait_schim_self {s : Sim} {t : TaskId} {i w : Int} :
    t ∈ (schedule_immediately s t i w).wait_ :=
  mem_schim_wait.mpr (Or.inl rfl)

/-! ### Invariant preservation through the decision subroutine -/

/-- D2 (schedule door-opening from a dormant elevator) preserves the
invariant. -/
theorem inv_D2 {s : Sim} (hI : Inv s) (h1 : einst s = 1)
    (hN : s.state_ = Neutral) (w : Int) :
    Inv (schedule s elevatortask 3 w) := by
  obtain ⟨hd1, hd3, hfl, _⟩ := hI.e1P h1
  have hein : einst (schedule s elevatortask 3 w) = 3 := by simp
  have huin : ∀ n, uinst (schedule s elevatortask 3 w) n = uinst s n := by
    intro n
    simp
  refine ⟨hI.wfArr, by simpa using hI.floor0, by simpa using hI.floor4,
    by simpa using hI.dExcl, nodup_schedule_wait hI.nodupW _ _ _, by simpa using hI.qNodup,
    ?_, ?_, ?_, ?_, ?_, ?_, ?_, ?_, ?_, ?_, ?_, ?_, ?_, ?_, ?_, ?_, ?_, ?_⟩
  · intro h
    rw [hein] at h
    omega
  · intro h
    rw [hein] at h
    omega
  · intro _
    simpa using hd3
  · intro _ h
    rw [hein] at h
    omega
  · intro h
    rw [hein] at h
    omega
  · intro h
    rw [hein] at h
    omega
  · intro h
    rw [hein] at h
    omega
  · intro h
    rw [hein] at h
    omega
  · intro h
    rw [hein] at h
    omega
  · intro h
    rw [schedule_state, hN] at h
    exact nomatch h
  · intro h
    rw [schedule_state, hN] at h
    exact nomatch h
  · intro _
    exact Or.inl hein
  · intro n k hn
    rw [schedule_queue] at hn
    obtain ⟨ha, hb, hc⟩ := hI.queueP n k hn
    exact ⟨by rw [huin]; exact ha, by simpa [UserOK] using hb, by simpa using hc⟩
  · intro n hn
    rw [schedule_elevator] at hn
    obtain ⟨ha, hb⟩ := hI.carP n hn
    exact ⟨by rw [huin]; exact ha, by simpa [UserOK] using hb⟩
  · intro n k hn
    rw [schedule_queue] at hn
    rw [schedule_elevator]
    exact hI.disjP n k hn
  · intro n hn h5
    rw [huin] at h5
    rcases mem_wait_schedule_elim hn with he | hm
    · exact nomatch he
    · have := (hI.u5P n hm h5).2.2
      rw [h1] at this
      omega
  · obtain ⟨n, hn, hn1⟩ := hI.arriveP
    exact ⟨n, mem_wait_schedule_of_ne hn (fun h => nomatch h), by rw [huin]; exact hn1⟩
  · intro m hm
    rw [schedule_nextUserId] at hm
    obtain ⟨ha, hb, hc⟩ := hI.freshP m hm
    refine ⟨?_, by simpa using hb, by simpa using hc⟩
    intro hmem
    rcases mem_wait_schedule_elim hmem with he | hmem'
    · exact nomatch he
    · exact ha hmem'

/-- D4 without D5 (assign a direction toward a floor with an outstanding
call, elevator not dormant) preserves the invariant. -/
theorem inv_D4 {s : Sim} (hI : Inv s) (hN : s.state_ = Neutral)
    {jj : Int} (hjf : jj ∈ floors) (hjne : jj ≠ s.floor_) (hjc : callAt s jj = true)
    (hni : ¬(einst s = 1 ∧ jj ≠ 2)) :
    Inv { s with state_ := dirToward s.floor_ jj } := by
  have hein : einst { s with state_ := dirToward s.floor_ jj } = einst s := rfl
  have huin : ∀ n, uinst { s with state_ := dirToward s.floor_ jj } n = uinst s n :=
    fun _ => rfl
  refine ⟨hI.wfArr, hI.floor0, hI.floor4, hI.dExcl, hI.nodupW, hI.qNodup,
    ?_, hI.e2P, hI.e3P, hI.e4P, hI.e6P,
    by simpa [upOK, callAt] using hI.e7P,
    by simpa [upReach, callAt] using hI.e71P,
    by simpa [downOK, callAt] using hI.e8P,
    by simpa [downReach, callAt] using hI.e81P,
    ?_, ?_, hI.e5P, hI.queueP, hI.carP, hI.disjP, hI.u5P, hI.arriveP, hI.freshP⟩
  · intro h
    rw [hein] at h
    obtain ⟨ha, hb, hc, _⟩ := hI.e1P h
    refine ⟨ha, hb, hc, ?_⟩
    show dirToward s.floor_ jj = Neutral
    have : jj = 2 := by
      by_contra hne2
      exact hni ⟨h, hne2⟩
    rw [this, hc]
    exact dirToward_self 2
  · intro h
    replace h : dirToward s.floor_ jj = GoingUp := h
    rcases dirToward_cases s.floor_ jj with ⟨_, he⟩ | ⟨hlt, _⟩ | ⟨he, _⟩
    · rw [he] at h
      exact nomatch h
    · refine Or.inr (Or.inr (Or.inl ⟨jj, hjf, hlt, hjc⟩))
    · exact absurd he hjne
  · intro h
    replace h : dirToward s.floor_ jj = GoingDown := h
    rcases dirToward_cases s.floor_ jj with ⟨hlt, _⟩ | ⟨_, he⟩ | ⟨he, _⟩
    · refine Or.inr (Or.inr (Or.inl ⟨jj, hjf, hlt, hjc⟩))
    · rw [he] at h
      exact nomatch h
    · exact absurd he hjne

/-- D4 followed by D5 (assign a direction and wake the dormant elevator
into step 6) preserves the invariant. -/
theorem inv_D45 {s : Sim} (hI : Inv s) (hN : s.state_ = Neutral)
    {jj : Int} (hjf : jj ∈ floors) (hjne : jj ≠ s.floor_) (hjc : callAt s jj = true)
    (h1 : einst s = 1) (w : Int) :
    Inv (schedule { s with state_ := dirToward s.floor_ jj } elevatortask 6 w) := by
  obtain ⟨hd1, hd3, hfl, _⟩ := hI.e1P h1
  set s1 := { s with state_ := dirToward s.floor_ jj } with hs1
  set r := schedule s1 elevatortask 6 w with hr
  have hein : einst r = 6 := by simp [hr]
  have huin : ∀ n, uinst r n = uinst s n := by
    intro n
    rw [hr, uinst_schedule]
    simp [hs1, uinst]
  have hstate : r.state_ = dirToward s.floor_ jj := by
    rw [hr, schedule_state]
  refine ⟨hI.wfArr, by simpa [hr, hs1] using hI.floor0, by simpa [hr, hs1] using hI.floor4,
    by simpa [hr, hs1] using hI.dExcl, ?_, by simpa [hr, hs1] using hI.qNodup,
    ?_, ?_, ?_, ?_, ?_, ?_, ?_, ?_, ?_, ?_, ?_, ?_, ?_, ?_, ?_, ?_, ?_, ?_⟩
  · rw [hr]
    exact nodup_schedule_wait (by simpa [hs1] using hI.nodupW) _ _ _
  · intro h
    rw [hein] at h
    omega
  · intro h
    rw [hein] at h
    omega
  · intro h
    rw [hein] at h
    omega
  · intro _ h
    rw [hein] at h
    omega
  · intro _
    constructor
    · show s.d1_ = false
      exact hd1
    · show s.d3_ = false
      exact hd3
  · intro h
    rw [hein] at h
    omega
  · intro h
    rw [hein] at h
    omega
  · intro h
    rw [hein] at h
    omega
  · intro h
    rw [hein] at h
    omega
  · intro h
    rw [hstate] at h
    rcases dirToward_cases s.floor_ jj with ⟨_, he⟩ | ⟨hlt, _⟩ | ⟨he, _⟩
    · rw [he] at h
      exact nomatch h
    · refine Or.inr (Or.inr (Or.inl ⟨jj, hjf, ?_, ?_⟩))
      · show s.floor_ < jj
        exact hlt
      · show callAt r jj = true
        rw [show callAt r jj = callAt s jj from rfl]
        exact hjc
    · exact absurd he hjne
  · intro h
    rw [hstate] at h
    rcases dirToward_cases s.floor_ jj with ⟨hlt, _⟩ | ⟨_, he⟩ | ⟨he, _⟩
    · refine Or.inr (Or.inr (Or.inl ⟨jj, hjf, ?_, ?_⟩))
      · show jj < s.floor_
        exact hlt
      · show callAt r jj = true
        rw [show callAt r jj = callAt s jj from rfl]
        exact hjc
    · rw [he] at h
      exact nomatch h
    · exact absurd he hjne
  · intro hm
    rw [hr] at hm
    rcases mem_wait_schedule_elim hm with he | hm'
    · exact nomatch he
    · have := hI.e5P (by simpa [hs1] using hm')
      rw [h1] at this
      omega
  · intro n k hn
    obtain ⟨ha, hb, hc⟩ := hI.queueP n k (by simpa [hr, hs1] using hn)
    exact ⟨by rw [huin]; exact ha, by simpa [hr, hs1, UserOK] using hb,
      by simpa [hr, hs1] using hc⟩
  · intro n hn
    obtain ⟨ha, hb⟩ := hI.carP n (by simpa [hr, hs1] using hn)
    exact ⟨by rw [huin]; exact ha, by simpa [hr, hs1, UserOK] using hb⟩
  · intro n k hn
    have := hI.disjP n k (by simpa [hr, hs1] using hn)
    simpa [hr, hs1] using this
  · intro n hn h5
    rw [huin] at h5
    rcases mem_wait_schedule_elim (by rw [← hr]; exact hn) with he | hm
    · exact nomatch he
    · have := (hI.u5P n (by simpa [hs1] using hm) h5).2.2
      rw [h1] at this
      omega
  · obtain ⟨n, hn, hn1⟩ := hI.arriveP
    refine ⟨n, ?_, by rw [huin]; exact hn1⟩
    rw [hr]
    exact mem_wait_schedule_of_ne (by simpa [hs1] using hn) (fun h => nomatch h)
  · intro m hm
    obtain ⟨ha, hb, hc⟩ := hI.freshP m (by simpa [hr, hs1] using hm)
    refine ⟨?_, by simpa [hr, hs1] using hb, by simpa [hr, hs1] using hc⟩
    intro hmem
    rw [hr] at hmem
    rcases mem_wait_schedule_elim hmem with he | hmem'
    · exact nomatch he
    · exact ha (by simpa [hs1] using hmem')

/-- The decision subroutine, invoked with the caller flag false (as from
U1 and E9), preserves the invariant. -/
theorem inv_decision {s : Sim} (hI : Inv s) (now : Int) :
    Inv (decision s now false) := by
  by_cases hN : s.state_ = Neutral
  · rcases decision_spec s now false hN with ⟨_, heq⟩ | ⟨h1, heq⟩ | ⟨jj, hev, hcase⟩
    · rw [heq]
      exact hI
    · rw [heq]
      exact inv_D2 hI h1 hN _
    · rcases hev with ⟨hjf, hjne, hjc⟩ | ⟨hb, _⟩
      · rcases hcase with ⟨hni, heq⟩ | ⟨h1, hj2, heq⟩
        · rw [heq]
          exact inv_D4 hI hN hjf hjne hjc hni
        · rw [heq]
          exact inv_D45 hI hN hjf hjne hjc h1 _
      · exact nomatch hb
  · rw [decision_of_not_neutral hN]
    exact hI

/-! ### Invariant preservation, case by case -/

theorem inv_E1 {s : Sim} {rest : List TaskId} (hI : Inv s)
    (hw : s.wait_ = elevatortask :: rest) (h1 : einst s = 1) :
    Inv (elevatorResume { s with wait_ := rest }) := by
  have h1' : s.nextinst_ elevatortask = 1 := h1
  have heq : elevatorResume { s with wait_ := rest } = { s with wait_ := rest } := by
    unfold elevatorResume
    simp [h1']
  rw [heq]
  exact inv_pop hI hw (fun n h => nomatch h)

theorem inv_Edefault {s : Sim} {rest : List TaskId} (hI : Inv s)
    (hw : s.wait_ = elevatortask :: rest)
    (hno : einst s ≠ 1 ∧ einst s ≠ 2 ∧ einst s ≠ 3 ∧ einst s ≠ 4 ∧
      einst s ≠ 6 ∧ einst s ≠ 7 ∧ einst s ≠ 71 ∧ einst s ≠ 8 ∧ einst s ≠ 81) :
    Inv (elevatorResume { s with wait_ := rest }) := by
  obtain ⟨n1, n2, n3, n4, n6, n7, n71, n8, n81⟩ := hno
  have heq : elevatorResume { s with wait_ := rest } = { s with wait_ := rest } := by
    unfold elevatorResume
    simp only [einst] at n1 n2 n3 n4 n6 n7 n71 n8 n81
    simp [if_neg, n1, n2, n3, n4, n6, n7, n71, n8, n81]
  rw [heq]
  exact inv_pop hI hw (fun n h => nomatch h)

theorem inv_Udefault {s : Sim} {rest : List TaskId} {m : Nat} (hI : Inv s)
    (hw : s.wait_ = usertask m :: rest)
    (hno : uinst s m ≠ 1 ∧ uinst s m ≠ 4 ∧ uinst s m ≠ 5 ∧ uinst s m ≠ 6) :
    Inv (userResume { s with wait_ := rest } m) := by
  obtain ⟨n1, n4, n5, n6⟩ := hno
  have heq : userResume { s with wait_ := rest } m = { s with wait_ := rest } := by
    unfold userResume
    simp only [uinst] at n1 n4 n5 n6
    simp [if_neg, n1, n4, n5, n6]
  rw [heq]
  refine inv_pop hI hw ?_
  intro n h
  cases h
  exact n1

theorem inv_U6 {s : Sim} {rest : List TaskId} {m : Nat} (hI : Inv s)
    (hw : s.wait_ = usertask m :: rest) (h6 : uinst s m = 6) :
    Inv (userResume { s with wait_ := rest } m) := by
  have h6' : s.nextinst_ (usertask m) = 6 := h6
  have heq : userResume { s with wait_ := rest } m =
      { s with wait_ := rest, elevator_ := std_erase s.elevator_ m } := by
    unfold userResume
    simp [h6']
  rw [heq]
  have hpop := inv_pop (b := s.d2_) hI hw
    (by intro n h; cases h; rw [h6]; omega)
  obtain ⟨htm, hnr, hnt, hsub⟩ := popped_facts hI hw
  refine ⟨hI.wfArr, hI.floor0, hI.floor4, hI.dExcl, hnr, hI.qNodup,
    hI.e1P, hI.e2P, hI.e3P, ?_, hI.e6P, hI.e7P, hI.e71P, hI.e8P, hI.e81P,
    hI.gUp, hI.gDn, ?_, hI.queueP, ?_, ?_, ?_, ?_, ?_⟩
  · intro hm hi
    exact hI.e4P (hsub _ hm) hi
  · intro hm
    exact hI.e5P (hsub _ hm)
  · intro n hn
    exact hI.carP n (List.mem_of_mem_erase hn)
  · intro n k hn hmem
    exact hI.disjP n k hn (List.mem_of_mem_erase hmem)
  · intro n hn h5
    exact hI.u5P n (hsub _ hn) h5
  · obtain ⟨n, hn, hn1⟩ := hI.arriveP
    refine ⟨n, ?_, hn1⟩
    rw [hw] at hn
    rcases List.mem_cons.mp hn with he | hm
    · cases he
      rw [hn1] at h6
      omega
    · exact hm
  · intro q hq
    obtain ⟨ha, hb, hc⟩ := hI.freshP q hq
    refine ⟨fun hmem => ha (hsub _ hmem), hb, ?_⟩
    intro hmem
    exact hc (List.mem_of_mem_erase hmem)

theorem inv_E9 {s : Sim} {rest : List TaskId} (hI : Inv s)
    (hw : s.wait_ = e9task :: rest) :
    Inv (e9Resume { s with wait_ := rest }) := by
  have heq : e9Resume { s with wait_ := rest } =
      decision { s with wait_ := rest, d2_ := false }
        (s.nexttime_ e9task) false := by
    unfold e9Resume
    rfl
  rw [heq]
  exact inv_decision (inv_pop hI hw (fun n h => nomatch h)) _

/-! ### E2 direction recomputation facts -/

theorem wants_up_upOK {s : Sim}
    (h : (passenger_wants_up s || waiter_wants_up s) = true) : upOK s := by
  rw [Bool.or_eq_true] at h
  rcases h with h | h
  · rw [passenger_wants_up, List.any_eq_true] at h
    obtain ⟨j, hj, hp⟩ := h
    simp only [Bool.and_eq_true, decide_eq_true_eq] at hp
    refine Or.inl ⟨j, hj, hp.2, ?_⟩
    rw [callAt, hp.1.2]
    simp
  · rw [waiter_wants_up, List.any_eq_true] at h
    obtain ⟨j, hj, hp⟩ := h
    simp only [Bool.and_eq_true, decide_eq_true_eq] at hp
    refine Or.inl ⟨j, hj, hp.2, ?_⟩
    rcases Bool.or_eq_true _ _ |>.mp hp.1.2 with h2 | h2
    · rw [callAt, h2]
      simp
    · rw [callAt, h2]
      simp

theorem wants_down_downOK {s : Sim}
    (h : (passenger_wants_down s || waiter_wants_down s) = true) : downOK s := by
  rw [Bool.or_eq_true] at h
  have key : ∀ j, j ∈ floors → j ≠ s.floor_ → ¬(j > s.floor_) → j < s.floor_ := by
    intro j _ hne hng
    omega
  rcases h with h | h
  · rw [passenger_wants_down, List.any_eq_true] at h
    obtain ⟨j, hj, hp⟩ := h
    simp only [Bool.and_eq_true, decide_eq_true_eq] at hp
    refine Or.inl ⟨j, hj, key j hj hp.1.1 hp.2, ?_⟩
    rw [callAt, hp.1.2]
    simp
  · rw [waiter_wants_down, List.any_eq_true] at h
    obtain ⟨j, hj, hp⟩ := h
    simp only [Bool.and_eq_true, decide_eq_true_eq] at hp
    refine Or.inl ⟨j, hj, key j hj hp.1.1 hp.2, ?_⟩
    rcases Bool.or_eq_true _ _ |>.mp hp.1.2 with h2 | h2
    · rw [callAt, h2]
      simp
    · rw [callAt, h2]
      simp

theorem e2NewState_up {s : Sim} (h : e2NewState s = GoingUp) : upOK s := by
  unfold e2NewState at h
  by_cases hA : s.state_ = GoingUp ∧ ¬(passenger_wants_up s || waiter_wants_up s) = true
  · rw [if_pos hA] at h
    by_cases hp : passenger_wants_down s = true
    · rw [if_pos hp] at h
      exact nomatch h
    · rw [if_neg hp] at h
      exact nomatch h
  · rw [if_neg hA] at h
    by_cases hB : s.state_ = GoingDown ∧ ¬(passenger_wants_down s || waiter_wants_down s) = true
    · rw [if_pos hB] at h
      by_cases hp : passenger_wants_up s = true
      · apply wants_up_upOK
        rw [Bool.or_eq_true]
        exact Or.inl hp
      · rw [if_neg hp] at h
        exact nomatch h
    · rw [if_neg hB] at h
      apply wants_up_upOK
      by_contra hw
      exact hA ⟨h, hw⟩

theorem e2NewState_down {s : Sim} (h : e2NewState s = GoingDown) : downOK s := by
  unfold e2NewState at h
  by_cases hA : s.state_ = GoingUp ∧ ¬(passenger_wants_up s || waiter_wants_up s) = true
  · rw [if_pos hA] at h
    by_cases hp : passenger_wants_down s = true
    · apply wants_down_downOK
      rw [Bool.or_eq_true]
      exact Or.inl hp
    · rw [if_neg hp] at h
      exact nomatch h
  · rw [if_neg hA] at h
    by_cases hB : s.state_ = GoingDown ∧ ¬(passenger_wants_down s || waiter_wants_down s) = true
    · rw [if_pos hB] at h
      by_cases hp : passenger_wants_up s = true
      · rw [if_pos hp] at h
        exact nomatch h
      · rw [if_neg hp] at h
        exact nomatch h
    · rw [if_neg hB] at h
      apply wants_down_downOK
      by_contra hw
      exact hB ⟨h, hw⟩

/-! ### Door opening (E3, also entered from E2) -/

theorem inv_openDoors {s : Sim} {rest : List TaskId} (hI : Inv s)
    (hw : s.wait_ = elevatortask :: rest) (d : Direction)
    (hup : d = GoingUp → upOK s) (hdn : d = GoingDown → downOK s)
    (hd3 : s.d3_ = false) (now : Int) :
    Inv (elevatorE3 { s with wait_ := rest, state_ := d } now) := by
  obtain ⟨htm, hnr, hnt, hsub⟩ := popped_facts hI hw
  set x : Sim := { s with wait_ := rest, state_ := d } with hx
  set r := elevatorE3 x now with hr
  have hrr : r = schedule (schedule (schedule { x with d1_ := true, d2_ := true }
      e9task 9 (now + durationBeforeInactivity)) e5task 5 (now + durationBeforeDoorClose))
      elevatortask 4 (now + durationOfDoorOpen) := by
    rw [hr]
    rfl
  have hein : einst r = 4 := by
    rw [hrr]
    simp
  have huin : ∀ n, uinst r n = uinst s n := by
    intro n
    rw [hrr, uinst_schedule, uinst_schedule, uinst_schedule]
    simp [uinst]
  have hmemE : ∀ y : TaskId, y ∈ r.wait_ →
      y = elevatortask ∨ y = e5task ∨ y = e9task ∨ y ∈ rest := by
    intro y hy
    rw [hrr] at hy
    rcases mem_wait_schedule_elim hy with he | hy'
    · exact Or.inl he
    · rcases mem_wait_schedule_elim hy' with he | hy''
      · exact Or.inr (Or.inl he)
      · rcases mem_wait_schedule_elim hy'' with he | hy3
        · exact Or.inr (Or.inr (Or.inl he))
        · exact Or.inr (Or.inr (Or.inr hy3))
  have hmemI : ∀ n : Nat, usertask n ∈ rest → usertask n ∈ r.wait_ := by
    intro n hn
    rw [hrr]
    refine mem_wait_schedule_of_ne (mem_wait_schedule_of_ne
      (mem_wait_schedule_of_ne ?_ (fun h => nomatch h)) (fun h => nomatch h))
      (fun h => nomatch h)
    exact hn
  have hfields : r.floor_ = s.floor_ ∧ r.d1_ = true ∧ r.d3_ = s.d3_ ∧ r.state_ = d ∧
      r.callup_ = s.callup_ ∧ r.calldown_ = s.calldown_ ∧ r.callcar_ = s.callcar_ ∧
      r.queue_ = s.queue_ ∧ r.elevator_ = s.elevator_ ∧ r.users_ = s.users_ ∧
      r.nextUserId_ = s.nextUserId_ ∧ r.arrivals_ = s.arrivals_ := by
    rw [hrr]
    exact ⟨rfl, rfl, rfl, rfl, rfl, rfl, rfl, rfl, rfl, rfl, rfl, rfl⟩
  obtain ⟨hf, hg1, hg3, hgs, hcu, hcd, hcc, hq, he, hu, hnu, har⟩ := hfields
  have hcalls : callsLE s r := callsLE_of_eq hcu hcd hcc
  refine ⟨by rw [har]; exact hI.wfArr, by rw [hf]; exact hI.floor0,
    by rw [hf]; exact hI.floor4, ?_, ?_, by rw [hq]; exact hI.qNodup,
    ?_, ?_, ?_, ?_, ?_, ?_, ?_, ?_, ?_, ?_, ?_, ?_, ?_, ?_, ?_, ?_, ?_, ?_⟩
  · rw [hg1, hg3, hd3]
    intro h
    exact nomatch h.2
  · rw [hrr]
    refine nodup_schedule_wait (nodup_schedule_wait (nodup_schedule_wait ?_ _ _ _) _ _ _) _ _ _
    exact hnr
  · intro h
    rw [hein] at h
    omega
  · intro h
    rw [hein] at h
    omega
  · intro h
    rw [hein] at h
    omega
  · intro _ _
    exact ⟨hg1, by rw [hg3]; exact hd3⟩
  · intro h
    rw [hein] at h
    omega
  · intro h
    rw [hein] at h
    omega
  · intro h
    rw [hein] at h
    omega
  · intro h
    rw [hein] at h
    omega
  · intro h
    rw [hein] at h
    omega
  · intro h
    rw [hgs] at h
    exact Or.inr (Or.inr (upOK_mono hf hcalls (hup h)))
  · intro h
    rw [hgs] at h
    exact Or.inr (Or.inr (downOK_mono hf hcalls (hdn h)))
  · intro _
    exact Or.inr hein
  · intro n k hn
    rw [hq] at hn
    obtain ⟨ha, hb, hc⟩ := hI.queueP n k hn
    exact ⟨by rw [huin]; exact ha, by rw [UserOK, hu]; exact hb, by rw [hu]; exact hc⟩
  · intro n hn
    rw [he] at hn
    obtain ⟨ha, hb⟩ := hI.carP n hn
    exact ⟨by rw [huin]; exact ha, by rw [UserOK, hu]; exact hb⟩
  · intro n k hn
    rw [hq] at hn
    rw [he]
    exact hI.disjP n k hn
  · intro n hn h5
    rw [huin] at h5
    rcases hmemE _ hn with h | h | h | h
    · exact nomatch h
    · exact nomatch h
    · exact nomatch h
    · obtain ⟨_, hb, _⟩ := hI.u5P n (hsub _ h) h5
      exact ⟨hg1, by rw [hq, hf]; exact hb, hein⟩
  · obtain ⟨n, hn, hn1⟩ := hI.arriveP
    rw [hw] at hn
    rcases List.mem_cons.mp hn with hh | hm
    · exact nomatch hh
    · exact ⟨n, hmemI n hm, by rw [huin]; exact hn1⟩
  · intro m hm
    rw [hnu] at hm
    obtain ⟨ha, hb, hc⟩ := hI.freshP m hm
    refine ⟨?_, by rw [hq]; exact hb, by rw [he]; exact hc⟩
    intro hmem
    rcases hmemE _ hmem with h | h | h | h
    · exact nomatch h
    · exact nomatch h
    · exact nomatch h
    · exact ha (hsub _ h)

theorem inv_E3 {s : Sim} {rest : List TaskId} (hI : Inv s)
    (hw : s.wait_ = elevatortask :: rest) (h3 : einst s = 3) :
    Inv (elevatorResume { s with wait_ := rest }) := by
  have h3' : s.nextinst_ elevatortask = 3 := h3
  have heq : elevatorResume { s with wait_ := rest } =
      elevatorE3 { s with wait_ := rest } (s.nexttime_ elevatortask) := by
    unfold elevatorResume
    simp [h3']
  rw [heq]
  have hup : s.state_ = GoingUp → upOK s := by
    intro h
    rcases hI.gUp h with h2 | h2 | h2
    · rw [h3] at h2
      omega
    · rw [h3] at h2
      omega
    · exact h2
  have hdn : s.state_ = GoingDown → downOK s := by
    intro h
    rcases hI.gDn h with h2 | h2 | h2
    · rw [h3] at h2
      omega
    · rw [h3] at h2
      omega
    · exact h2
  exact inv_openDoors hI hw s.state_ hup hdn (hI.e3P h3) _

theorem inv_E2 {s : Sim} {rest : List TaskId} (hI : Inv s)
    (hw : s.wait_ = elevatortask :: rest) (h2 : einst s = 2) :
    Inv (elevatorResume { s with wait_ := rest }) := by
  have h2' : s.nextinst_ elevatortask = 2 := h2
  have hee : e2NewState { s with wait_ := rest } = e2NewState s := rfl
  have heq : elevatorResume { s with wait_ := rest } =
      elevatorE3 { s with wait_ := rest, state_ := e2NewState s }
        (s.nexttime_ elevatortask) := by
    unfold elevatorResume
    simp [h2', hee]
  rw [heq]
  exact inv_openDoors hI hw (e2NewState s)
    (fun h => e2NewState_up h) (fun h => e2NewState_down h) (hI.e2P h2).2 _

/-! ### E5, the door-close monitor -/

theorem inv_E5 {s : Sim} {rest : List TaskId} (hI : Inv s)
    (hw : s.wait_ = e5task :: rest) :
    Inv (e5Resume { s with wait_ := rest }) := by
  obtain ⟨htm, hnr, hnt, hsub⟩ := popped_facts hI hw
  have hE34 := hI.e5P htm
  by_cases hd1 : s.d1_ = true
  · -- door flutter: reschedule the monitor
    have heq : e5Resume { s with wait_ := rest } =
        schedule { s with wait_ := rest } e5task 5
          (s.nexttime_ e5task + delayAfterDoorFlutter) := by
      unfold e5Resume
      simp [hd1]
    rw [heq]
    set r := schedule { s with wait_ := rest } e5task 5
      (s.nexttime_ e5task + delayAfterDoorFlutter) with hr
    have hein : einst r = einst s := by
      rw [hr, einst_schedule]
      simp [einst]
    have huin : ∀ n, uinst r n = uinst s n := by
      intro n
      rw [hr, uinst_schedule]
      simp [uinst]
    refine ⟨hI.wfArr, hI.floor0, hI.floor4, hI.dExcl, ?_, hI.qNodup,
      ?_, ?_, ?_, ?_, ?_, ?_, ?_, ?_, ?_, ?_, ?_, ?_, ?_, ?_, ?_, ?_, ?_, ?_⟩
    · rw [hr]
      exact nodup_schedule_wait hnr _ _ _
    · intro h
      rw [hein] at h
      exact hI.e1P h
    · intro h
      rw [hein] at h
      exact hI.e2P h
    · intro h
      rw [hein] at h
      exact hI.e3P h
    · intro hm h
      rw [hein] at h
      rcases mem_wait_schedule_elim hm with he | hm'
      · exact nomatch he
      · exact hI.e4P (hsub _ hm') h
    · intro h
      rw [hein] at h
      exact hI.e6P h
    · intro h
      rw [hein] at h
      exact hI.e7P h
    · intro h
      rw [hein] at h
      exact hI.e71P h
    · intro h
      rw [hein] at h
      exact hI.e8P h
    · intro h
      rw [hein] at h
      exact hI.e81P h
    · intro h
      rw [show r.state_ = s.state_ from rfl] at h
      rw [hein]
      exact hI.gUp h
    · intro h
      rw [show r.state_ = s.state_ from rfl] at h
      rw [hein]
      exact hI.gDn h
    · intro _
      rw [hein]
      exact hE34
    · intro n k hn
      obtain ⟨ha, hb, hc⟩ := hI.queueP n k hn
      exact ⟨by rw [huin]; exact ha, hb, hc⟩
    · intro n hn
      obtain ⟨ha, hb⟩ := hI.carP n hn
      exact ⟨by rw [huin]; exact ha, hb⟩
    · exact hI.disjP
    · intro n hn h5
      rw [huin] at h5
      rcases mem_wait_schedule_elim hn with he | hm'
      · exact nomatch he
      · obtain ⟨ha, hb, hc⟩ := hI.u5P n (hsub _ hm') h5
        exact ⟨ha, hb, by rw [hein]; exact hc⟩
    · obtain ⟨n, hn, hn1⟩ := hI.arriveP
      rw [hw] at hn
      rcases List.mem_cons.mp hn with hh | hm
      · exact nomatch hh
      · exact ⟨n, mem_wait_schedule_of_ne hm (fun h => nomatch h),
          by rw [huin]; exact hn1⟩
    · intro m hm
      obtain ⟨ha, hb, hc⟩ := hI.freshP m hm
      refine ⟨?_, hb, hc⟩
      intro hmem
      rcases mem_wait_schedule_elim hmem with he | hmem'
      · exact nomatch he
      · exact ha (hsub _ hmem')
  · -- doors no longer busy: close them and prepare to move
    have hd1' : s.d1_ = false := by
      cases h : s.d1_
      · rfl
      · exact absurd h hd1
    have heq : e5Resume { s with wait_ := rest } =
        schedule { s with wait_ := rest, d3_ := false } elevatortask 6
          (s.nexttime_ e5task + durationOfDoorClose) := by
      unfold e5Resume
      simp [hd1]
    rw [heq]
    set r := schedule { s with wait_ := rest, d3_ := false } elevatortask 6
      (s.nexttime_ e5task + durationOfDoorClose) with hr
    have hein : einst r = 6 := by
      rw [hr]
      simp
    have huin : ∀ n, uinst r n = uinst s n := by
      intro n
      rw [hr, uinst_schedule]
      simp [uinst]
    have hstate : r.state_ = s.state_ := rfl
    have hnotexempt : einst s ≠ 2 ∧ einst s ≠ 71 ∧ einst s ≠ 81 := by
      rcases hE34 with h | h <;> rw [h] <;> omega
    refine ⟨hI.wfArr, hI.floor0, hI.floor4, ?_, ?_, hI.qNodup,
      ?_, ?_, ?_, ?_, ?_, ?_, ?_, ?_, ?_, ?_, ?_, ?_, ?_, ?_, ?_, ?_, ?_, ?_⟩
    · show ¬(s.d1_ = true ∧ false = true)
      intro h
      exact nomatch h.2
    · rw [hr]
      exact nodup_schedule_wait hnr _ _ _
    · intro h
      rw [hein] at h
      omega
    · intro h
      rw [hein] at h
      omega
    · intro h
      rw [hein] at h
      omega
    · intro _ h
      rw [hein] at h
      omega
    · intro _
      exact ⟨hd1', rfl⟩
    · intro h
      rw [hein] at h
      omega
    · intro h
      rw [hein] at h
      omega
    · intro h
      rw [hein] at h
      omega
    · intro h
      rw [hein] at h
      omega
    · intro h
      rw [hstate] at h
      rcases hI.gUp h with h2 | h2 | h2
      · exact absurd h2 hnotexempt.1
      · exact absurd h2 hnotexempt.2.1
      · exact Or.inr (Or.inr (upOK_mono rfl (callsLE_of_eq rfl rfl rfl) h2))
    · intro h
      rw [hstate] at h
      rcases hI.gDn h with h2 | h2 | h2
      · exact absurd h2 hnotexempt.1
      · exact absurd h2 hnotexempt.2.2
      · exact Or.inr (Or.inr (downOK_mono rfl (callsLE_of_eq rfl rfl rfl) h2))
    · intro hm
      rcases mem_wait_schedule_elim hm with he | hm'
      · exact nomatch he
      · exact absurd hm' hnt
    · intro n k hn
      obtain ⟨ha, hb, hc⟩ := hI.queueP n k hn
      exact ⟨by rw [huin]; exact ha, hb, hc⟩
    · intro n hn
      obtain ⟨ha, hb⟩ := hI.carP n hn
      exact ⟨by rw [huin]; exact ha, hb⟩
    · exact hI.disjP
    · intro n hn h5
      rw [huin] at h5
      rcases mem_wait_schedule_elim hn with he | hm'
      · exact nomatch he
      · obtain ⟨ha, _, _⟩ := hI.u5P n (hsub _ hm') h5
        exact absurd ha hd1
    · obtain ⟨n, hn, hn1⟩ := hI.arriveP
      rw [hw] at hn
      rcases List.mem_cons.mp hn with hh | hm
      · exact nomatch hh
      · exact ⟨n, mem_wait_schedule_of_ne hm (fun h => nomatch h),
          by rw [huin]; exact hn1⟩
    · intro m hm
      obtain ⟨ha, hb, hc⟩ := hI.freshP m hm
      refine ⟨?_, hb, hc⟩
      intro hmem
      rcases mem_wait_schedule_elim hmem with he | hmem'
      · exact nomatch he
      · exact ha (hsub _ hmem')

/-! ### U4, the give-up step -/

theorem inv_U4 {s : Sim} {rest : List TaskId} {m : Nat} (hI : Inv s)
    (hw : s.wait_ = usertask m :: rest) (h4 : uinst s m = 4) :
    Inv (userResume { s with wait_ := rest } m) := by
  have h4' : s.nextinst_ (usertask m) = 4 := h4
  obtain ⟨htm, hnr, hnt, hsub⟩ := popped_facts hI hw
  by_cases hc : s.floor_ = (s.users_ m).in_ ∧ s.d1_ = true
  · -- the rider has been reached in time: no-op
    have heq : userResume { s with wait_ := rest } m = { s with wait_ := rest } := by
      unfold userResume
      simp [h4', elevator_is_available, hc.1, hc.2]
    rw [heq]
    refine inv_pop hI hw ?_
    intro n h
    cases h
    rw [h4]
    omega
  · -- abandonment: leave the waiting roster
    have heq : userResume { s with wait_ := rest } m =
        { s with
          wait_ := rest
          queue_ := Function.update s.queue_ ((s.users_ m).in_)
            (std_erase (s.queue_ ((s.users_ m).in_)) m) } := by
      unfold userResume
      simp [h4', elevator_is_available, hc]
    rw [heq]
    set q' := Function.update s.queue_ ((s.users_ m).in_)
      (std_erase (s.queue_ ((s.users_ m).in_)) m) with hq'
    have hqsub : ∀ n k, n ∈ q' k → n ∈ s.queue_ k := by
      intro n k hn
      rw [hq', Function.update_apply] at hn
      by_cases hk : k = (s.users_ m).in_
      · rw [if_pos hk] at hn
        rw [hk]
        exact List.mem_of_mem_erase hn
      · rw [if_neg hk] at hn
        exact hn
    refine ⟨hI.wfArr, hI.floor0, hI.floor4, hI.dExcl, hnr, ?_,
      hI.e1P, hI.e2P, hI.e3P, ?_, hI.e6P, hI.e7P, hI.e71P, hI.e8P, hI.e81P,
      hI.gUp, hI.gDn, ?_, ?_, hI.carP, ?_, ?_, ?_, ?_⟩
    · intro k
      show (q' k).Nodup
      rw [hq', Function.update_apply]
      by_cases hk : k = (s.users_ m).in_
      · rw [if_pos hk]
        exact (hI.qNodup _).erase m
      · rw [if_neg hk]
        exact hI.qNodup k
    · intro hm hi
      exact hI.e4P (hsub _ hm) hi
    · intro hm
      exact hI.e5P (hsub _ hm)
    · intro n k hn
      exact hI.queueP n k (hqsub n k hn)
    · intro n k hn
      exact hI.disjP n k (hqsub n k hn)
    · intro n hn h5
      obtain ⟨ha, hb, hcc⟩ := hI.u5P n (hsub _ hn) h5
      refine ⟨ha, ?_, hcc⟩
      show n ∈ q' s.floor_
      rw [hq', Function.update_apply]
      by_cases hk : s.floor_ = (s.users_ m).in_
      · rw [if_pos hk]
        rw [hk] at hb
        refine (List.mem_erase_of_ne ?_).mpr hb
        intro hnm
        have h5' : uinst s m = 5 := by
          rw [← hnm]
          exact h5
        rw [h4] at h5'
        omega
      · rw [if_neg hk]
        exact hb
    · obtain ⟨n, hn, hn1⟩ := hI.arriveP
      rw [hw] at hn
      rcases List.mem_cons.mp hn with hh | hm'
      · cases hh
        rw [hn1] at h4
        omega
      · exact ⟨n, hm', hn1⟩
    · intro q hq
      obtain ⟨ha, hb, hcc⟩ := hI.freshP q hq
      exact ⟨fun hmem => ha (hsub _ hmem), fun k hk => hb k (hqsub q k hk), hcc⟩

/-! ### Travel steps E7 / E8 and the between-floor checks -/

theorem mem_floors_bounds : ∀ j ∈ floors, 0 ≤ j ∧ j ≤ 4 := by decide

theorem wants_up_false {s : Sim}
    (h : (passenger_wants_up s || waiter_wants_up s) = false) :
    ∀ j ∈ floors, s.floor_ < j → callAt s j = false := by
  rw [Bool.or_eq_false_iff] at h
  obtain ⟨hp, hw⟩ := h
  rw [passenger_wants_up, List.any_eq_false] at hp
  rw [waiter_wants_up, List.any_eq_false] at hw
  intro j hj hlt
  have hne : j ≠ s.floor_ := by omega
  have h1 := hp j hj
  have h2 := hw j hj
  simp only [Bool.and_eq_true, decide_eq_true_eq, not_and] at h1 h2
  rw [callAt]
  have hcc : s.callcar_ j = false := by
    by_cases hcase : s.callcar_ j = true
    · exact absurd hlt (h1 ⟨hne, hcase⟩)
    · exact Bool.eq_false_iff.mpr hcase
  have hud : (s.callup_ j || s.calldown_ j) = false := by
    by_cases hcase : (s.callup_ j || s.calldown_ j) = true
    · exact absurd hlt (h2 ⟨hne, hcase⟩)
    · exact Bool.eq_false_iff.mpr hcase
  rw [Bool.or_eq_false_iff] at hud
  rw [hud.1, hud.2, hcc]
  rfl

theorem wants_down_false {s : Sim}
    (h : (passenger_wants_down s || waiter_wants_down s) = false) :
    ∀ j ∈ floors, j < s.floor_ → callAt s j = false := by
  rw [Bool.or_eq_false_iff] at h
  obtain ⟨hp, hw⟩ := h
  rw [passenger_wants_down, List.any_eq_false] at hp
  rw [waiter_wants_down, List.any_eq_false] at hw
  intro j hj hlt
  have hne : j ≠ s.floor_ := by omega
  have hng : ¬(j > s.floor_) := by omega
  have h1 := hp j hj
  have h2 := hw j hj
  simp only [Bool.and_eq_true, decide_eq_true_eq, not_and] at h1 h2
  rw [callAt]
  have hcc : s.callcar_ j = false := by
    by_cases hcase : s.callcar_ j = true
    · exact absurd hng (h1 ⟨hne, hcase⟩)
    · exact Bool.eq_false_iff.mpr hcase
  have hud : (s.callup_ j || s.calldown_ j) = false := by
    by_cases hcase : (s.callup_ j || s.calldown_ j) = true
    · exact absurd hng (h2 ⟨hne, hcase⟩)
    · exact Bool.eq_false_iff.mpr hcase
  rw [Bool.or_eq_false_iff] at hud
  rw [hud.1, hud.2, hcc]
  rfl

/-- Shared worker for the four travel transitions: the result is
`schedule` (or `schedule_immediately`) of the elevator task applied to the
popped state with a possibly changed floor.  `g` selects the flavour. -/
theorem inv_travel {s : Sim} {rest : List TaskId} (hI : Inv s)
    (hw : s.wait_ = elevatortask :: rest)
    (f' : Int) (inst' w : Int) (g : Bool)
    (hd1 : s.d1_ = false) (hd3 : s.d3_ = false)
    (hf0 : 0 ≤ f') (hf4 : f' ≤ 4)
    (hgood :
      (inst' = 2) ∨
      (inst' = 7 ∧ f' = s.floor_ ∧ f' < 4 ∧
        upOK { s with wait_ := rest, floor_ := f' }) ∨
      (inst' = 71 ∧ f' = s.floor_ + 1 ∧
        upReach { s with wait_ := rest, floor_ := f' }) ∨
      (inst' = 8 ∧ f' = s.floor_ ∧ 0 < f' ∧
        downOK { s with wait_ := rest, floor_ := f' }) ∨
      (inst' = 81 ∧ f' = s.floor_ - 1 ∧
        downReach { s with wait_ := rest, floor_ := f' }))
    (hup : s.state_ = GoingUp → (inst' = 2 ∨ inst' = 71) ∨
      upOK { s with wait_ := rest, floor_ := f' })
    (hdn : s.state_ = GoingDown → (inst' = 2 ∨ inst' = 81) ∨
      downOK { s with wait_ := rest, floor_ := f' })
    (hnot34 : einst s ≠ 3 ∧ einst s ≠ 4) :
    Inv (if g then
          schedule_immediately { s with wait_ := rest, floor_ := f' } elevatortask inst' w
         else
          schedule { s with wait_ := rest, floor_ := f' } elevatortask inst' w) := by
  obtain ⟨htm, hnr, hnt, hsub⟩ := popped_facts hI hw
  set x : Sim := { s with wait_ := rest, floor_ := f' } with hx
  set r := (if g then schedule_immediately x elevatortask inst' w
            else schedule x elevatortask inst' w) with hr
  have hein : einst r = inst' := by
    rw [hr]
    cases g
    · simp
    · simp
  have huin : ∀ n, uinst r n = uinst s n := by
    intro n
    rw [hr]
    cases g
    · rw [if_neg (by simp), uinst_schedule]
      simp [hx, uinst]
    · rw [if_pos rfl, uinst_schim]
      simp [hx, uinst]
  have hmemE : ∀ y : TaskId, y ∈ r.wait_ → y = elevatortask ∨ y ∈ rest := by
    intro y hy
    rw [hr] at hy
    cases g
    · rw [if_neg (by simp)] at hy
      exact mem_wait_schedule_elim hy
    · rw [if_pos rfl] at hy
      exact mem_wait_schim_elim hy
  have hmemI : ∀ n : Nat, usertask n ∈ rest → usertask n ∈ r.wait_ := by
    intro n hn
    rw [hr]
    cases g
    · rw [if_neg (by simp)]
      exact mem_wait_schedule_of_ne hn (fun h => nomatch h)
    · rw [if_pos rfl]
      exact mem_wait_schim_of_ne hn (fun h => nomatch h)
  have hfields : r.floor_ = f' ∧ r.d1_ = s.d1_ ∧ r.d3_ = s.d3_ ∧
      r.state_ = s.state_ ∧ r.callup_ = s.callup_ ∧ r.calldown_ = s.calldown_ ∧
      r.callcar_ = s.callcar_ ∧ r.queue_ = s.queue_ ∧ r.elevator_ = s.elevator_ ∧
      r.users_ = s.users_ ∧ r.nextUserId_ = s.nextUserId_ ∧
      r.arrivals_ = s.arrivals_ := by
    rw [hr]
    cases g
    · rw [if_neg (by simp)]
      exact ⟨rfl, rfl, rfl, rfl, rfl, rfl, rfl, rfl, rfl, rfl, rfl, rfl⟩
    · rw [if_pos rfl]
      exact ⟨rfl, rfl, rfl, rfl, rfl, rfl, rfl, rfl, rfl, rfl, rfl, rfl⟩
  obtain ⟨hf, hg1, hg3, hgs, hcu, hcd, hcc, hq, he, hu, hnu, har⟩ := hfields
  have hxcalls : callsLE x r := callsLE_of_eq (by rw [hcu]) (by rw [hcd])
    (by rw [hcc])
  have hxf : r.floor_ = x.floor_ := by
    rw [hf]
  have hnodup : r.wait_.Nodup := by
    rw [hr]
    cases g
    · rw [if_neg (by simp)]
      exact nodup_schedule_wait hnr _ _ _
    · rw [if_pos rfl]
      exact nodup_schim_wait hnr _ _ _
  have hno5 : ∀ n, usertask n ∈ r.wait_ → uinst r n = 5 → False := by
    intro n hn h5
    rw [huin] at h5
    rcases hmemE _ hn with hh | hh
    · exact nomatch hh
    · have := (hI.u5P n (hsub _ hh) h5).2.2
      exact hnot34.2 this
  refine ⟨by rw [har]; exact hI.wfArr, by rw [hf]; exact hf0,
    by rw [hf]; exact hf4, ?_, hnodup, by rw [hq]; exact hI.qNodup,
    ?_, ?_, ?_, ?_, ?_, ?_, ?_, ?_, ?_, ?_, ?_, ?_, ?_, ?_, ?_, ?_, ?_, ?_⟩
  · rw [hg1, hg3, hd1]
    intro h
    exact nomatch h.1
  · intro h
    rw [hein] at h
    rcases hgood with h2 | ⟨h7, _⟩ | ⟨h71, _⟩ | ⟨h8, _⟩ | ⟨h81, _⟩ <;> omega
  · intro _
    rw [hg1, hg3]
    exact ⟨hd1, hd3⟩
  · intro h
    rw [hein] at h
    rcases hgood with h2 | ⟨h7, _⟩ | ⟨h71, _⟩ | ⟨h8, _⟩ | ⟨h81, _⟩ <;> omega
  · intro _ h
    rw [hein] at h
    rcases hgood with h2 | ⟨h7, _⟩ | ⟨h71, _⟩ | ⟨h8, _⟩ | ⟨h81, _⟩ <;> omega
  · intro h
    rw [hein] at h
    rcases hgood with h2 | ⟨h7, _⟩ | ⟨h71, _⟩ | ⟨h8, _⟩ | ⟨h81, _⟩ <;> omega
  · intro h
    rw [hein] at h
    rw [hg1, hg3]
    rcases hgood with h2 | ⟨h7, hff, hlt, hok⟩ | ⟨h71, _⟩ | ⟨h8, _⟩ | ⟨h81, _⟩
    · omega
    · exact ⟨hd1, hd3, by rw [hf]; exact hlt, upOK_mono hxf hxcalls hok⟩
    · omega
    · omega
    · omega
  · intro h
    rw [hein] at h
    rw [hg1, hg3]
    rcases hgood with h2 | ⟨h7, _⟩ | ⟨h71, hff, hok⟩ | ⟨h8, _⟩ | ⟨h81, _⟩
    · omega
    · omega
    · exact ⟨hd1, hd3, upReach_mono hxf hxcalls hok⟩
    · omega
    · omega
  · intro h
    rw [hein] at h
    rw [hg1, hg3]
    rcases hgood with h2 | ⟨h7, _⟩ | ⟨h71, _⟩ | ⟨h8, hff, hlt, hok⟩ | ⟨h81, _⟩
    · omega
    · omega
    · omega
    · exact ⟨hd1, hd3, by rw [hf]; exact hlt, downOK_mono hxf hxcalls hok⟩
    · omega
  · intro h
    rw [hein] at h
    rw [hg1, hg3]
    rcases hgood with h2 | ⟨h7, _⟩ | ⟨h71, _⟩ | ⟨h8, _⟩ | ⟨h81, hff, hok⟩
    · omega
    · omega
    · omega
    · omega
    · exact ⟨hd1, hd3, downReach_mono hxf hxcalls hok⟩
  · intro h
    rw [hgs] at h
    rw [hein]
    rcases hup h with h2 | h2
    · rcases h2 with h2 | h2
      · exact Or.inl h2
      · exact Or.inr (Or.inl h2)
    · exact Or.inr (Or.inr (upOK_mono hxf hxcalls h2))
  · intro h
    rw [hgs] at h
    rw [hein]
    rcases hdn h with h2 | h2
    · rcases h2 with h2 | h2
      · exact Or.inl h2
      · exact Or.inr (Or.inl h2)
    · exact Or.inr (Or.inr (downOK_mono hxf hxcalls h2))
  · intro hm
    rcases hmemE _ hm with hh | hh
    · exact nomatch hh
    · have := hI.e5P (hsub _ hh)
      rcases this with h3 | h4
      · exact absurd h3 hnot34.1
      · exact absurd h4 hnot34.2
  · intro n k hn
    rw [hq] at hn
    obtain ⟨ha, hb, hc⟩ := hI.queueP n k hn
    exact ⟨by rw [huin]; exact ha, by rw [UserOK, hu]; exact hb, by rw [hu]; exact hc⟩
  · intro n hn
    rw [he] at hn
    obtain ⟨ha, hb⟩ := hI.carP n hn
    exact ⟨by rw [huin]; exact ha, by rw [UserOK, hu]; exact hb⟩
  · intro n k hn
    rw [hq] at hn
    rw [he]
    exact hI.disjP n k hn
  · intro n hn h5
    exact absurd h5 (fun h => hno5 n hn h)
  · obtain ⟨n, hn, hn1⟩ := hI.arriveP
    rw [hw] at hn
    rcases List.mem_cons.mp hn with hh | hm'
    · exact nomatch hh
    · exact ⟨n, hmemI n hm', by rw [huin]; exact hn1⟩
  · intro m hm
    rw [hnu] at hm
    obtain ⟨ha, hb, hc⟩ := hI.freshP m hm
    refine ⟨?_, by rw [hq]; exact hb, by rw [he]; exact hc⟩
    intro hmem
    rcases hmemE _ hmem with hh | hh
    · exact nomatch hh
    · exact ha (hsub _ hh)

/-- If the upward between-floor check decides not to stop, the car is
strictly below floor 4 and upward travel remains justified. -/
theorem stop_analysis_up {s : Sim} (hreach : upReach s)
    (hf0 : 0 ≤ s.floor_) (hf4 : s.floor_ ≤ 4)
    (hss : (s.callcar_ s.floor_ || s.callup_ s.floor_ ||
      ((decide (s.floor_ = 2) || s.calldown_ s.floor_) &&
        !(passenger_wants_up s || waiter_wants_up s))) = false) :
    s.floor_ < 4 ∧ upOK s := by
  rw [Bool.or_eq_false_iff] at hss
  obtain ⟨hss1, hss3⟩ := hss
  rw [Bool.or_eq_false_iff] at hss1
  obtain ⟨hcc, hcu⟩ := hss1
  by_cases hwu : (passenger_wants_up s || waiter_wants_up s) = true
  · have hok := wants_up_upOK hwu
    rcases hok with ⟨j, hj, hlt, _⟩ | hlt
    · have := mem_floors_bounds j hj
      constructor
      · omega
      · exact wants_up_upOK hwu
    · constructor
      · omega
      · exact wants_up_upOK hwu
  · have hwu' : (passenger_wants_up s || waiter_wants_up s) = false :=
      Bool.eq_false_iff.mpr hwu
    rw [hwu'] at hss3
    simp only [Bool.not_false, Bool.and_true, Bool.or_eq_false_iff,
      decide_eq_false_iff_not] at hss3
    obtain ⟨hne2, hcd⟩ := hss3
    have hnone := wants_up_false hwu'
    have hcallf : callAt s s.floor_ = false := by
      rw [callAt, hcu, hcd, hcc]
      rfl
    have hfl2 : s.floor_ < 2 := by
      rcases hreach with ⟨j, hj, hle, hcall⟩ | hle
      · rcases lt_or_eq_of_le hle with hlt | heq
        · rw [hnone j hj hlt] at hcall
          exact nomatch hcall
        · rw [← heq] at hcall
          rw [hcallf] at hcall
          exact nomatch hcall
      · omega
    exact ⟨by omega, Or.inr hfl2⟩

/-- Dual of `stop_analysis_up` for downward travel. -/
theorem stop_analysis_down {s : Sim} (hreach : downReach s)
    (hf0 : 0 ≤ s.floor_) (hf4 : s.floor_ ≤ 4)
    (hss : (s.callcar_ s.floor_ || s.calldown_ s.floor_ ||
      ((decide (s.floor_ = 2) || s.callup_ s.floor_) &&
        !(passenger_wants_down s || waiter_wants_down s))) = false) :
    0 < s.floor_ ∧ downOK s := by
  rw [Bool.or_eq_false_iff] at hss
  obtain ⟨hss1, hss3⟩ := hss
  rw [Bool.or_eq_false_iff] at hss1
  obtain ⟨hcc, hcd⟩ := hss1
  by_cases hwd : (passenger_wants_down s || waiter_wants_down s) = true
  · have hok := wants_down_downOK hwd
    rcases hok with ⟨j, hj, hlt, _⟩ | hlt
    · have := mem_floors_bounds j hj
      constructor
      · omega
      · exact wants_down_downOK hwd
    · constructor
      · omega
      · exact wants_down_downOK hwd
  · have hwd' : (passenger_wants_down s || waiter_wants_down s) = false :=
      Bool.eq_false_iff.mpr hwd
    rw [hwd'] at hss3
    simp only [Bool.not_false, Bool.and_true, Bool.or_eq_false_iff,
      decide_eq_false_iff_not] at hss3
    obtain ⟨hne2, hcu⟩ := hss3
    have hnone := wants_down_false hwd'
    have hcallf : callAt s s.floor_ = false := by
      rw [callAt, hcu, hcd, hcc]
      rfl
    have hfl2 : 2 < s.floor_ := by
      rcases hreach with ⟨j, hj, hle, hcall⟩ | hle
      · rcases lt_or_eq_of_le hle with hlt | heq
        · rw [hnone j hj hlt] at hcall
          exact nomatch hcall
        · rw [heq] at hcall
          rw [hcallf] at hcall
          exact nomatch hcall
      · omega
    exact ⟨by omega, Or.inr hfl2⟩

theorem inv_E7 {s : Sim} {rest : List TaskId} (hI : Inv s)
    (hw : s.wait_ = elevatortask :: rest) (h7 : einst s = 7) :
    Inv (elevatorResume { s with wait_ := rest }) := by
  have h7' : s.nextinst_ elevatortask = 7 := h7
  obtain ⟨hd1, hd3, hfl, hok⟩ := hI.e7P h7
  have heq : elevatorResume { s with wait_ := rest } =
      schedule { s with wait_ := rest, floor_ := s.floor_ + 1 } elevatortask 71
        (s.nexttime_ elevatortask + durationOfUpwardTravel) := by
    unfold elevatorResume
    simp [h7']
  rw [heq]
  have := inv_travel (g := false) hI hw (s.floor_ + 1) 71
    (s.nexttime_ elevatortask + durationOfUpwardTravel) hd1 hd3
    (by have := hI.floor0; omega) (by omega)
    (Or.inr (Or.inr (Or.inl ⟨rfl, rfl, ?_⟩)))
    (fun _ => Or.inl (Or.inr rfl)) ?_ (by rw [h7]; omega)
  · exact this
  · -- upReach at floor + 1 from upOK at floor
    rcases hok with ⟨j, hj, hlt, hcall⟩ | hlt
    · exact Or.inl ⟨j, hj, by show s.floor_ + 1 ≤ j; omega, hcall⟩
    · exact Or.inr (by show s.floor_ + 1 ≤ 2; omega)
  · -- a downward commitment stays justified when the floor rises
    intro hdn
    rcases hI.gDn hdn with h2 | h2 | h2
    · rw [h7] at h2
      omega
    · rw [h7] at h2
      omega
    · rcases h2 with ⟨j, hj, hlt, hcall⟩ | hlt
      · exact Or.inr (Or.inl ⟨j, hj, by show j < s.floor_ + 1; omega, hcall⟩)
      · exact Or.inr (Or.inr (by show 2 < s.floor_ + 1; omega))

theorem inv_E8 {s : Sim} {rest : List TaskId} (hI : Inv s)
    (hw : s.wait_ = elevatortask :: rest) (h8 : einst s = 8) :
    Inv (elevatorResume { s with wait_ := rest }) := by
  have h8' : s.nextinst_ elevatortask = 8 := h8
  obtain ⟨hd1, hd3, hfl, hok⟩ := hI.e8P h8
  have heq : elevatorResume { s with wait_ := rest } =
      schedule { s with wait_ := rest, floor_ := s.floor_ - 1 } elevatortask 81
        (s.nexttime_ elevatortask + durationOfDownwardTravel) := by
    unfold elevatorResume
    simp [h8']
  rw [heq]
  have := inv_travel (g := false) hI hw (s.floor_ - 1) 81
    (s.nexttime_ elevatortask + durationOfDownwardTravel) hd1 hd3
    (by omega) (by have := hI.floor4; omega)
    (Or.inr (Or.inr (Or.inr (Or.inr ⟨rfl, rfl, ?_⟩))))
    ?_ (fun _ => Or.inl (Or.inr rfl)) (by rw [h8]; omega)
  · exact this
  · -- downReach at floor - 1 from downOK at floor
    rcases hok with ⟨j, hj, hlt, hcall⟩ | hlt
    · exact Or.inl ⟨j, hj, by show j ≤ s.floor_ - 1; omega, hcall⟩
    · exact Or.inr (by show 2 ≤ s.floor_ - 1; omega)
  · -- an upward commitment stays justified when the floor drops
    intro hup
    rcases hI.gUp hup with h2 | h2 | h2
    · rw [h8] at h2
      omega
    · rw [h8] at h2
      omega
    · rcases h2 with ⟨j, hj, hlt, hcall⟩ | hlt
      · exact Or.inr (Or.inl ⟨j, hj, by show s.floor_ - 1 < j; omega, hcall⟩)
      · exact Or.inr (Or.inr (by show s.floor_ - 1 < 2; omega))

theorem inv_E71 {s : Sim} {rest : List TaskId} (hI : Inv s)
    (hw : s.wait_ = elevatortask :: rest) (h71 : einst s = 71) :
    Inv (elevatorResume { s with wait_ := rest }) := by
  have h71' : s.nextinst_ elevatortask = 71 := h71
  obtain ⟨hd1, hd3, hreach⟩ := hI.e71P h71
  cases hss : (s.callcar_ s.floor_ || s.callup_ s.floor_ ||
      ((decide (s.floor_ = 2) || s.calldown_ s.floor_) &&
        !(passenger_wants_up s || waiter_wants_up s))) with
  | true =>
    have heq : elevatorResume { s with wait_ := rest } =
        schedule { s with wait_ := rest } elevatortask 2
          (s.nexttime_ elevatortask + durationOfUpwardDeceleration) := by
      unfold elevatorResume
      simp only [h71']
      simp only [Int.reduceEq, reduceIte]
      rw [show passenger_wants_up { s with wait_ := rest } = passenger_wants_up s from rfl,
        show waiter_wants_up { s with wait_ := rest } = waiter_wants_up s from rfl]
      rw [if_pos hss]
    rw [heq]
    have := inv_travel (g := false) hI hw s.floor_ 2
      (s.nexttime_ elevatortask + durationOfUpwardDeceleration) hd1 hd3
      hI.floor0 hI.floor4 (Or.inl rfl)
      (fun _ => Or.inl (Or.inl rfl)) (fun _ => Or.inl (Or.inl rfl))
      (by rw [h71]; omega)
    exact this
  | false =>
    obtain ⟨hlt4, hok⟩ := stop_analysis_up hreach hI.floor0 hI.floor4 hss
    have heq : elevatorResume { s with wait_ := rest } =
        schedule_immediately { s with wait_ := rest } elevatortask 7
          (s.nexttime_ elevatortask) := by
      unfold elevatorResume
      simp only [h71']
      simp only [Int.reduceEq, reduceIte]
      rw [show passenger_wants_up { s with wait_ := rest } = passenger_wants_up s from rfl,
        show waiter_wants_up { s with wait_ := rest } = waiter_wants_up s from rfl]
      rw [if_neg (by rw [hss]; exact Bool.false_ne_true)]
    rw [heq]
    have := inv_travel (g := true) hI hw s.floor_ 7
      (s.nexttime_ elevatortask) hd1 hd3 hI.floor0 hI.floor4
      (Or.inr (Or.inl ⟨rfl, rfl, hlt4, hok⟩))
      (fun _ => Or.inr hok) ?_ (by rw [h71]; omega)
    · exact this
    · intro hdn
      rcases hI.gDn hdn with h2 | h2 | h2
      · rw [h71] at h2
        omega
      · rw [h71] at h2
        omega
      · exact Or.inr h2

theorem inv_E81 {s : Sim} {rest : List TaskId} (hI : Inv s)
    (hw : s.wait_ = elevatortask :: rest) (h81 : einst s = 81) :
    Inv (elevatorResume { s with wait_ := rest }) := by
  have h81' : s.nextinst_ elevatortask = 81 := h81
  obtain ⟨hd1, hd3, hreach⟩ := hI.e81P h81
  cases hss : (s.callcar_ s.floor_ || s.calldown_ s.floor_ ||
      ((decide (s.floor_ = 2) || s.callup_ s.floor_) &&
        !(passenger_wants_down s || waiter_wants_down s))) with
  | true =>
    have heq : elevatorResume { s with wait_ := rest } =
        schedule { s with wait_ := rest } elevatortask 2
          (s.nexttime_ elevatortask + durationOfDownwardDeceleration) := by
      unfold elevatorResume
      simp only [h81']
      simp only [Int.reduceEq, reduceIte]
      rw [show passenger_wants_down { s with wait_ := rest } = passenger_wants_down s from rfl,
        show waiter_wants_down { s with wait_ := rest } = waiter_wants_down s from rfl]
      rw [if_pos hss]
    rw [heq]
    have := inv_travel (g := false) hI hw s.floor_ 2
      (s.nexttime_ elevatortask + durationOfDownwardDeceleration) hd1 hd3
      hI.floor0 hI.floor4 (Or.inl rfl)
      (fun _ => Or.inl (Or.inl rfl)) (fun _ => Or.inl (Or.inl rfl))
      (by rw [h81]; omega)
    exact this
  | false =>
    obtain ⟨hlt0, hok⟩ := stop_analysis_down hreach hI.floor0 hI.floor4 hss
    have heq : elevatorResume { s with wait_ := rest } =
        schedule_immediately { s with wait_ := rest } elevatortask 8
          (s.nexttime_ elevatortask) := by
      unfold elevatorResume
      simp only [h81']
      simp only [Int.reduceEq, reduceIte]
      rw [show passenger_wants_down { s with wait_ := rest } = passenger_wants_down s from rfl,
        show waiter_wants_down { s with wait_ := rest } = waiter_wants_down s from rfl]
      rw [if_neg (by rw [hss]; exact Bool.false_ne_true)]
    rw [heq]
    have := inv_travel (g := true) hI hw s.floor_ 8
      (s.nexttime_ elevatortask) hd1 hd3 hI.floor0 hI.floor4
      (Or.inr (Or.inr (Or.inr (Or.inl ⟨rfl, rfl, hlt0, hok⟩))))
      ?_ (fun _ => Or.inr hok) (by rw [h81]; omega)
    · exact this
    · intro hup
      rcases hI.gUp hup with h2 | h2 | h2
      · rw [h81] at h2
        omega
      · rw [h81] at h2
        omega
      · exact Or.inr h2

/-! ### E6, preparing to move -/

/-- Generic worker for the outcomes of step E6: the elevator is scheduled
(or immediately scheduled) into resume point 1, 7 or 8 from a state `Y`
derived from the popped state by clearing call flags at the current floor
and possibly cancelling the inactivity monitor. -/
theorem inv_sched_elev {s : Sim} {rest : List TaskId} (hI : Inv s)
    (hw : s.wait_ = elevatortask :: rest) (h6 : einst s = 6)
    (Y : Sim) (inst' w : Int) (g : Bool)
    (hYw : Y.wait_ = rest ∨ Y.wait_ = rest.erase e9task)
    (hYinst : Y.nextinst_ = s.nextinst_)
    (hYq : Y.queue_ = s.queue_) (hYe : Y.elevator_ = s.elevator_)
    (hYu : Y.users_ = s.users_) (hYn : Y.nextUserId_ = s.nextUserId_)
    (hYa : Y.arrivals_ = s.arrivals_)
    (hYf : Y.floor_ = s.floor_) (hY1 : Y.d1_ = s.d1_) (hY3 : Y.d3_ = s.d3_)
    (hgood : (inst' = 1 ∧ g = true ∧ Y.state_ = Neutral ∧ s.floor_ = 2) ∨
             (inst' = 7 ∧ s.floor_ < 4 ∧ upOK Y) ∨
             (inst' = 8 ∧ 0 < s.floor_ ∧ downOK Y))
    (hup : Y.state_ = GoingUp → upOK Y)
    (hdn : Y.state_ = GoingDown → downOK Y) :
    Inv (if g then schedule_immediately Y elevatortask inst' w
         else schedule Y elevatortask inst' w) := by
  obtain ⟨htm, hnr, hnt, hsub⟩ := popped_facts hI hw
  obtain ⟨hd1, hd3⟩ := hI.e6P h6
  set r := (if g then schedule_immediately Y elevatortask inst' w
            else schedule Y elevatortask inst' w) with hr
  have hYsub : ∀ x, x ∈ Y.wait_ → x ∈ rest := by
    intro x hx
    rcases hYw with h | h
    · rw [h] at hx
      exact hx
    · rw [h] at hx
      exact List.mem_of_mem_erase hx
  have hYnodup : Y.wait_.Nodup := by
    rcases hYw with h | h
    · rw [h]
      exact hnr
    · rw [h]
      exact hnr.erase _
  have hein : einst r = inst' := by
    rw [hr]
    cases g
    · simp
    · simp
  have huin : ∀ n, uinst r n = uinst s n := by
    intro n
    rw [hr]
    cases g
    · rw [if_neg (by simp), uinst_schedule]
      simp [uinst, hYinst]
    · rw [if_pos rfl, uinst_schim]
      simp [uinst, hYinst]
  have hmemE : ∀ y : TaskId, y ∈ r.wait_ → y = elevatortask ∨ y ∈ rest := by
    intro y hy
    rw [hr] at hy
    cases g
    · rw [if_neg (by simp)] at hy
      rcases mem_wait_schedule_elim hy with h | h
      · exact Or.inl h
      · exact Or.inr (hYsub _ h)
    · rw [if_pos rfl] at hy
      rcases mem_wait_schim_elim hy with h | h
      · exact Or.inl h
      · exact Or.inr (hYsub _ h)
  have hmemI : ∀ n : Nat, usertask n ∈ rest → usertask n ∈ r.wait_ := by
    intro n hn
    have hnY : usertask n ∈ Y.wait_ := by
      rcases hYw with h | h
      · rw [h]
        exact hn
      · rw [h]
        exact (List.mem_erase_of_ne
          (show (usertask n : TaskId) ≠ e9task from fun hh => nomatch hh)).mpr hn
    rw [hr]
    cases g
    · rw [if_neg (by simp)]
      exact mem_wait_schedule_of_ne hnY (fun h => nomatch h)
    · rw [if_pos rfl]
      exact mem_wait_schim_of_ne hnY (fun h => nomatch h)
  have hfields : r.floor_ = Y.floor_ ∧ r.d1_ = Y.d1_ ∧ r.d3_ = Y.d3_ ∧
      r.state_ = Y.state_ ∧ r.callup_ = Y.callup_ ∧ r.calldown_ = Y.calldown_ ∧
      r.callcar_ = Y.callcar_ ∧ r.queue_ = Y.queue_ ∧ r.elevator_ = Y.elevator_ ∧
      r.users_ = Y.users_ ∧ r.nextUserId_ = Y.nextUserId_ ∧
      r.arrivals_ = Y.arrivals_ := by
    rw [hr]
    cases g
    · rw [if_neg (by simp)]
      exact ⟨rfl, rfl, rfl, rfl, rfl, rfl, rfl, rfl, rfl, rfl, rfl, rfl⟩
    · rw [if_pos rfl]
      exact ⟨rfl, rfl, rfl, rfl, rfl, rfl, rfl, rfl, rfl, rfl, rfl, rfl⟩
  obtain ⟨hf, hg1, hg3, hgs, hcu, hcd, hcc, hq, he, hu, hnu, har⟩ := hfields
  have hcalls : callsLE Y r := callsLE_of_eq hcu hcd hcc
  have hxf : r.floor_ = Y.floor_ := hf
  have hnodup : r.wait_.Nodup := by
    rw [hr]
    cases g
    · rw [if_neg (by simp)]
      exact nodup_schedule_wait hYnodup _ _ _
    · rw [if_pos rfl]
      exact nodup_schim_wait hYnodup _ _ _
  have hno5 : ∀ n, usertask n ∈ r.wait_ → uinst r n = 5 → False := by
    intro n hn h5
    rw [huin] at h5
    rcases hmemE _ hn with hh | hh
    · exact nomatch hh
    · have := (hI.u5P n (hsub _ hh) h5).2.2
      rw [h6] at this
      omega
  have hin : inst' = 1 ∨ inst' = 7 ∨ inst' = 8 := by
    rcases hgood with ⟨h, _⟩ | ⟨h, _⟩ | ⟨h, _⟩
    · exact Or.inl h
    · exact Or.inr (Or.inl h)
    · exact Or.inr (Or.inr h)
  refine ⟨by rw [har, hYa]; exact hI.wfArr, by rw [hf, hYf]; exact hI.floor0,
    by rw [hf, hYf]; exact hI.floor4, ?_, hnodup, by rw [hq, hYq]; exact hI.qNodup,
    ?_, ?_, ?_, ?_, ?_, ?_, ?_, ?_, ?_, ?_, ?_, ?_, ?_, ?_, ?_, ?_, ?_, ?_⟩
  · rw [hg1, hY1, hd1]
    intro h
    exact nomatch h.1
  · intro h
    rw [hein] at h
    rcases hgood with ⟨h1, _, hst, hfl⟩ | ⟨h7, _⟩ | ⟨h8, _⟩
    · exact ⟨by rw [hg1, hY1]; exact hd1, by rw [hg3, hY3]; exact hd3,
        by rw [hf, hYf]; exact hfl, by rw [hgs]; exact hst⟩
    · omega
    · omega
  · intro h
    rw [hein] at h
    rcases hin with h2 | h2 | h2 <;> omega
  · intro h
    rw [hein] at h
    rcases hin with h2 | h2 | h2 <;> omega
  · intro _ h
    rw [hein] at h
    rcases hin with h2 | h2 | h2 <;> omega
  · intro h
    rw [hein] at h
    rcases hin with h2 | h2 | h2 <;> omega
  · intro h
    rw [hein] at h
    rcases hgood with ⟨h1, _⟩ | ⟨h7, hfl, hok⟩ | ⟨h8, _⟩
    · omega
    · exact ⟨by rw [hg1, hY1]; exact hd1, by rw [hg3, hY3]; exact hd3,
        by rw [hf, hYf]; exact hfl, upOK_mono hxf hcalls hok⟩
    · omega
  · intro h
    rw [hein] at h
    rcases hin with h2 | h2 | h2 <;> omega
  · intro h
    rw [hein] at h
    rcases hgood with ⟨h1, _⟩ | ⟨h7, _⟩ | ⟨h8, hfl, hok⟩
    · omega
    · omega
    · exact ⟨by rw [hg1, hY1]; exact hd1, by rw [hg3, hY3]; exact hd3,
        by rw [hf, hYf]; exact hfl, downOK_mono hxf hcalls hok⟩
  · intro h
    rw [hein] at h
    rcases hin with h2 | h2 | h2 <;> omega
  · intro h
    rw [hgs] at h
    exact Or.inr (Or.inr (upOK_mono hxf hcalls (hup h)))
  · intro h
    rw [hgs] at h
    exact Or.inr (Or.inr (downOK_mono hxf hcalls (hdn h)))
  · intro hm
    rcases hmemE _ hm with hh | hh
    · exact nomatch hh
    · have := hI.e5P (hsub _ hh)
      rw [h6] at this
      omega
  · intro n k hn
    rw [hq, hYq] at hn
    obtain ⟨ha, hb, hc⟩ := hI.queueP n k hn
    exact ⟨by rw [huin]; exact ha, by rw [UserOK, hu, hYu]; exact hb,
      by rw [hu, hYu]; exact hc⟩
  · intro n hn
    rw [he, hYe] at hn
    obtain ⟨ha, hb⟩ := hI.carP n hn
    exact ⟨by rw [huin]; exact ha, by rw [UserOK, hu, hYu]; exact hb⟩
  · intro n k hn
    rw [hq, hYq] at hn
    rw [he, hYe]
    exact hI.disjP n k hn
  · intro n hn h5
    exact absurd h5 (fun h => hno5 n hn h)
  · obtain ⟨n, hn, hn1⟩ := hI.arriveP
    rw [hw] at hn
    rcases List.mem_cons.mp hn with hh | hm'
    · exact nomatch hh
    · exact ⟨n, hmemI n hm', by rw [huin]; exact hn1⟩
  · intro m hm
    rw [hnu, hYn] at hm
    obtain ⟨ha, hb, hc⟩ := hI.freshP m hm
    refine ⟨?_, by rw [hq, hYq]; exact hb, by rw [he, hYe]; exact hc⟩
    intro hmem
    rcases hmemE _ hmem with hh | hh
    · exact nomatch hh
    · exact ha (hsub _ hh)

theorem callAt_update_ne {s : Sim} {Y : Sim}
    (hup : Y.callup_ = Function.update s.callup_ s.floor_ false ∨ Y.callup_ = s.callup_)
    (hdn : Y.calldown_ = Function.update s.calldown_ s.floor_ false ∨ Y.calldown_ = s.calldown_)
    (hcc : Y.callcar_ = Function.update s.callcar_ s.floor_ false ∨ Y.callcar_ = s.callcar_) :
    ∀ j, j ≠ s.floor_ → callAt Y j = callAt s j := by
  intro j hj
  have h1 : Y.callup_ j = s.callup_ j := by
    rcases hup with h | h
    · rw [h, Function.update_noteq hj]
    · rw [h]
  have h2 : Y.calldown_ j = s.calldown_ j := by
    rcases hdn with h | h
    · rw [h, Function.update_noteq hj]
    · rw [h]
  have h3 : Y.callcar_ j = s.callcar_ j := by
    rcases hcc with h | h
    · rw [h, Function.update_noteq hj]
    · rw [h]
  rw [callAt, callAt, h1, h2, h3]

theorem upOK_cleared {s Y : Sim} (hf : Y.floor_ = s.floor_)
    (hj : ∀ j, j ≠ s.floor_ → callAt Y j = callAt s j) : upOK s → upOK Y := by
  rintro (⟨j, hjm, hlt, hcall⟩ | hlt)
  · refine Or.inl ⟨j, hjm, by rw [hf]; exact hlt, ?_⟩
    rw [hj j (by omega)]
    exact hcall
  · exact Or.inr (by rw [hf]; exact hlt)

theorem downOK_cleared {s Y : Sim} (hf : Y.floor_ = s.floor_)
    (hj : ∀ j, j ≠ s.floor_ → callAt Y j = callAt s j) : downOK s → downOK Y := by
  rintro (⟨j, hjm, hlt, hcall⟩ | hlt)
  · refine Or.inl ⟨j, hjm, by rw [hf]; exact hlt, ?_⟩
    rw [hj j (by omega)]
    exact hcall
  · exact Or.inr (by rw [hf]; exact hlt)

/-- Field facts about the optional cancellation of the inactivity monitor
in E6 (`if (sim.d2_) cancel(e9task_)`). -/
theorem ifcancel_facts (X : Sim) (c : Bool) (t : TaskId) :
    ((if c = true then cancel X t else X).wait_ = X.wait_ ∨
      (if c = true then cancel X t else X).wait_ = X.wait_.erase t) ∧
    (if c = true then cancel X t else X).nextinst_ = X.nextinst_ ∧
    (if c = true then cancel X t else X).queue_ = X.queue_ ∧
    (if c = true then cancel X t else X).elevator_ = X.elevator_ ∧
    (if c = true then cancel X t else X).users_ = X.users_ ∧
    (if c = true then cancel X t else X).nextUserId_ = X.nextUserId_ ∧
    (if c = true then cancel X t else X).arrivals_ = X.arrivals_ ∧
    (if c = true then cancel X t else X).floor_ = X.floor_ ∧
    (if c = true then cancel X t else X).d1_ = X.d1_ ∧
    (if c = true then cancel X t else X).d3_ = X.d3_ ∧
    (if c = true then cancel X t else X).state_ = X.state_ ∧
    (if c = true then cancel X t else X).callup_ = X.callup_ ∧
    (if c = true then cancel X t else X).calldown_ = X.calldown_ ∧
    (if c = true then cancel X t else X).callcar_ = X.callcar_ := by
  cases c
  · rw [if_neg (by simp)]
    exact ⟨Or.inl rfl, rfl, rfl, rfl, rfl, rfl, rfl, rfl, rfl, rfl, rfl, rfl, rfl, rfl⟩
  · rw [if_pos rfl]
    exact ⟨Or.inr rfl, rfl, rfl, rfl, rfl, rfl, rfl, rfl, rfl, rfl, rfl, rfl, rfl, rfl⟩

theorem inv_E6 {s : Sim} {rest : List TaskId} (hI : Inv s)
    (hw : s.wait_ = elevatortask :: rest) (h6 : einst s = 6) :
    Inv (elevatorResume { s with wait_ := rest }) := by
  have h6' : s.nextinst_ elevatortask = 6 := h6
  have htri : s.state_ = GoingUp ∨ s.state_ = GoingDown ∨ s.state_ = Neutral := by
    cases s.state_
    · exact Or.inl rfl
    · exact Or.inr (Or.inl rfl)
    · exact Or.inr (Or.inr rfl)
  rcases htri with hst | hst | hst
  · -- the car keeps its upward commitment: decision is a no-op, move up
    set X : Sim := { s with
      wait_ := rest
      callcar_ := Function.update s.callcar_ s.floor_ false
      callup_ := Function.update s.callup_ s.floor_ false } with hX
    have heq : elevatorResume { s with wait_ := rest } =
        schedule (if s.d2_ = true then cancel X e9task else X) elevatortask 7
          (s.nexttime_ elevatortask + durationOfUpwardAcceleration) := by
      unfold elevatorResume decision
      simp [h6', hst, hX]
    rw [heq]
    obtain ⟨f1, f2, f3, f4, f5, f6, f7, f8, f9, f10, f11, f12, f13, f14⟩ :=
      ifcancel_facts X s.d2_ e9task
    set Y := if s.d2_ = true then cancel X e9task else X with hY
    have hokS : upOK s := by
      rcases hI.gUp hst with h2 | h2 | h2
      · rw [h6] at h2
        omega
      · rw [h6] at h2
        omega
      · exact h2
    have hXcalls : ∀ j, j ≠ s.floor_ → callAt X j = callAt s j :=
      callAt_update_ne (Or.inl rfl) (Or.inr rfl) (Or.inl rfl)
    have hokX : upOK X := upOK_cleared (show X.floor_ = s.floor_ from rfl) hXcalls hokS
    have hokY : upOK Y := upOK_mono f8 (callsLE_of_eq f12 f13 f14) hokX
    have hfl4 : s.floor_ < 4 := by
      rcases hokS with ⟨j, hjm, hlt, _⟩ | hlt
      · have := mem_floors_bounds j hjm
        omega
      · omega
    refine inv_sched_elev (g := false) hI hw h6 Y 7
      (s.nexttime_ elevatortask + durationOfUpwardAcceleration)
      f1 f2 f3 f4 f5 f6 f7 f8 f9 f10
      (Or.inr (Or.inl ⟨rfl, hfl4, hokY⟩))
      (fun _ => hokY) ?_
    intro hcon
    rw [f11] at hcon
    have hcon2 : s.state_ = GoingDown := hcon
    rw [hst] at hcon2
    exact nomatch hcon2
  · -- the car keeps its downward commitment: decision is a no-op, move down
    set X : Sim := { s with
      wait_ := rest
      callcar_ := Function.update s.callcar_ s.floor_ false
      calldown_ := Function.update s.calldown_ s.floor_ false } with hX
    have heq : elevatorResume { s with wait_ := rest } =
        schedule (if s.d2_ = true then cancel X e9task else X) elevatortask 8
          (s.nexttime_ elevatortask + durationOfDownwardAcceleration) := by
      unfold elevatorResume decision
      simp [h6', hst, hX]
    rw [heq]
    obtain ⟨f1, f2, f3, f4, f5, f6, f7, f8, f9, f10, f11, f12, f13, f14⟩ :=
      ifcancel_facts X s.d2_ e9task
    set Y := if s.d2_ = true then cancel X e9task else X with hY
    have hokS : downOK s := by
      rcases hI.gDn hst with h2 | h2 | h2
      · rw [h6] at h2
        omega
      · rw [h6] at h2
        omega
      · exact h2
    have hXcalls : ∀ j, j ≠ s.floor_ → callAt X j = callAt s j :=
      callAt_update_ne (Or.inr rfl) (Or.inl rfl) (Or.inl rfl)
    have hokX : downOK X := downOK_cleared (show X.floor_ = s.floor_ from rfl) hXcalls hokS
    have hokY : downOK Y := downOK_mono f8 (callsLE_of_eq f12 f13 f14) hokX
    have hfl0 : 0 < s.floor_ := by
      rcases hokS with ⟨j, hjm, hlt, _⟩ | hlt
      · have := mem_floors_bounds j hjm
        omega
      · omega
    refine inv_sched_elev (g := false) hI hw h6 Y 8
      (s.nexttime_ elevatortask + durationOfDownwardAcceleration)
      f1 f2 f3 f4 f5 f6 f7 f8 f9 f10
      (Or.inr (Or.inr ⟨rfl, hfl0, hokY⟩))
      ?_ (fun _ => hokY)
    intro hcon
    rw [f11] at hcon
    have hcon2 : s.state_ = GoingUp := hcon
    rw [hst] at hcon2
    exact nomatch hcon2
  · -- all flags at this floor cleared, then the decision subroutine picks
    -- a target (the home floor as fallback)
    set X : Sim := { s with
      wait_ := rest
      callcar_ := Function.update s.callcar_ s.floor_ false
      callup_ := Function.update s.callup_ s.floor_ false
      calldown_ := Function.update s.calldown_ s.floor_ false } with hX
    have heq0 : elevatorResume { s with wait_ := rest } =
        (if (decision X (s.nexttime_ elevatortask) true).state_ = Neutral then
          schedule_immediately (decision X (s.nexttime_ elevatortask) true)
            elevatortask 1 (s.nexttime_ elevatortask)
        else if (decision X (s.nexttime_ elevatortask) true).state_ = GoingUp then
          schedule (if (decision X (s.nexttime_ elevatortask) true).d2_ = true then
              cancel (decision X (s.nexttime_ elevatortask) true) e9task
            else decision X (s.nexttime_ elevatortask) true) elevatortask 7
            (s.nexttime_ elevatortask + durationOfUpwardAcceleration)
        else
          schedule (if (decision X (s.nexttime_ elevatortask) true).d2_ = true then
              cancel (decision X (s.nexttime_ elevatortask) true) e9task
            else decision X (s.nexttime_ elevatortask) true) elevatortask 8
            (s.nexttime_ elevatortask + durationOfDownwardAcceleration)) := by
      unfold elevatorResume
      simp [h6', hst, hX]
    have hNX : X.state_ = Neutral := hst
    have heinX : einst X = 6 := h6
    rcases decision_spec X (s.nexttime_ elevatortask) true hNX with
      ⟨hb, _⟩ | ⟨h1, _⟩ | ⟨jj, hev, hcase⟩
    · exact nomatch hb
    · rw [heinX] at h1
      omega
    · rcases hcase with ⟨hni, heq4⟩ | ⟨h1, _, _⟩
      swap
      · rw [heinX] at h1
        omega
      set s4 : Sim := { X with state_ := dirToward X.floor_ jj } with hs4
      have hs4calls : ∀ j, callAt s4 j = callAt X j := fun _ => rfl
      have hev' : (jj ∈ floors ∧ jj ≠ s.floor_ ∧ callAt X jj = true) ∨ jj = 2 := by
        rcases hev with ⟨ha, hb, hc⟩ | ⟨_, hb⟩
        · exact Or.inl ⟨ha, hb, hc⟩
        · exact Or.inr hb
      obtain ⟨f1, f2, f3, f4, f5, f6, f7, f8, f9, f10, f11, f12, f13, f14⟩ :=
        ifcancel_facts s4 s4.d2_ e9task
      set Y := if s4.d2_ = true then cancel s4 e9task else s4 with hY
      rcases dirToward_cases s.floor_ jj with ⟨hlt, hdir⟩ | ⟨hlt, hdir⟩ | ⟨hjeq, hdir⟩
      · -- jj strictly below: the car prepares to go down
        have hs4st : s4.state_ = GoingDown := by
          show dirToward X.floor_ jj = GoingDown
          show dirToward s.floor_ jj = GoingDown
          exact hdir
        have heq : elevatorResume { s with wait_ := rest } =
            schedule Y elevatortask 8
              (s.nexttime_ elevatortask + durationOfDownwardAcceleration) := by
          rw [heq0, heq4]
          rw [if_neg (by rw [hs4st]; exact fun h => nomatch h)]
          rw [if_neg (by rw [hs4st]; exact fun h => nomatch h)]
        rw [heq]
        have hok4 : downOK s4 := by
          rcases hev' with ⟨hjm, hjne, hjc⟩ | hj2
          · refine Or.inl ⟨jj, hjm, ?_, ?_⟩
            · show jj < s4.floor_
              show jj < s.floor_
              exact hlt
            · rw [hs4calls jj]
              exact hjc
          · refine Or.inr ?_
            show 2 < s4.floor_
            show 2 < s.floor_
            omega
        have hokY : downOK Y := downOK_mono f8 (callsLE_of_eq f12 f13 f14) hok4
        have hfl0 : 0 < s.floor_ := by
          rcases hev' with ⟨hjm, _, _⟩ | hj2
          · have := mem_floors_bounds jj hjm
            omega
          · omega
        refine inv_sched_elev (g := false) hI hw h6 Y 8
          (s.nexttime_ elevatortask + durationOfDownwardAcceleration)
          f1 f2 f3 f4 f5 f6 f7 f8 f9 f10
          (Or.inr (Or.inr ⟨rfl, hfl0, hokY⟩))
          ?_ (fun _ => hokY)
        intro hcon
        rw [f11, hs4st] at hcon
        exact nomatch hcon
      · -- jj strictly above: the car prepares to go up
        have hs4st : s4.state_ = GoingUp := by
          show dirToward X.floor_ jj = GoingUp
          show dirToward s.floor_ jj = GoingUp
          exact hdir
        have heq : elevatorResume { s with wait_ := rest } =
            schedule Y elevatortask 7
              (s.nexttime_ elevatortask + durationOfUpwardAcceleration) := by
          rw [heq0, heq4]
          rw [if_neg (by rw [hs4st]; exact fun h => nomatch h)]
          rw [if_pos hs4st]
        rw [heq]
        have hok4 : upOK s4 := by
          rcases hev' with ⟨hjm, hjne, hjc⟩ | hj2
          · refine Or.inl ⟨jj, hjm, ?_, ?_⟩
            · show s4.floor_ < jj
              show s.floor_ < jj
              exact hlt
            · rw [hs4calls jj]
              exact hjc
          · refine Or.inr ?_
            show s4.floor_ < 2
            show s.floor_ < 2
            omega
        have hokY : upOK Y := upOK_mono f8 (callsLE_of_eq f12 f13 f14) hok4
        have hfl4 : s.floor_ < 4 := by
          rcases hev' with ⟨hjm, _, _⟩ | hj2
          · have := mem_floors_bounds jj hjm
            omega
          · omega
        refine inv_sched_elev (g := false) hI hw h6 Y 7
          (s.nexttime_ elevatortask + durationOfUpwardAcceleration)
          f1 f2 f3 f4 f5 f6 f7 f8 f9 f10
          (Or.inr (Or.inl ⟨rfl, hfl4, hokY⟩))
          (fun _ => hokY) ?_
        intro hcon
        rw [f11, hs4st] at hcon
        exact nomatch hcon
      · -- no target elsewhere: only legal at the home floor, back to idle
        have hfl2 : s.floor_ = 2 := by
          rcases hev' with ⟨_, hjne, _⟩ | hj2
          · exact absurd hjeq hjne
          · omega
        have hs4st : s4.state_ = Neutral := by
          show dirToward X.floor_ jj = Neutral
          show dirToward s.floor_ jj = Neutral
          exact hdir
        have heq : elevatorResume { s with wait_ := rest } =
            schedule_immediately s4 elevatortask 1 (s.nexttime_ elevatortask) := by
          rw [heq0, heq4]
          rw [if_pos hs4st]
        rw [heq]
        refine inv_sched_elev (g := true) hI hw h6 s4 1
          (s.nexttime_ elevatortask)
          (Or.inl rfl) rfl rfl rfl rfl rfl rfl rfl rfl rfl
          (Or.inl ⟨rfl, rfl, hs4st, hfl2⟩)
          ?_ ?_
        · intro hcon
          rw [hs4st] at hcon
          exact nomatch hcon
        · intro hcon
          rw [hs4st] at hcon
          exact nomatch hcon

/-! ### U1, arrival of a new user -/

theorem int_mem_floors {j : Int} (h0 : 0 ≤ j) (h4 : j ≤ 4) : j ∈ floors := by
  rw [floors]
  simp only [List.mem_cons, List.mem_singleton]
  omega

/-- Frame facts about the decision subroutine used while tracking the
popped user through U1. -/
theorem decision_frame (s : Sim) (now : Int) (b : Bool) :
    (∀ n, uinst (decision s now b) n = uinst s n) ∧
    (decision s now b).nextUserId_ = s.nextUserId_ ∧
    (∀ x, x ∈ (decision s now b).wait_ → x = elevatortask ∨ x ∈ s.wait_) ∧
    (decision s now b).queue_ = s.queue_ ∧
    (decision s now b).elevator_ = s.elevator_ := by
  unfold decision
  by_cases hd1 : s.state_ ≠ Neutral
  · rw [if_pos hd1]
    exact ⟨fun _ => rfl, rfl, fun _ hx => Or.inr hx, rfl, rfl⟩
  · rw [if_neg hd1]
    by_cases hd2 : s.nextinst_ elevatortask = 1 ∧
        (s.callup_ 2 || s.calldown_ 2 || s.callcar_ 2) = true
    · rw [if_pos hd2]
      refine ⟨?_, rfl, ?_, rfl, rfl⟩
      · intro n
        rw [uinst_schedule]
        simp [uinst]
      · intro x hx
        exact mem_wait_schedule_elim hx
    · rw [if_neg hd2]
      set jj : Int := (match floors.find? (fun j => decide (j ≠ s.floor_) && callAt s j) with
        | some j => j
        | none => if b then 2 else -1) with hjj
      by_cases hj : jj ≠ -1
      · rw [if_pos hj]
        by_cases h5 : s.nextinst_ elevatortask = 1 ∧ jj ≠ 2
        · rw [if_pos h5]
          refine ⟨?_, rfl, ?_, rfl, rfl⟩
          · intro n
            rw [uinst_schedule]
            simp [uinst]
          · intro x hx
            rcases mem_wait_schedule_elim hx with h | h
            · exact Or.inl h
            · exact Or.inr h
        · rw [if_neg h5]
          exact ⟨fun _ => rfl, rfl, fun _ hx => Or.inr hx, rfl, rfl⟩
      · rw [if_neg hj]
        exact ⟨fun _ => rfl, rfl, fun _ hx => Or.inr hx, rfl, rfl⟩

/-- Scheduling the successor user (first half of U1) preserves the
invariant; the popped arriving user `m` is accounted separately. -/
theorem inv_U1_s2 {s : Sim} {rest : List TaskId} {m : Nat} (hI : Inv s)
    (hw : s.wait_ = usertask m :: rest) (h1 : uinst s m = 1) (t : Int) :
    Inv (schedule
      { s with
        wait_ := rest
        arrivalIdx_ := s.arrivalIdx_ + 1
        nextUserId_ := s.nextUserId_ + 1 }
      (usertask s.nextUserId_) 1 t) := by
  obtain ⟨htm, hnr, hnt, hsub⟩ := popped_facts hI hw
  set r := schedule
    { s with
      wait_ := rest
      arrivalIdx_ := s.arrivalIdx_ + 1
      nextUserId_ := s.nextUserId_ + 1 }
    (usertask s.nextUserId_) 1 t with hr
  have hein : einst r = einst s := by
    rw [hr, einst_schedule]
    simp [einst]
  have huin : ∀ n, uinst r n = if n = s.nextUserId_ then 1 else uinst s n := by
    intro n
    rw [hr, uinst_schedule]
    by_cases h : n = s.nextUserId_
    · rw [if_pos (by rw [h]), if_pos h]
    · rw [if_neg (by intro hx; exact h (by cases hx; rfl)), if_neg h]
      rfl
  have huin_small : ∀ n, n < s.nextUserId_ → uinst r n = uinst s n := by
    intro n hn
    rw [huin, if_neg (by omega)]
  have hmemE : ∀ y : TaskId, y ∈ r.wait_ → y = usertask s.nextUserId_ ∨ y ∈ rest := by
    intro y hy
    rw [hr] at hy
    exact mem_wait_schedule_elim hy
  refine ⟨hI.wfArr, hI.floor0, hI.floor4, hI.dExcl, ?_, hI.qNodup,
    ?_, ?_, ?_, ?_, ?_, ?_, ?_, ?_, ?_, ?_, ?_, ?_, ?_, ?_, ?_, ?_, ?_, ?_⟩
  · rw [hr]
    exact nodup_schedule_wait hnr _ _ _
  · intro h
    rw [hein] at h
    exact hI.e1P h
  · intro h
    rw [hein] at h
    exact hI.e2P h
  · intro h
    rw [hein] at h
    exact hI.e3P h
  · intro hm h
    rw [hein] at h
    rcases hmemE _ hm with he | hm'
    · exact nomatch he
    · exact hI.e4P (hsub _ hm') h
  · intro h
    rw [hein] at h
    exact hI.e6P h
  · intro h
    rw [hein] at h
    exact hI.e7P h
  · intro h
    rw [hein] at h
    exact hI.e71P h
  · intro h
    rw [hein] at h
    exact hI.e8P h
  · intro h
    rw [hein] at h
    exact hI.e81P h
  · intro h
    rw [show r.state_ = s.state_ from rfl] at h
    rw [hein]
    exact hI.gUp h
  · intro h
    rw [show r.state_ = s.state_ from rfl] at h
    rw [hein]
    exact hI.gDn h
  · intro hm
    rw [hein]
    rcases hmemE _ hm with he | hm'
    · exact nomatch he
    · exact hI.e5P (hsub _ hm')
  · intro n k hn
    have hn' : n ∈ s.queue_ k := hn
    obtain ⟨ha, hb, hc⟩ := hI.queueP n k hn'
    have hlt : n < s.nextUserId_ := by
      by_contra hge
      exact ((hI.freshP n (by omega)).2.1 k) hn'
    exact ⟨by rw [huin_small n hlt]; exact ha, hb, hc⟩
  · intro n hn
    have hn' : n ∈ s.elevator_ := hn
    obtain ⟨ha, hb⟩ := hI.carP n hn'
    have hlt : n < s.nextUserId_ := by
      by_contra hge
      exact (hI.freshP n (by omega)).2.2 hn'
    exact ⟨by rw [huin_small n hlt]; exact ha, hb⟩
  · intro n k hn
    exact hI.disjP n k hn
  · intro n hn h5
    rcases hmemE _ hn with he | hm'
    · cases he
      rw [huin, if_pos rfl] at h5
      omega
    · have hlt : n < s.nextUserId_ := by
        by_contra hge
        exact (hI.freshP n (by omega)).1 (hsub _ hm')
      rw [huin_small n hlt] at h5
      obtain ⟨ha, hb, hc⟩ := hI.u5P n (hsub _ hm') h5
      exact ⟨ha, hb, by rw [hein]; exact hc⟩
  · refine ⟨s.nextUserId_, ?_, by rw [huin, if_pos rfl]⟩
    rw [hr]
    exact mem_wait_schedule_self
  · intro q hq
    have hq' : s.nextUserId_ + 1 ≤ q := hq
    obtain ⟨ha, hb, hc⟩ := hI.freshP q (by omega)
    refine ⟨?_, hb, hc⟩
    intro hmem
    rcases hmemE _ hmem with he | hm'
    · cases he
      omega
    · exact ha (hsub _ hm')

/-- A waiting user kicks the elevator out of pending step 6 straight into
door-opening (first U2 branch). -/
theorem inv_kick3 {T : Sim} (hT : Inv T) (h6 : einst T = 6) (w : Int) :
    Inv (schedule_immediately T elevatortask 3 w) := by
  obtain ⟨hd1, hd3⟩ := hT.e6P h6
  set r := schedule_immediately T elevatortask 3 w with hr
  have hein : einst r = 3 := by
    rw [hr]
    simp
  have huin : ∀ n, uinst r n = uinst T n := by
    intro n
    rw [hr, uinst_schim]
    simp [uinst]
  refine ⟨hT.wfArr, hT.floor0, hT.floor4, hT.dExcl, ?_, hT.qNodup,
    ?_, ?_, ?_, ?_, ?_, ?_, ?_, ?_, ?_, ?_, ?_, ?_, ?_, ?_, ?_, ?_, ?_, ?_⟩
  · rw [hr]
    exact nodup_schim_wait hT.nodupW _ _ _
  · intro h
    rw [hein] at h
    omega
  · intro h
    rw [hein] at h
    omega
  · intro _
    exact hd3
  · intro _ h
    rw [hein] at h
    omega
  · intro h
    rw [hein] at h
    omega
  · intro h
    rw [hein] at h
    omega
  · intro h
    rw [hein] at h
    omega
  · intro h
    rw [hein] at h
    omega
  · intro h
    rw [hein] at h
    omega
  · intro h
    rw [show r.state_ = T.state_ from rfl] at h
    rcases hT.gUp h with h2 | h2 | h2
    · rw [h6] at h2
      omega
    · rw [h6] at h2
      omega
    · exact Or.inr (Or.inr (upOK_mono rfl (callsLE_of_eq rfl rfl rfl) h2))
  · intro h
    rw [show r.state_ = T.state_ from rfl] at h
    rcases hT.gDn h with h2 | h2 | h2
    · rw [h6] at h2
      omega
    · rw [h6] at h2
      omega
    · exact Or.inr (Or.inr (downOK_mono rfl (callsLE_of_eq rfl rfl rfl) h2))
  · intro _
    exact Or.inl hein
  · intro n k hn
    obtain ⟨ha, hb, hc⟩ := hT.queueP n k hn
    exact ⟨by rw [huin]; exact ha, hb, hc⟩
  · intro n hn
    obtain ⟨ha, hb⟩ := hT.carP n hn
    exact ⟨by rw [huin]; exact ha, hb⟩
  · exact hT.disjP
  · intro n hn h5
    rw [huin] at h5
    rcases mem_wait_schim_elim hn with he | hm'
    · exact nomatch he
    · have := (hT.u5P n hm' h5).2.2
      rw [h6] at this
      omega
  · obtain ⟨n, hn, hn1⟩ := hT.arriveP
    exact ⟨n, mem_wait_schim_of_ne hn (fun h => nomatch h), by rw [huin]; exact hn1⟩
  · intro q hq
    obtain ⟨ha, hb, hc⟩ := hT.freshP q hq
    refine ⟨?_, hb, hc⟩
    intro hmem
    rcases mem_wait_schim_elim hmem with he | hm'
    · exact nomatch he
    · exact ha hm'

/-- A waiting user re-opens the idle-open doors (second U2 branch). -/
theorem inv_kick4 {T : Sim} (hT : Inv T) (hd3 : T.d3_ = true) (w : Int) :
    Inv (schedule_immediately { T with d3_ := false, d1_ := true }
      elevatortask 4 w) := by
  have hd1 : T.d1_ = false := by
    by_cases h : T.d1_ = true
    · exact absurd ⟨h, hd3⟩ hT.dExcl
    · exact Bool.eq_false_iff.mpr h
  set r := schedule_immediately { T with d3_ := false, d1_ := true }
    elevatortask 4 w with hr
  have hein : einst r = 4 := by
    rw [hr]
    simp
  have huin : ∀ n, uinst r n = uinst T n := by
    intro n
    rw [hr, uinst_schim]
    simp [uinst]
  have hnotexempt : einst T ≠ 2 ∧ einst T ≠ 71 ∧ einst T ≠ 81 := by
    refine ⟨?_, ?_, ?_⟩
    · intro h
      rw [(hT.e2P h).2] at hd3
      exact nomatch hd3
    · intro h
      rw [(hT.e71P h).2.1] at hd3
      exact nomatch hd3
    · intro h
      rw [(hT.e81P h).2.1] at hd3
      exact nomatch hd3
  refine ⟨hT.wfArr, hT.floor0, hT.floor4, ?_, ?_, hT.qNodup,
    ?_, ?_, ?_, ?_, ?_, ?_, ?_, ?_, ?_, ?_, ?_, ?_, ?_, ?_, ?_, ?_, ?_, ?_⟩
  · show ¬(true = true ∧ false = true)
    intro h
    exact nomatch h.2
  · rw [hr]
    exact nodup_schim_wait hT.nodupW elevatortask 4 w
  · intro h
    rw [hein] at h
    omega
  · intro h
    rw [hein] at h
    omega
  · intro h
    rw [hein] at h
    omega
  · intro _ _
    exact ⟨rfl, rfl⟩
  · intro h
    rw [hein] at h
    omega
  · intro h
    rw [hein] at h
    omega
  · intro h
    rw [hein] at h
    omega
  · intro h
    rw [hein] at h
    omega
  · intro h
    rw [hein] at h
    omega
  · intro h
    rw [show r.state_ = T.state_ from rfl] at h
    rcases hT.gUp h with h2 | h2 | h2
    · exact absurd h2 hnotexempt.1
    · exact absurd h2 hnotexempt.2.1
    · exact Or.inr (Or.inr (upOK_mono rfl (callsLE_of_eq rfl rfl rfl) h2))
  · intro h
    rw [show r.state_ = T.state_ from rfl] at h
    rcases hT.gDn h with h2 | h2 | h2
    · exact absurd h2 hnotexempt.1
    · exact absurd h2 hnotexempt.2.2
    · exact Or.inr (Or.inr (downOK_mono rfl (callsLE_of_eq rfl rfl rfl) h2))
  · intro _
    exact Or.inr hein
  · intro n k hn
    obtain ⟨ha, hb, hc⟩ := hT.queueP n k hn
    exact ⟨by rw [huin]; exact ha, hb, hc⟩
  · intro n hn
    obtain ⟨ha, hb⟩ := hT.carP n hn
    exact ⟨by rw [huin]; exact ha, hb⟩
  · exact hT.disjP
  · intro n hn h5
    rw [huin] at h5
    rcases mem_wait_schim_elim hn with he | hm'
    · exact nomatch he
    · have := (hT.u5P n hm' h5).1
      rw [hd1] at this
      exact nomatch this
  · obtain ⟨n, hn, hn1⟩ := hT.arriveP
    exact ⟨n, mem_wait_schim_of_ne hn (fun h => nomatch h), by rw [huin]; exact hn1⟩
  · intro q hq
    obtain ⟨ha, hb, hc⟩ := hT.freshP q hq
    refine ⟨?_, hb, hc⟩
    intro hmem
    rcases mem_wait_schim_elim hmem with he | hm'
    · exact nomatch he
    · exact ha hm'

/-- Raising a hall-call button flag preserves the invariant. -/
theorem inv_raiseup {T : Sim} (hT : Inv T) (k : Int) :
    Inv { T with callup_ := Function.update T.callup_ k true } := by
  set r := { T with callup_ := Function.update T.callup_ k true } with hr
  have hcalls : callsLE T r := by
    intro j hj
    show (Function.update T.callup_ k true j || T.calldown_ j || T.callcar_ j) = true
    rw [callAt] at hj
    by_cases h : j = k
    · rw [h, Function.update_same]
      simp
    · rw [Function.update_noteq h]
      exact hj
  refine ⟨hT.wfArr, hT.floor0, hT.floor4, hT.dExcl, hT.nodupW, hT.qNodup,
    hT.e1P, hT.e2P, hT.e3P, hT.e4P, hT.e6P, ?_, ?_, ?_, ?_, ?_, ?_,
    hT.e5P, hT.queueP, hT.carP, hT.disjP, hT.u5P, hT.arriveP, hT.freshP⟩
  · intro h
    obtain ⟨ha, hb, hc, hd⟩ := hT.e7P h
    exact ⟨ha, hb, hc, upOK_mono (show r.floor_ = T.floor_ from rfl) hcalls hd⟩
  · intro h
    obtain ⟨ha, hb, hc⟩ := hT.e71P h
    exact ⟨ha, hb, upReach_mono (show r.floor_ = T.floor_ from rfl) hcalls hc⟩
  · intro h
    obtain ⟨ha, hb, hc, hd⟩ := hT.e8P h
    exact ⟨ha, hb, hc, downOK_mono (show r.floor_ = T.floor_ from rfl) hcalls hd⟩
  · intro h
    obtain ⟨ha, hb, hc⟩ := hT.e81P h
    exact ⟨ha, hb, downReach_mono (show r.floor_ = T.floor_ from rfl) hcalls hc⟩
  · intro h
    rcases hT.gUp h with h2 | h2 | h2
    · exact Or.inl h2
    · exact Or.inr (Or.inl h2)
    · exact Or.inr (Or.inr (upOK_mono (show r.floor_ = T.floor_ from rfl) hcalls h2))
  · intro h
    rcases hT.gDn h with h2 | h2 | h2
    · exact Or.inl h2
    · exact Or.inr (Or.inl h2)
    · exact Or.inr (Or.inr (downOK_mono (show r.floor_ = T.floor_ from rfl) hcalls h2))

/-- Raising a down-call button flag preserves the invariant. -/
theorem inv_raisedown {T : Sim} (hT : Inv T) (k : Int) :
    Inv { T with calldown_ := Function.update T.calldown_ k true } := by
  set r := { T with calldown_ := Function.update T.calldown_ k true } with hr
  have hcalls : callsLE T r := by
    intro j hj
    show (T.callup_ j || Function.update T.calldown_ k true j || T.callcar_ j) = true
    rw [callAt] at hj
    by_cases h : j = k
    · rw [h, Function.update_same]
      simp
    · rw [Function.update_noteq h]
      exact hj
  refine ⟨hT.wfArr, hT.floor0, hT.floor4, hT.dExcl, hT.nodupW, hT.qNodup,
    hT.e1P, hT.e2P, hT.e3P, hT.e4P, hT.e6P, ?_, ?_, ?_, ?_, ?_, ?_,
    hT.e5P, hT.queueP, hT.carP, hT.disjP, hT.u5P, hT.arriveP, hT.freshP⟩
  · intro h
    obtain ⟨ha, hb, hc, hd⟩ := hT.e7P h
    exact ⟨ha, hb, hc, upOK_mono (show r.floor_ = T.floor_ from rfl) hcalls hd⟩
  · intro h
    obtain ⟨ha, hb, hc⟩ := hT.e71P h
    exact ⟨ha, hb, upReach_mono (show r.floor_ = T.floor_ from rfl) hcalls hc⟩
  · intro h
    obtain ⟨ha, hb, hc, hd⟩ := hT.e8P h
    exact ⟨ha, hb, hc, downOK_mono (show r.floor_ = T.floor_ from rfl) hcalls hd⟩
  · intro h
    obtain ⟨ha, hb, hc⟩ := hT.e81P h
    exact ⟨ha, hb, downReach_mono (show r.floor_ = T.floor_ from rfl) hcalls hc⟩
  · intro h
    rcases hT.gUp h with h2 | h2 | h2
    · exact Or.inl h2
    · exact Or.inr (Or.inl h2)
    · exact Or.inr (Or.inr (upOK_mono (show r.floor_ = T.floor_ from rfl) hcalls h2))
  · intro h
    rcases hT.gDn h with h2 | h2 | h2
    · exact Or.inl h2
    · exact Or.inr (Or.inl h2)
    · exact Or.inr (Or.inr (downOK_mono (show r.floor_ = T.floor_ from rfl) hcalls h2))

/-! ### Step E4: let people out, in -/

/-- E4 sends one rider out (resume point 6, case code 6) or lets the head
of the local queue in (resume point 5); either way the elevator re-enters
step 4 after the transfer duration. -/
theorem inv_E4_user {s : Sim} {rest : List TaskId} (hI : Inv s)
    (hw : s.wait_ = elevatortask :: rest) (h4 : einst s = 4) (u : Nat) (i : Int)
    (hcase : (i = 6 ∧ u ∈ s.elevator_) ∨ (i = 5 ∧ u ∈ s.queue_ s.floor_))
    (w1 w2 : Int) :
    Inv (schedule (schedule_immediately { s with wait_ := rest }
      (usertask u) i w1) elevatortask 4 w2) := by
  obtain ⟨htm, hnr, hnt, hsub⟩ := popped_facts hI hw
  obtain ⟨hd1, hd3⟩ := hI.e4P htm h4
  have hult : u < s.nextUserId_ := by
    by_contra hge
    rcases hcase with ⟨_, hm⟩ | ⟨_, hm⟩
    · exact (hI.freshP u (by omega)).2.2 hm
    · exact (hI.freshP u (by omega)).2.1 _ hm
  have hu1 : uinst s u ≠ 1 := by
    rcases hcase with ⟨_, hm⟩ | ⟨_, hm⟩
    · rcases (hI.carP u hm).1 with h | h <;> omega
    · rcases (hI.queueP u _ hm).1 with h | h <;> omega
  set r := schedule (schedule_immediately { s with wait_ := rest }
    (usertask u) i w1) elevatortask 4 w2 with hr
  have hein : einst r = 4 := by
    rw [hr]
    simp
  have huin : ∀ n, uinst r n = if n = u then i else uinst s n := by
    intro n
    rw [hr, uinst_schedule, uinst_schim]
    rw [if_neg (show (usertask n : TaskId) ≠ elevatortask from fun h => nomatch h)]
    by_cases h : n = u
    · rw [if_pos (by rw [h]), if_pos h]
    · rw [if_neg (fun hh => h (by cases hh; rfl)), if_neg h]
      rfl
  have hmemE : ∀ x : TaskId, x ∈ r.wait_ →
      x = elevatortask ∨ x = usertask u ∨ x ∈ rest := by
    intro x hx
    rw [hr] at hx
    rcases mem_wait_schedule_elim hx with h | h
    · exact Or.inl h
    · rcases mem_wait_schim_elim h with h2 | h2
      · exact Or.inr (Or.inl h2)
      · exact Or.inr (Or.inr h2)
  refine ⟨hI.wfArr, hI.floor0, hI.floor4, hI.dExcl, ?_, hI.qNodup,
    ?_, ?_, ?_, ?_, ?_, ?_, ?_, ?_, ?_, ?_, ?_, ?_, ?_, ?_, ?_, ?_, ?_, ?_⟩
  · rw [hr]
    exact nodup_schedule_wait (nodup_schim_wait hnr (usertask u) i w1) elevatortask 4 w2
  · intro h
    rw [hein] at h
    omega
  · intro h
    rw [hein] at h
    omega
  · intro h
    rw [hein] at h
    omega
  · intro _ _
    exact ⟨hd1, hd3⟩
  · intro h
    rw [hein] at h
    omega
  · intro h
    rw [hein] at h
    omega
  · intro h
    rw [hein] at h
    omega
  · intro h
    rw [hein] at h
    omega
  · intro h
    rw [hein] at h
    omega
  · intro h
    rw [show r.state_ = s.state_ from rfl] at h
    rcases hI.gUp h with h2 | h2 | h2
    · rw [h4] at h2
      omega
    · rw [h4] at h2
      omega
    · exact Or.inr (Or.inr (upOK_mono (show r.floor_ = s.floor_ from rfl)
        (callsLE_of_eq rfl rfl rfl) h2))
  · intro h
    rw [show r.state_ = s.state_ from rfl] at h
    rcases hI.gDn h with h2 | h2 | h2
    · rw [h4] at h2
      omega
    · rw [h4] at h2
      omega
    · exact Or.inr (Or.inr (downOK_mono (show r.floor_ = s.floor_ from rfl)
        (callsLE_of_eq rfl rfl rfl) h2))
  · intro _
    exact Or.inr hein
  · intro n k hn
    have hn' : n ∈ s.queue_ k := hn
    by_cases h : n = u
    · subst h
      rcases hcase with ⟨_, hm⟩ | ⟨hi5, _⟩
      · exact absurd hm (hI.disjP n k hn')
      · obtain ⟨_, hb, hc⟩ := hI.queueP n k hn'
        refine ⟨Or.inr ?_, hb, hc⟩
        rw [huin, if_pos rfl, hi5]
    · obtain ⟨ha, hb, hc⟩ := hI.queueP n k hn'
      exact ⟨by rw [huin, if_neg h]; exact ha, hb, hc⟩
  · intro n hn
    have hn' : n ∈ s.elevator_ := hn
    by_cases h : n = u
    · subst h
      rcases hcase with ⟨hi6, _⟩ | ⟨_, hm⟩
      · obtain ⟨_, hb⟩ := hI.carP n hn'
        refine ⟨Or.inr ?_, hb⟩
        rw [huin, if_pos rfl, hi6]
      · exact absurd hn' (hI.disjP n _ hm)
    · obtain ⟨ha, hb⟩ := hI.carP n hn'
      exact ⟨by rw [huin, if_neg h]; exact ha, hb⟩
  · intro n k hn
    exact hI.disjP n k hn
  · intro n hn h5
    rw [huin] at h5
    by_cases h : n = u
    · rw [if_pos h] at h5
      rcases hcase with ⟨hi6, _⟩ | ⟨_, hm⟩
      · rw [hi6] at h5
        omega
      · subst h
        exact ⟨hd1, hm, hein⟩
    · rw [if_neg h] at h5
      rcases hmemE _ hn with he | he | he
      · exact nomatch he
      · simp only [TaskId.usertask.injEq] at he
        exact absurd he h
      · obtain ⟨ha, hb, _⟩ := hI.u5P n (hsub _ he) h5
        exact ⟨ha, hb, hein⟩
  · obtain ⟨n, hn, hn1⟩ := hI.arriveP
    have hnu : n ≠ u := by
      intro hh
      rw [hh] at hn1
      exact hu1 hn1
    have hnr2 : usertask n ∈ rest := by
      rw [hw] at hn
      rcases List.mem_cons.mp hn with he | hm
      · exact nomatch he
      · exact hm
    refine ⟨n, ?_, by rw [huin, if_neg hnu]; exact hn1⟩
    rw [hr]
    refine mem_wait_schedule_of_ne ?_ (fun h => nomatch h)
    refine mem_wait_schim_of_ne hnr2 ?_
    intro hh
    simp only [TaskId.usertask.injEq] at hh
    exact hnu hh
  · intro q hq
    have hq2 : s.nextUserId_ ≤ q := hq
    obtain ⟨ha, hb, hc⟩ := hI.freshP q hq2
    refine ⟨?_, hb, hc⟩
    intro hmem
    rcases hmemE _ hmem with he | he | he
    · exact nomatch he
    · simp only [TaskId.usertask.injEq] at he
      omega
    · exact ha (hsub _ he)

/-- E4's closing branch: no rider leaves, no one is waiting at this floor,
so the doors flutter shut (`d1_` off, `d3_` on) and the elevator parks in
pending step 4 outside the pending sequence. -/
theorem inv_E4_close {s : Sim} {rest : List TaskId} (hI : Inv s)
    (hw : s.wait_ = elevatortask :: rest) (h4 : einst s = 4)
    (hqe : s.queue_ s.floor_ = []) :
    Inv { s with wait_ := rest, d1_ := false, d3_ := true } := by
  obtain ⟨htm, hnr, hnt, hsub⟩ := popped_facts hI hw
  set r : Sim := { s with wait_ := rest, d1_ := false, d3_ := true } with hr
  have hein : einst r = 4 := h4
  refine ⟨hI.wfArr, hI.floor0, hI.floor4, ?_, hnr, hI.qNodup,
    ?_, ?_, ?_, ?_, ?_, ?_, ?_, ?_, ?_, ?_, ?_, ?_, ?_, ?_, ?_, ?_, ?_, ?_⟩
  · show ¬(false = true ∧ true = true)
    intro h
    exact nomatch h.1
  · intro h
    rw [hein] at h
    omega
  · intro h
    rw [hein] at h
    omega
  · intro h
    rw [hein] at h
    omega
  · intro hm _
    exact absurd hm hnt
  · intro h
    rw [hein] at h
    omega
  · intro h
    rw [hein] at h
    omega
  · intro h
    rw [hein] at h
    omega
  · intro h
    rw [hein] at h
    omega
  · intro h
    rw [hein] at h
    omega
  · intro h
    rw [show r.state_ = s.state_ from rfl] at h
    rcases hI.gUp h with h2 | h2 | h2
    · rw [h4] at h2
      omega
    · rw [h4] at h2
      omega
    · exact Or.inr (Or.inr (upOK_mono (show r.floor_ = s.floor_ from rfl)
        (callsLE_of_eq rfl rfl rfl) h2))
  · intro h
    rw [show r.state_ = s.state_ from rfl] at h
    rcases hI.gDn h with h2 | h2 | h2
    · rw [h4] at h2
      omega
    · rw [h4] at h2
      omega
    · exact Or.inr (Or.inr (downOK_mono (show r.floor_ = s.floor_ from rfl)
        (callsLE_of_eq rfl rfl rfl) h2))
  · intro _
    exact Or.inr hein
  · intro n k hn
    exact hI.queueP n k hn
  · intro n hn
    exact hI.carP n hn
  · intro n k hn
    exact hI.disjP n k hn
  · intro n hn h5
    have h5s : uinst s n = 5 := h5
    have hmemq := (hI.u5P n (hsub _ hn) h5s).2.1
    rw [hqe] at hmemq
    exact absurd hmemq (List.not_mem_nil n)
  · obtain ⟨n, hn, hn1⟩ := hI.arriveP
    rw [hw] at hn
    rcases List.mem_cons.mp hn with he | hm
    · exact nomatch he
    · exact ⟨n, hm, hn1⟩
  · intro q hq
    obtain ⟨ha, hb, hc⟩ := hI.freshP q hq
    exact ⟨fun hmem => ha (hsub _ hmem), hb, hc⟩

/-- Resume case E4 preserves the invariant. -/
theorem inv_E4 {s : Sim} {rest : List TaskId} (hI : Inv s)
    (hw : s.wait_ = elevatortask :: rest) (h4 : einst s = 4) :
    Inv (elevatorResume { s with wait_ := rest }) := by
  have h4s : s.nextinst_ elevatortask = 4 := h4
  cases hfind : s.elevator_.find? (fun p => decide ((s.users_ p).out_ = s.floor_)) with
  | some leaver =>
    have hlmem : leaver ∈ s.elevator_ := List.mem_of_find?_eq_some hfind
    have heq : elevatorResume { s with wait_ := rest } =
        schedule (schedule_immediately { s with wait_ := rest } (usertask leaver) 6
          (s.nexttime_ elevatortask))
          elevatortask 4 (s.nexttime_ elevatortask + durationOfLeaving) := by
      unfold elevatorResume
      simp [h4s, hfind]
    rw [heq]
    exact inv_E4_user hI hw h4 leaver 6 (Or.inl ⟨rfl, hlmem⟩) _ _
  | none =>
    cases hfq : (s.queue_ s.floor_).find? (fun _ => true) with
    | some enterer =>
      have hqmem : enterer ∈ s.queue_ s.floor_ := List.mem_of_find?_eq_some hfq
      have heq : elevatorResume { s with wait_ := rest } =
          schedule (schedule_immediately { s with wait_ := rest } (usertask enterer) 5
            (s.nexttime_ elevatortask))
            elevatortask 4 (s.nexttime_ elevatortask + durationOfEntering) := by
        unfold elevatorResume
        simp [h4s, hfind, hfq]
      rw [heq]
      exact inv_E4_user hI hw h4 enterer 5 (Or.inr ⟨rfl, hqmem⟩) _ _
    | none =>
      have hqe : s.queue_ s.floor_ = [] := by
        cases hcase : s.queue_ s.floor_ with
        | nil => rfl
        | cons a as =>
          rw [hcase] at hfq
          simp [List.find?] at hfq
      have heq : elevatorResume { s with wait_ := rest } =
          { s with wait_ := rest, d1_ := false, d3_ := true } := by
        unfold elevatorResume
        simp [h4s, hfind, hfq]
      rw [heq]
      exact inv_E4_close hI hw h4 hqe

/-! ### Step U5: get in -/

/-- U5 with the elevator already moving-or-decided (state not Neutral):
the rider leaves the queue, boards, and presses the car button. -/
theorem inv_U5_stay {s : Sim} {rest : List TaskId} {m : Nat} (hI : Inv s)
    (hw : s.wait_ = usertask m :: rest) (h5 : uinst s m = 5) :
    Inv { s with
      wait_ := rest
      queue_ := Function.update s.queue_ ((s.users_ m).in_)
        (std_erase (s.queue_ ((s.users_ m).in_)) m)
      elevator_ := m :: s.elevator_
      callcar_ := Function.update s.callcar_ ((s.users_ m).out_) true } := by
  obtain ⟨htm, hnr, hnt, hsub⟩ := popped_facts hI hw
  obtain ⟨hd1, hmq, he4⟩ := hI.u5P m htm h5
  obtain ⟨_, hUOK, hin⟩ := hI.queueP m s.floor_ hmq
  have hd3 : s.d3_ = false := by
    by_cases h : s.d3_ = true
    · exact absurd ⟨hd1, h⟩ hI.dExcl
    · exact Bool.eq_false_iff.mpr h
  have hmlt : m < s.nextUserId_ := by
    by_contra hge
    exact (hI.freshP m (by omega)).2.1 _ hmq
  set q2 := Function.update s.queue_ ((s.users_ m).in_)
    (std_erase (s.queue_ ((s.users_ m).in_)) m) with hq2
  set r : Sim := { s with
    wait_ := rest
    queue_ := q2
    elevator_ := m :: s.elevator_
    callcar_ := Function.update s.callcar_ ((s.users_ m).out_) true } with hr
  have hein : einst r = 4 := he4
  have hcalls : callsLE s r := by
    intro j hj
    show (s.callup_ j || s.calldown_ j ||
      Function.update s.callcar_ ((s.users_ m).out_) true j) = true
    rw [callAt] at hj
    by_cases h : j = (s.users_ m).out_
    · rw [h, Function.update_same]
      simp
    · rw [Function.update_noteq h]
      exact hj
  have hqsub : ∀ n k, n ∈ q2 k → n ∈ s.queue_ k := by
    intro n k hn
    rw [hq2, Function.update_apply] at hn
    by_cases hk : k = (s.users_ m).in_
    · rw [if_pos hk] at hn
      rw [hk]
      exact List.mem_of_mem_erase hn
    · rw [if_neg hk] at hn
      exact hn
  refine ⟨hI.wfArr, hI.floor0, hI.floor4, hI.dExcl, hnr, ?_,
    ?_, ?_, ?_, ?_, ?_, ?_, ?_, ?_, ?_, ?_, ?_, ?_, ?_, ?_, ?_, ?_, ?_, ?_⟩
  · intro k
    show (q2 k).Nodup
    rw [hq2, Function.update_apply]
    by_cases hk : k = (s.users_ m).in_
    · rw [if_pos hk]
      exact (hI.qNodup _).erase m
    · rw [if_neg hk]
      exact hI.qNodup k
  · intro h
    rw [hein] at h
    omega
  · intro h
    rw [hein] at h
    omega
  · intro h
    rw [hein] at h
    omega
  · intro _ _
    exact ⟨hd1, hd3⟩
  · intro h
    rw [hein] at h
    omega
  · intro h
    rw [hein] at h
    omega
  · intro h
    rw [hein] at h
    omega
  · intro h
    rw [hein] at h
    omega
  · intro h
    rw [hein] at h
    omega
  · intro h
    rw [show r.state_ = s.state_ from rfl] at h
    rcases hI.gUp h with h2 | h2 | h2
    · rw [he4] at h2
      omega
    · rw [he4] at h2
      omega
    · exact Or.inr (Or.inr (upOK_mono (show r.floor_ = s.floor_ from rfl) hcalls h2))
  · intro h
    rw [show r.state_ = s.state_ from rfl] at h
    rcases hI.gDn h with h2 | h2 | h2
    · rw [he4] at h2
      omega
    · rw [he4] at h2
      omega
    · exact Or.inr (Or.inr (downOK_mono (show r.floor_ = s.floor_ from rfl) hcalls h2))
  · intro _
    exact Or.inr hein
  · intro n k hn
    have hn' : n ∈ q2 k := hn
    exact hI.queueP n k (hqsub n k hn')
  · intro n hn
    have hn' : n ∈ m :: s.elevator_ := hn
    rcases List.mem_cons.mp hn' with he | he
    · subst he
      exact ⟨Or.inl h5, hUOK⟩
    · exact hI.carP n he
  · intro n k hn
    have hn' : n ∈ q2 k := hn
    intro hmem
    have hmem' : n ∈ m :: s.elevator_ := hmem
    rcases List.mem_cons.mp hmem' with he | he
    · subst he
      by_cases hk : k = (s.users_ n).in_
      · rw [hq2, Function.update_apply, if_pos hk] at hn'
        exact (List.Nodup.not_mem_erase (hI.qNodup _)) hn'
      · rw [hq2, Function.update_apply, if_neg hk] at hn'
        exact hk ((hI.queueP n k hn').2.2).symm
    · exact hI.disjP n k (hqsub n k hn') he
  · intro n hn h5'
    have hn' : usertask n ∈ rest := hn
    have h5s : uinst s n = 5 := h5'
    have hnm : n ≠ m := by
      intro he
      rw [he] at hn'
      exact hnt hn'
    obtain ⟨ha, hb, _⟩ := hI.u5P n (hsub _ hn') h5s
    refine ⟨ha, ?_, hein⟩
    show n ∈ q2 s.floor_
    rw [hq2]
    rw [show s.floor_ = (s.users_ m).in_ from hin.symm]
    rw [Function.update_same]
    refine (List.mem_erase_of_ne hnm).mpr ?_
    rw [hin]
    exact hb
  · obtain ⟨n, hn, hn1⟩ := hI.arriveP
    rw [hw] at hn
    rcases List.mem_cons.mp hn with he | hm2
    · cases he
      rw [hn1] at h5
      omega
    · exact ⟨n, hm2, hn1⟩
  · intro q hq
    have hq' : s.nextUserId_ ≤ q := hq
    obtain ⟨ha, hb, hc⟩ := hI.freshP q hq'
    refine ⟨fun hmem => ha (hsub _ hmem), ?_, ?_⟩
    · intro k hk
      exact hb k (hqsub q k hk)
    · intro hmem
      have hmem' : q ∈ m :: s.elevator_ := hmem
      rcases List.mem_cons.mp hmem' with he | he
      · omega
      · exact hc he

/-- U5 with the elevator neutral: the rider boards, sets the direction
toward the destination, and schedules the rapid door close E5. -/
theorem inv_U5_go {s : Sim} {rest : List TaskId} {m : Nat} (hI : Inv s)
    (hw : s.wait_ = usertask m :: rest) (h5 : uinst s m = 5) (w : Int) :
    Inv (schedule
      { s with
        wait_ := rest
        queue_ := Function.update s.queue_ ((s.users_ m).in_)
          (std_erase (s.queue_ ((s.users_ m).in_)) m)
        elevator_ := m :: s.elevator_
        callcar_ := Function.update s.callcar_ ((s.users_ m).out_) true
        state_ := if (s.users_ m).in_ < (s.users_ m).out_ then GoingUp else GoingDown }
      e5task 5 w) := by
  obtain ⟨htm, hnr, hnt, hsub⟩ := popped_facts hI hw
  obtain ⟨hd1, hmq, he4⟩ := hI.u5P m htm h5
  obtain ⟨_, hUOK, hin⟩ := hI.queueP m s.floor_ hmq
  have hd3 : s.d3_ = false := by
    by_cases h : s.d3_ = true
    · exact absurd ⟨hd1, h⟩ hI.dExcl
    · exact Bool.eq_false_iff.mpr h
  have hmlt : m < s.nextUserId_ := by
    by_contra hge
    exact (hI.freshP m (by omega)).2.1 _ hmq
  set q2 := Function.update s.queue_ ((s.users_ m).in_)
    (std_erase (s.queue_ ((s.users_ m).in_)) m) with hq2
  set r := schedule
    { s with
      wait_ := rest
      queue_ := q2
      elevator_ := m :: s.elevator_
      callcar_ := Function.update s.callcar_ ((s.users_ m).out_) true
      state_ := if (s.users_ m).in_ < (s.users_ m).out_ then GoingUp else GoingDown }
    e5task 5 w with hr
  have hein : einst r = 4 := by
    rw [hr, einst_schedule,
      if_neg (show elevatortask ≠ e5task from fun h => nomatch h)]
    exact he4
  have huin : ∀ n, uinst r n = uinst s n := by
    intro n
    rw [hr, uinst_schedule,
      if_neg (show (usertask n : TaskId) ≠ e5task from fun h => nomatch h)]
    rfl
  have hcallout : callAt r ((s.users_ m).out_) = true := by
    show (s.callup_ ((s.users_ m).out_) || s.calldown_ ((s.users_ m).out_) ||
      Function.update s.callcar_ ((s.users_ m).out_) true ((s.users_ m).out_)) = true
    rw [Function.update_same]
    simp
  have hqsub : ∀ n k, n ∈ q2 k → n ∈ s.queue_ k := by
    intro n k hn
    rw [hq2, Function.update_apply] at hn
    by_cases hk : k = (s.users_ m).in_
    · rw [if_pos hk] at hn
      rw [hk]
      exact List.mem_of_mem_erase hn
    · rw [if_neg hk] at hn
      exact hn
  have hmemE : ∀ x : TaskId, x ∈ r.wait_ → x = e5task ∨ x ∈ rest := by
    intro x hx
    rw [hr] at hx
    exact mem_wait_schedule_elim hx
  refine ⟨hI.wfArr, hI.floor0, hI.floor4, hI.dExcl, ?_, ?_,
    ?_, ?_, ?_, ?_, ?_, ?_, ?_, ?_, ?_, ?_, ?_, ?_, ?_, ?_, ?_, ?_, ?_, ?_⟩
  · rw [hr]
    exact nodup_schedule_wait hnr e5task 5 w
  · intro k
    show (q2 k).Nodup
    rw [hq2, Function.update_apply]
    by_cases hk : k = (s.users_ m).in_
    · rw [if_pos hk]
      exact (hI.qNodup _).erase m
    · rw [if_neg hk]
      exact hI.qNodup k
  · intro h
    rw [hein] at h
    omega
  · intro h
    rw [hein] at h
    omega
  · intro h
    rw [hein] at h
    omega
  · intro _ _
    exact ⟨hd1, hd3⟩
  · intro h
    rw [hein] at h
    omega
  · intro h
    rw [hein] at h
    omega
  · intro h
    rw [hein] at h
    omega
  · intro h
    rw [hein] at h
    omega
  · intro h
    rw [hein] at h
    omega
  · intro h
    refine Or.inr (Or.inr (Or.inl ⟨(s.users_ m).out_, ?_, ?_, hcallout⟩))
    · exact int_mem_floors hUOK.2.2.1 hUOK.2.2.2.1
    · by_cases hio : (s.users_ m).in_ < (s.users_ m).out_
      · show r.floor_ < (s.users_ m).out_
        rw [show r.floor_ = s.floor_ from rfl, ← hin]
        exact hio
      · exfalso
        have hst : r.state_ =
            (if (s.users_ m).in_ < (s.users_ m).out_ then GoingUp else GoingDown) := rfl
        rw [if_neg hio] at hst
        rw [hst] at h
        exact nomatch h
  · intro h
    refine Or.inr (Or.inr (Or.inl ⟨(s.users_ m).out_, ?_, ?_, hcallout⟩))
    · exact int_mem_floors hUOK.2.2.1 hUOK.2.2.2.1
    · by_cases hio : (s.users_ m).in_ < (s.users_ m).out_
      · exfalso
        have hst : r.state_ =
            (if (s.users_ m).in_ < (s.users_ m).out_ then GoingUp else GoingDown) := rfl
        rw [if_pos hio] at hst
        rw [hst] at h
        exact nomatch h
      · show (s.users_ m).out_ < r.floor_
        rw [show r.floor_ = s.floor_ from rfl, ← hin]
        have hne := hUOK.2.2.2.2
        omega
  · intro _
    exact Or.inr hein
  · intro n k hn
    have hn' : n ∈ q2 k := hn
    obtain ⟨ha, hb, hc⟩ := hI.queueP n k (hqsub n k hn')
    exact ⟨by rw [huin]; exact ha, hb, hc⟩
  · intro n hn
    have hn' : n ∈ m :: s.elevator_ := hn
    rcases List.mem_cons.mp hn' with he | he
    · subst he
      exact ⟨Or.inl (by rw [huin]; exact h5), hUOK⟩
    · obtain ⟨ha, hb⟩ := hI.carP n he
      exact ⟨by rw [huin]; exact ha, hb⟩
  · intro n k hn
    have hn' : n ∈ q2 k := hn
    intro hmem
    have hmem' : n ∈ m :: s.elevator_ := hmem
    rcases List.mem_cons.mp hmem' with he | he
    · subst he
      by_cases hk : k = (s.users_ n).in_
      · rw [hq2, Function.update_apply, if_pos hk] at hn'
        exact (List.Nodup.not_mem_erase (hI.qNodup _)) hn'
      · rw [hq2, Function.update_apply, if_neg hk] at hn'
        exact hk ((hI.queueP n k hn').2.2).symm
    · exact hI.disjP n k (hqsub n k hn') he
  · intro n hn h5'
    rw [huin] at h5'
    rcases hmemE _ hn with he | he
    · exact nomatch he
    · have hnm : n ≠ m := by
        intro heq2
        rw [heq2] at he
        exact hnt he
      obtain ⟨ha, hb, _⟩ := hI.u5P n (hsub _ he) h5'
      refine ⟨ha, ?_, hein⟩
      show n ∈ q2 s.floor_
      rw [hq2]
      rw [show s.floor_ = (s.users_ m).in_ from hin.symm]
      rw [Function.update_same]
      refine (List.mem_erase_of_ne hnm).mpr ?_
      rw [hin]
      exact hb
  · obtain ⟨n, hn, hn1⟩ := hI.arriveP
    rw [hw] at hn
    rcases List.mem_cons.mp hn with he | hm2
    · cases he
      rw [hn1] at h5
      omega
    · refine ⟨n, ?_, by rw [huin]; exact hn1⟩
      rw [hr]
      exact mem_wait_schedule_of_ne hm2 (fun h => nomatch h)
  · intro q hq
    have hq' : s.nextUserId_ ≤ q := hq
    obtain ⟨ha, hb, hc⟩ := hI.freshP q hq'
    refine ⟨?_, ?_, ?_⟩
    · intro hmem
      rcases hmemE _ hmem with he | he
      · exact nomatch he
      · exact ha (hsub _ he)
    · intro k hk
      exact hb k (hqsub q k hk)
    · intro hmem
      have hmem' : q ∈ m :: s.elevator_ := hmem
      rcases List.mem_cons.mp hmem' with he | he
      · omega
      · exact hc he

/-- Resume case U5 preserves the invariant. -/
theorem inv_U5 {s : Sim} {rest : List TaskId} {m : Nat} (hI : Inv s)
    (hw : s.wait_ = usertask m :: rest) (h5 : uinst s m = 5) :
    Inv (userResume { s with wait_ := rest } m) := by
  have h5s : s.nextinst_ (usertask m) = 5 := h5
  by_cases hst : s.state_ = Neutral
  · have heq : userResume { s with wait_ := rest } m =
        schedule
          { s with
            wait_ := rest
            queue_ := Function.update s.queue_ ((s.users_ m).in_)
              (std_erase (s.queue_ ((s.users_ m).in_)) m)
            elevator_ := m :: s.elevator_
            callcar_ := Function.update s.callcar_ ((s.users_ m).out_) true
            state_ := if (s.users_ m).in_ < (s.users_ m).out_
                      then GoingUp else GoingDown }
          e5task 5 (s.nexttime_ (usertask m) + durationBeforeRapidDoorClose) := by
      unfold userResume
      simp [h5s, hst]
    rw [heq]
    exact inv_U5_go hI hw h5 _
  · have heq : userResume { s with wait_ := rest } m =
        { s with
          wait_ := rest
          queue_ := Function.update s.queue_ ((s.users_ m).in_)
            (std_erase (s.queue_ ((s.users_ m).in_)) m)
          elevator_ := m :: s.elevator_
          callcar_ := Function.update s.callcar_ ((s.users_ m).out_) true } := by
      unfold userResume
      simp [h5s, hst]
    rw [heq]
    exact inv_U5_stay hI hw h5

/-! ### Step U1: enter, signal, queue up -/

/-- U3, the tail of U1: record the new rider's floors, append them to the
queue at the entry floor, and schedule the give-up step U4. -/
theorem inv_U1_finish {T : Sim} {m : Nat} (hT : Inv T)
    (hnw : usertask m ∉ T.wait_) (hqm : ∀ k, m ∉ T.queue_ k)
    (hcm : m ∉ T.elevator_) (hmlt : m < T.nextUserId_)
    {i o : Int} (h0i : 0 ≤ i) (hi4 : i ≤ 4) (h0o : 0 ≤ o) (ho4 : o ≤ 4)
    (hio : i ≠ o) (w : Int) :
    Inv (schedule
      { T with
        users_ := Function.update T.users_ m ⟨i, o⟩
        queue_ := Function.update T.queue_ i (T.queue_ i ++ [m]) }
      (usertask m) 4 w) := by
  set q2 := Function.update T.queue_ i (T.queue_ i ++ [m]) with hq2
  set r := schedule
    { T with
      users_ := Function.update T.users_ m ⟨i, o⟩
      queue_ := q2 }
    (usertask m) 4 w with hr
  have hein : einst r = einst T := by
    rw [hr, einst_schedule,
      if_neg (show elevatortask ≠ usertask m from fun h => nomatch h)]
    rfl
  have huin : ∀ n, uinst r n = if n = m then 4 else uinst T n := by
    intro n
    rw [hr, uinst_schedule]
    by_cases h : n = m
    · rw [if_pos (by rw [h]), if_pos h]
    · rw [if_neg (fun hh => h (by cases hh; rfl)), if_neg h]
      rfl
  have husers_m : r.users_ m = ⟨i, o⟩ := by
    show Function.update T.users_ m ⟨i, o⟩ m = ⟨i, o⟩
    rw [Function.update_same]
  have husers_ne : ∀ n, n ≠ m → r.users_ n = T.users_ n := by
    intro n hn
    show Function.update T.users_ m ⟨i, o⟩ n = T.users_ n
    rw [Function.update_noteq hn]
  have hUOK_ne : ∀ n, n ≠ m → UserOK T n → UserOK r n := by
    intro n hn h
    unfold UserOK at h ⊢
    rw [husers_ne n hn]
    exact h
  have hUOKm : UserOK r m := by
    unfold UserOK
    rw [husers_m]
    exact ⟨h0i, hi4, h0o, ho4, hio⟩
  have hq2old : ∀ n k, n ∈ T.queue_ k → n ∈ q2 k := by
    intro n k hn
    rw [hq2, Function.update_apply]
    by_cases hk : k = i
    · rw [if_pos hk]
      refine List.mem_append_left _ ?_
      rw [← hk]
      exact hn
    · rw [if_neg hk]
      exact hn
  have hq2elim : ∀ n k, n ∈ q2 k → (n = m ∧ k = i) ∨ n ∈ T.queue_ k := by
    intro n k hn
    rw [hq2, Function.update_apply] at hn
    by_cases hk : k = i
    · rw [if_pos hk] at hn
      rcases List.mem_append.mp hn with h | h
      · refine Or.inr ?_
        rw [hk]
        exact h
      · rw [List.mem_singleton] at h
        exact Or.inl ⟨h, hk⟩
    · rw [if_neg hk] at hn
      exact Or.inr hn
  have hmemE : ∀ x : TaskId, x ∈ r.wait_ → x = usertask m ∨ x ∈ T.wait_ := by
    intro x hx
    rw [hr] at hx
    rcases mem_wait_schedule_elim hx with h | h
    · exact Or.inl h
    · exact Or.inr h
  refine ⟨hT.wfArr, hT.floor0, hT.floor4, hT.dExcl, ?_, ?_,
    ?_, ?_, ?_, ?_, ?_, ?_, ?_, ?_, ?_, ?_, ?_, ?_, ?_, ?_, ?_, ?_, ?_, ?_⟩
  · rw [hr]
    exact nodup_schedule_wait hT.nodupW (usertask m) 4 w
  · intro k
    show (q2 k).Nodup
    rw [hq2, Function.update_apply]
    by_cases hk : k = i
    · rw [if_pos hk]
      rw [List.nodup_append]
      refine ⟨hT.qNodup i, List.nodup_singleton m, ?_⟩
      intro a ha hb
      rw [List.mem_singleton] at hb
      subst hb
      exact hqm i ha
    · rw [if_neg hk]
      exact hT.qNodup k
  · intro h
    rw [hein] at h
    exact hT.e1P h
  · intro h
    rw [hein] at h
    exact hT.e2P h
  · intro h
    rw [hein] at h
    exact hT.e3P h
  · intro hm2 h
    rw [hein] at h
    rcases hmemE _ hm2 with he | he
    · exact nomatch he
    · exact hT.e4P he h
  · intro h
    rw [hein] at h
    exact hT.e6P h
  · intro h
    rw [hein] at h
    obtain ⟨ha, hb, hc, hd⟩ := hT.e7P h
    exact ⟨ha, hb, hc, upOK_mono (show r.floor_ = T.floor_ from rfl)
      (callsLE_of_eq rfl rfl rfl) hd⟩
  · intro h
    rw [hein] at h
    obtain ⟨ha, hb, hc⟩ := hT.e71P h
    exact ⟨ha, hb, upReach_mono (show r.floor_ = T.floor_ from rfl)
      (callsLE_of_eq rfl rfl rfl) hc⟩
  · intro h
    rw [hein] at h
    obtain ⟨ha, hb, hc, hd⟩ := hT.e8P h
    exact ⟨ha, hb, hc, downOK_mono (show r.floor_ = T.floor_ from rfl)
      (callsLE_of_eq rfl rfl rfl) hd⟩
  · intro h
    rw [hein] at h
    obtain ⟨ha, hb, hc⟩ := hT.e81P h
    exact ⟨ha, hb, downReach_mono (show r.floor_ = T.floor_ from rfl)
      (callsLE_of_eq rfl rfl rfl) hc⟩
  · intro h
    rw [show r.state_ = T.state_ from rfl] at h
    rcases hT.gUp h with h2 | h2 | h2
    · exact Or.inl (by rw [hein]; exact h2)
    · exact Or.inr (Or.inl (by rw [hein]; exact h2))
    · exact Or.inr (Or.inr (upOK_mono (show r.floor_ = T.floor_ from rfl)
        (callsLE_of_eq rfl rfl rfl) h2))
  · intro h
    rw [show r.state_ = T.state_ from rfl] at h
    rcases hT.gDn h with h2 | h2 | h2
    · exact Or.inl (by rw [hein]; exact h2)
    · exact Or.inr (Or.inl (by rw [hein]; exact h2))
    · exact Or.inr (Or.inr (downOK_mono (show r.floor_ = T.floor_ from rfl)
        (callsLE_of_eq rfl rfl rfl) h2))
  · intro hm2
    rcases hmemE _ hm2 with he | he
    · exact nomatch he
    · rcases hT.e5P he with h | h
      · exact Or.inl (by rw [hein]; exact h)
      · exact Or.inr (by rw [hein]; exact h)
  · intro n k hn
    have hn' : n ∈ q2 k := hn
    rcases hq2elim n k hn' with ⟨he, hk⟩ | he
    · subst he
      subst hk
      refine ⟨Or.inl (by rw [huin, if_pos rfl]), hUOKm, ?_⟩
      rw [husers_m]
    · have hnm : n ≠ m := by
        intro hh
        refine hqm k ?_
        rw [← hh]
        exact he
      obtain ⟨ha, hb, hc⟩ := hT.queueP n k he
      refine ⟨?_, hUOK_ne n hnm hb, ?_⟩
      · rw [huin, if_neg hnm]
        exact ha
      · rw [husers_ne n hnm]
        exact hc
  · intro n hn
    have hn' : n ∈ T.elevator_ := hn
    have hnm : n ≠ m := by
      intro hh
      refine hcm ?_
      rw [← hh]
      exact hn'
    obtain ⟨ha, hb⟩ := hT.carP n hn'
    exact ⟨by rw [huin, if_neg hnm]; exact ha, hUOK_ne n hnm hb⟩
  · intro n k hn
    have hn' : n ∈ q2 k := hn
    intro hmem
    have hmem' : n ∈ T.elevator_ := hmem
    have hnm : n ≠ m := by
      intro hh
      refine hcm ?_
      rw [← hh]
      exact hmem'
    rcases hq2elim n k hn' with ⟨he, _⟩ | he
    · exact hnm he
    · exact hT.disjP n k he hmem'
  · intro n hn h5
    rw [huin] at h5
    by_cases hnm : n = m
    · rw [if_pos hnm] at h5
      omega
    · rw [if_neg hnm] at h5
      rcases hmemE _ hn with he | he
      · simp only [TaskId.usertask.injEq] at he
        exact absurd he hnm
      · obtain ⟨ha, hb, hc⟩ := hT.u5P n he h5
        refine ⟨ha, ?_, by rw [hein]; exact hc⟩
        show n ∈ q2 T.floor_
        exact hq2old n T.floor_ hb
  · obtain ⟨n, hn, hn1⟩ := hT.arriveP
    have hnm : n ≠ m := by
      intro hh
      rw [hh] at hn
      exact hnw hn
    refine ⟨n, ?_, by rw [huin, if_neg hnm]; exact hn1⟩
    rw [hr]
    refine mem_wait_schedule_of_ne hn ?_
    intro hh
    simp only [TaskId.usertask.injEq] at hh
    exact hnm hh
  · intro q hq
    have hq' : T.nextUserId_ ≤ q := hq
    obtain ⟨ha, hb, hc⟩ := hT.freshP q hq'
    refine ⟨?_, ?_, hc⟩
    · intro hmem
      rcases hmemE _ hmem with he | he
      · simp only [TaskId.usertask.injEq] at he
        omega
      · exact ha he
    · intro k hk
      have hk' : q ∈ q2 k := hk
      rcases hq2elim q k hk' with ⟨he, _⟩ | he
      · omega
      · exact hb k he

/-- Resume case U1 preserves the invariant. -/
theorem inv_U1 {s : Sim} {rest : List TaskId} {m : Nat} (hI : Inv s)
    (hw : s.wait_ = usertask m :: rest) (h1 : uinst s m = 1) :
    Inv (userResume { s with wait_ := rest } m) := by
  have h1s : s.nextinst_ (usertask m) = 1 := h1
  obtain ⟨htm, hnr, hnt, hsub⟩ := popped_facts hI hw
  obtain ⟨h0i, hi4, h0o, ho4, hio⟩ := hI.wfArr s.arrivalIdx_
  have hmlt : m < s.nextUserId_ := by
    by_contra hge
    exact (hI.freshP m (by omega)).1 htm
  have hm2 : m < s.nextUserId_ + 1 := by omega
  have hqm0 : ∀ k, m ∉ s.queue_ k := by
    intro k hk
    rcases (hI.queueP m k hk).1 with h | h <;> omega
  have hcm0 : m ∉ s.elevator_ := by
    intro hk
    rcases (hI.carP m hk).1 with h | h <;> omega
  have hI2 := inv_U1_s2 hI hw h1
    (s.nexttime_ (usertask m) + (s.arrivals_ s.arrivalIdx_).intertime_)
  have hnwS2 : usertask m ∉ (schedule
      { s with
        wait_ := rest
        arrivalIdx_ := s.arrivalIdx_ + 1
        nextUserId_ := s.nextUserId_ + 1 }
      (usertask s.nextUserId_) 1
      (s.nexttime_ (usertask m) + (s.arrivals_ s.arrivalIdx_).intertime_)).wait_ := by
    intro hmem
    rcases mem_wait_schedule_elim hmem with he | he
    · simp only [TaskId.usertask.injEq] at he
      omega
    · exact hnt he
  unfold userResume
  simp only [h1s, Int.reduceEq, reduceIte]
  split
  next hc1 =>
    have hnwT : usertask m ∉ (schedule_immediately (schedule
        { s with
          wait_ := rest
          arrivalIdx_ := s.arrivalIdx_ + 1
          nextUserId_ := s.nextUserId_ + 1 }
        (usertask s.nextUserId_) 1
        (s.nexttime_ (usertask m) + (s.arrivals_ s.arrivalIdx_).intertime_))
        elevatortask 3 (s.nexttime_ (usertask m))).wait_ := by
      intro hmem
      rcases mem_wait_schim_elim hmem with he | he
      · exact nomatch he
      · exact hnwS2 he
    exact inv_U1_finish (inv_kick3 hI2 hc1.2 (s.nexttime_ (usertask m)))
      hnwT hqm0 hcm0 hm2 h0i hi4 h0o ho4 hio _
  next =>
    split
    next hc2 =>
      have hnwT : usertask m ∉ (schedule_immediately
          { (schedule
              { s with
                wait_ := rest
                arrivalIdx_ := s.arrivalIdx_ + 1
                nextUserId_ := s.nextUserId_ + 1 }
              (usertask s.nextUserId_) 1
              (s.nexttime_ (usertask m) +
                (s.arrivals_ s.arrivalIdx_).intertime_)) with
            d3_ := false
            d1_ := true }
          elevatortask 4 (s.nexttime_ (usertask m))).wait_ := by
        intro hmem
        rcases mem_wait_schim_elim hmem with he | he
        · exact nomatch he
        · exact hnwS2 he
      exact inv_U1_finish (inv_kick4 hI2 hc2.2 (s.nexttime_ (usertask m)))
        hnwT hqm0 hcm0 hm2 h0i hi4 h0o ho4 hio _
    next =>
      split
      next =>
        split
        next =>
          refine inv_U1_finish (inv_decision (inv_raiseup hI2
            ((s.arrivals_ s.arrivalIdx_).in_)) (s.nexttime_ (usertask m)))
            ?_ ?_ ?_ ?_ h0i hi4 h0o ho4 hio _
          · intro hmem
            rcases (decision_frame _ _ _).2.2.1 _ hmem with he | he
            · exact nomatch he
            · exact hnwS2 he
          · intro k hk
            rw [(decision_frame _ _ _).2.2.2.1] at hk
            exact hqm0 k hk
          · intro hk
            rw [(decision_frame _ _ _).2.2.2.2] at hk
            exact hcm0 hk
          · rw [(decision_frame _ _ _).2.1]
            exact hm2
        next =>
          exact inv_U1_finish (inv_raiseup hI2 ((s.arrivals_ s.arrivalIdx_).in_))
            (fun hmem => hnwS2 hmem) hqm0 hcm0 hm2 h0i hi4 h0o ho4 hio _
      next =>
        split
        next =>
          refine inv_U1_finish (inv_decision (inv_raisedown hI2
            ((s.arrivals_ s.arrivalIdx_).in_)) (s.nexttime_ (usertask m)))
            ?_ ?_ ?_ ?_ h0i hi4 h0o ho4 hio _
          · intro hmem
            rcases (decision_frame _ _ _).2.2.1 _ hmem with he | he
            · exact nomatch he
            · exact hnwS2 he
          · intro k hk
            rw [(decision_frame _ _ _).2.2.2.1] at hk
            exact hqm0 k hk
          · intro hk
            rw [(decision_frame _ _ _).2.2.2.2] at hk
            exact hcm0 hk
          · rw [(decision_frame _ _ _).2.1]
            exact hm2
        next =>
          exact inv_U1_finish (inv_raisedown hI2 ((s.arrivals_ s.arrivalIdx_).in_))
            (fun hmem => hnwS2 hmem) hqm0 hcm0 hm2 h0i hi4 h0o ho4 hio _

/-! ### The driver loop preserves the invariant -/

/-- One driver iteration (pop the earliest task, resume it) preserves the
invariant. -/
theorem inv_simStep {s : Sim} (hI : Inv s) : Inv (simStep s) := by
  cases hw : s.wait_ with
  | nil =>
    unfold simStep
    rw [hw]
    exact hI
  | cons t rest =>
    unfold simStep
    rw [hw]
    cases t with
    | elevatortask =>
      by_cases i1 : einst s = 1
      · exact inv_E1 hI hw i1
      · by_cases i2 : einst s = 2
        · exact inv_E2 hI hw i2
        · by_cases i3 : einst s = 3
          · exact inv_E3 hI hw i3
          · by_cases i4 : einst s = 4
            · exact inv_E4 hI hw i4
            · by_cases i6 : einst s = 6
              · exact inv_E6 hI hw i6
              · by_cases i7 : einst s = 7
                · exact inv_E7 hI hw i7
                · by_cases i71 : einst s = 71
                  · exact inv_E71 hI hw i71
                  · by_cases i8 : einst s = 8
                    · exact inv_E8 hI hw i8
                    · by_cases i81 : einst s = 81
                      · exact inv_E81 hI hw i81
                      · exact inv_Edefault hI hw
                          ⟨i1, i2, i3, i4, i6, i7, i71, i8, i81⟩
    | e5task => exact inv_E5 hI hw
    | e9task => exact inv_E9 hI hw
    | usertask m =>
      by_cases i1 : uinst s m = 1
      · exact inv_U1 hI hw i1
      · by_cases i4 : uinst s m = 4
        · exact inv_U4 hI hw i4
        · by_cases i5 : uinst s m = 5
          · exact inv_U5 hI hw i5
          · by_cases i6 : uinst s m = 6
            · exact inv_U6 hI hw i6
            · exact inv_Udefault hI hw ⟨i1, i4, i5, i6⟩

/-- Every state the driver can reach from a well-formed arrival stream
satisfies the invariant. -/
theorem inv_reach (arr : Nat → NewUserInfo) (h : ∀ i, WFInfo (arr i)) :
    ∀ n, Inv (reach arr n) := by
  intro n
  induction n with
  | zero => exact inv_initial arr h
  | succ k ih => exact inv_simStep ih

/-! ### Concrete inputs used to instantiate the claims -/

/-- A well-formed constant arrival stream (the first Knuth rider repeated). -/
def constArrival : Nat → NewUserInfo := fun _ => ⟨0, 2, 152, 38⟩

theorem constArrival_wf : ∀ i, WFInfo (constArrival i) := by
  intro i
  unfold WFInfo constArrival
  exact ⟨by decide, by decide, by decide, by decide, by decide⟩

/-- The initial state with the elevator parked in resume step 6. -/
def homeSix : Sim := { initialSim constArrival with nextinst_ := fun _ => 6 }

/-- A state going up from floor 2 with only a down hall call below. -/
def upNoAbove : Sim :=
  { initialSim constArrival with
    state_ := GoingUp
    calldown_ := fun j => decide (j = 0) }

/-- A state going down from floor 2 with only an up hall call above. -/
def downNoBelow : Sim :=
  { initialSim constArrival with
    state_ := GoingDown
    callup_ := fun j => decide (j = 4) }

/-- The initial state with user 0 parked in resume step 4 (give up). -/
def giveupSim : Sim := { initialSim constArrival with nextinst_ := fun _ => 4 }

/-! ### The claims -/

/-- Claim C1: in every reachable state of a run the car floor stays within
0..4; moreover the up-travel step E7 is only pending with the floor
strictly below 4 and the down-travel step E8 only with the floor strictly
above 0, so the travel steps never leave the range. -/
theorem C1_floor_in_range (arr : Nat → NewUserInfo) (h : ∀ i, WFInfo (arr i))
    (n : Nat) :
    0 ≤ (reach arr n).floor_ ∧ (reach arr n).floor_ ≤ 4 ∧
    (einst (reach arr n) = 7 → (reach arr n).floor_ < 4) ∧
    (einst (reach arr n) = 8 → 0 < (reach arr n).floor_) := by
  have I := inv_reach arr h n
  exact ⟨I.floor0, I.floor4, fun h7 => (I.e7P h7).2.2.1, fun h8 => (I.e8P h8).2.2.1⟩

theorem C1_floor_in_range_witness :
    (∀ i, WFInfo (constArrival i)) ∧
    (0 ≤ (reach constArrival 3).floor_ ∧ (reach constArrival 3).floor_ ≤ 4 ∧
      (einst (reach constArrival 3) = 7 → (reach constArrival 3).floor_ < 4) ∧
      (einst (reach constArrival 3) = 8 → 0 < (reach constArrival 3).floor_)) :=
  ⟨constArrival_wf, C1_floor_in_range constArrival constArrival_wf 3⟩

/-- Claim C2: whenever the decision subroutine is invoked with the caller
flag set (as from E6, whose resume point 6 is still recorded) and the
resulting direction is Neutral, the car is at the home floor 2. -/
theorem C2_neutral_only_at_home (s : Sim) (now : Int)
    (h6 : s.nextinst_ elevatortask = 6)
    (hres : (decision s now true).state_ = Neutral) :
    s.floor_ = 2 := by
  by_cases hN : s.state_ = Neutral
  · rcases decision_spec s now true hN with ⟨hb, _⟩ | ⟨h1, _⟩ | ⟨jj, hev, hcase⟩
    · exact nomatch hb
    · have h1s : s.nextinst_ elevatortask = 1 := h1
      rw [h6] at h1s
      exact absurd h1s (by decide)
    · rcases hcase with ⟨_, heq⟩ | ⟨h1, _, heq⟩
      · have hst : dirToward s.floor_ jj = Neutral := by
          rw [heq] at hres
          exact hres
        rcases dirToward_cases s.floor_ jj with ⟨_, he⟩ | ⟨_, he⟩ | ⟨hje, _⟩
        · rw [he] at hst
          exact nomatch hst
        · rw [he] at hst
          exact nomatch hst
        · rcases hev with ⟨_, hne, _⟩ | ⟨_, hj2⟩
          · exact absurd hje hne
          · rw [← hje]
            exact hj2
      · have h1s : s.nextinst_ elevatortask = 1 := h1
        rw [h6] at h1s
        exact absurd h1s (by decide)
  · rw [decision_of_not_neutral hN] at hres
    exact absurd hres hN

theorem C2_neutral_only_at_home_witness :
    homeSix.nextinst_ elevatortask = 6 ∧
    (decision homeSix 0 true).state_ = Neutral ∧
    homeSix.floor_ = 2 :=
  ⟨by decide, by decide,
    C2_neutral_only_at_home homeSix 0 (by decide) (by decide)⟩

/-- Claim C3: after any schedule call the pending sequence is ordered by
fire time, and among tasks with equal fire time the order of the pre-sort
sequence (existing pending order, with the newly scheduled task at the
back) is preserved, so the earlier-scheduled task fires first and a
rescheduled task counts as newly scheduled. -/
theorem C3_schedule_order (s : Sim) (t : TaskId) (i w : Int) :
    ((schedule s t i w).wait_.Pairwise (fun p q =>
      (schedule s t i w).nexttime_ p ≤ (schedule s t i w).nexttime_ q)) ∧
    (∀ p q : TaskId,
      (schedule s t i w).nexttime_ p = (schedule s t i w).nexttime_ q →
      List.Sublist [p, q] (std_erase s.wait_ t ++ [t]) →
      List.Sublist [p, q] (schedule s t i w).wait_) := by
  have htrans : ∀ a b c : TaskId,
      byNextTimeLE (Function.update s.nexttime_ t w) a b →
      byNextTimeLE (Function.update s.nexttime_ t w) b c →
      byNextTimeLE (Function.update s.nexttime_ t w) a c := by
    intro a b c hab hbc
    simp only [byNextTimeLE, decide_eq_true_eq] at hab hbc ⊢
    omega
  have htotal : ∀ a b : TaskId,
      (byNextTimeLE (Function.update s.nexttime_ t w) a b ||
        byNextTimeLE (Function.update s.nexttime_ t w) b a) = true := by
    intro a b
    simp only [byNextTimeLE]
    rcases le_total (Function.update s.nexttime_ t w a)
      (Function.update s.nexttime_ t w b) with h | h
    · simp [h]
    · simp [h]
  constructor
  · have hs := List.sorted_mergeSort htrans htotal (std_erase s.wait_ t ++ [t])
    show ((std_erase s.wait_ t ++ [t]).mergeSort
      (byNextTimeLE (Function.update s.nexttime_ t w))).Pairwise (fun p q =>
        Function.update s.nexttime_ t w p ≤ Function.update s.nexttime_ t w q)
    refine List.Pairwise.imp ?_ hs
    intro a b hab
    simpa [byNextTimeLE] using hab
  · intro p q hpq hsub
    have hpq2 : Function.update s.nexttime_ t w p =
        Function.update s.nexttime_ t w q := hpq
    have hle : byNextTimeLE (Function.update s.nexttime_ t w) p q = true := by
      simp only [byNextTimeLE, decide_eq_true_eq]
      omega
    show List.Sublist [p, q] ((std_erase s.wait_ t ++ [t]).mergeSort
      (byNextTimeLE (Function.update s.nexttime_ t w)))
    exact List.pair_sublist_mergeSort htrans htotal hle hsub

theorem C3_schedule_order_witness :
    (schedule (initialSim constArrival) e9task 9 0).nexttime_ (usertask 0) =
      (schedule (initialSim constArrival) e9task 9 0).nexttime_ e9task ∧
    List.Sublist [usertask 0, e9task]
      (std_erase (initialSim constArrival).wait_ e9task ++ [e9task]) ∧
    List.Sublist [usertask 0, e9task]
      (schedule (initialSim constArrival) e9task 9 0).wait_ := by
  have hbase : std_erase (initialSim constArrival).wait_ e9task ++ [e9task] =
      [usertask 0, e9task] := by
    rw [initialSim_wait constArrival]
    decide
  refine ⟨by decide, ?_, ?_⟩
  · rw [hbase]
  · refine (C3_schedule_order (initialSim constArrival) e9task 9 0).2
      (usertask 0) e9task (by decide) ?_
    rw [hbase]

/-- Claim C4: scheduleImmediately always inserts the task at the very
front of the pending sequence (after removing its old entry), so it is the
next task popped regardless of fire times. -/
theorem C4_schedule_immediately_front (s : Sim) (t : TaskId) (i w : Int) :
    (schedule_immediately s t i w).wait_ = t :: std_erase s.wait_ t ∧
    (schedule_immediately s t i w).wait_.head? = some t :=
  ⟨rfl, rfl⟩

/-- Claim C5: in every reachable state each task has at most one entry in
the pending sequence. -/
theorem C5_at_most_one_pending (arr : Nat → NewUserInfo)
    (h : ∀ i, WFInfo (arr i)) (n : Nat) (t : TaskId) :
    ((reach arr n).wait_).count t ≤ 1 :=
  List.nodup_iff_count_le_one.mp (inv_reach arr h n).nodupW t

theorem C5_at_most_one_pending_witness :
    (∀ i, WFInfo (constArrival i)) ∧
    ((reach constArrival 2).wait_).count elevatortask ≤ 1 :=
  ⟨constArrival_wf,
    C5_at_most_one_pending constArrival constArrival_wf 2 elevatortask⟩

/-- Claim C6 counterexample: going up from floor 2 with no call of any
kind above and an outstanding down hall call below, E2 recomputes the
direction to Neutral, not GoingDown — the flip to GoingDown happens only
on an in-car (car-destination) call below, so the claim as stated is
false. -/
theorem C6_counterexample :
    upNoAbove.state_ = GoingUp ∧
    (∀ j ∈ floors, upNoAbove.floor_ < j → callAt upNoAbove j = false) ∧
    (∃ j ∈ floors, j < upNoAbove.floor_ ∧ callAt upNoAbove j = true) ∧
    e2NewState upNoAbove ≠ GoingDown ∧
    e2NewState upNoAbove = Neutral :=
  ⟨rfl, by decide, ⟨0, by decide, by decide, by decide⟩, by decide, by decide⟩

theorem passenger_wants_down_iff (s : Sim) :
    passenger_wants_down s = true ↔
      ∃ j ∈ floors, j < s.floor_ ∧ s.callcar_ j = true := by
  rw [passenger_wants_down, List.any_eq_true]
  constructor
  · rintro ⟨j, hj, hp⟩
    simp only [Bool.and_eq_true, decide_eq_true_eq] at hp
    refine ⟨j, hj, ?_, hp.1.2⟩
    have h1 := hp.1.1
    have h2 := hp.2
    omega
  · rintro ⟨j, hj, hlt, hcc⟩
    refine ⟨j, hj, ?_⟩
    simp only [Bool.and_eq_true, decide_eq_true_eq]
    exact ⟨⟨by omega, hcc⟩, by omega⟩

theorem passenger_wants_up_iff (s : Sim) :
    passenger_wants_up s = true ↔
      ∃ j ∈ floors, s.floor_ < j ∧ s.callcar_ j = true := by
  rw [passenger_wants_up, List.any_eq_true]
  constructor
  · rintro ⟨j, hj, hp⟩
    simp only [Bool.and_eq_true, decide_eq_true_eq] at hp
    exact ⟨j, hj, hp.2, hp.1.2⟩
  · rintro ⟨j, hj, hlt, hcc⟩
    refine ⟨j, hj, ?_⟩
    simp only [Bool.and_eq_true, decide_eq_true_eq]
    exact ⟨⟨by omega, hcc⟩, hlt⟩

/-- Claim C6, amended: going up with no outstanding call of any kind
strictly above, E2 flips the direction to GoingDown exactly when some
in-car (car-destination) call is outstanding strictly below, and to
Neutral exactly when none is; symmetrically, going down with no
outstanding call of any kind strictly below, the direction flips to
GoingUp exactly when some in-car call is outstanding strictly above, and
to Neutral otherwise.  Hall up/down button calls never produce the flip
to the opposite direction. -/
theorem C6_amended (s : Sim) :
    (s.state_ = GoingUp →
      (∀ j ∈ floors, s.floor_ < j → callAt s j = false) →
      ((e2NewState s = GoingDown ↔
          ∃ j ∈ floors, j < s.floor_ ∧ s.callcar_ j = true) ∧
        (e2NewState s = Neutral ↔
          ∀ j ∈ floors, j < s.floor_ → s.callcar_ j = false))) ∧
    (s.state_ = GoingDown →
      (∀ j ∈ floors, j < s.floor_ → callAt s j = false) →
      ((e2NewState s = GoingUp ↔
          ∃ j ∈ floors, s.floor_ < j ∧ s.callcar_ j = true) ∧
        (e2NewState s = Neutral ↔
          ∀ j ∈ floors, s.floor_ < j → s.callcar_ j = false))) := by
  constructor
  · intro hup hno
    have hnb : ¬(passenger_wants_up s || waiter_wants_up s) = true := by
      rw [Bool.not_eq_true, Bool.or_eq_false_iff]
      constructor
      · rw [passenger_wants_up, List.any_eq_false]
        intro j hj hcon
        simp only [Bool.and_eq_true, decide_eq_true_eq] at hcon
        obtain ⟨⟨hne, hcc⟩, hgt⟩ := hcon
        have hc := hno j hj hgt
        rw [callAt, Bool.or_eq_false_iff, Bool.or_eq_false_iff] at hc
        rw [hc.2] at hcc
        exact nomatch hcc
      · rw [waiter_wants_up, List.any_eq_false]
        intro j hj hcon
        simp only [Bool.and_eq_true, decide_eq_true_eq] at hcon
        obtain ⟨⟨hne, hud⟩, hgt⟩ := hcon
        have hc := hno j hj hgt
        rw [callAt, Bool.or_eq_false_iff, Bool.or_eq_false_iff] at hc
        rw [hc.1.1, hc.1.2] at hud
        exact nomatch hud
    have he2 : e2NewState s =
        if passenger_wants_down s then GoingDown else Neutral := by
      unfold e2NewState
      rw [if_pos ⟨hup, hnb⟩]
    rw [he2]
    constructor
    · constructor
      · intro h
        by_cases hpd : passenger_wants_down s = true
        · exact (passenger_wants_down_iff s).mp hpd
        · rw [if_neg hpd] at h
          exact nomatch h
      · intro hex
        rw [if_pos ((passenger_wants_down_iff s).mpr hex)]
    · constructor
      · intro h j hj hlt
        by_cases hc : s.callcar_ j = true
        · rw [if_pos ((passenger_wants_down_iff s).mpr ⟨j, hj, hlt, hc⟩)] at h
          exact nomatch h
        · exact Bool.eq_false_iff.mpr hc
      · intro hall
        have hpd : ¬passenger_wants_down s = true := by
          intro hpd
          obtain ⟨j, hj, hlt, hc⟩ := (passenger_wants_down_iff s).mp hpd
          rw [hall j hj hlt] at hc
          exact nomatch hc
        rw [if_neg hpd]
  · intro hdn hno
    have hnb : ¬(passenger_wants_down s || waiter_wants_down s) = true := by
      rw [Bool.not_eq_true, Bool.or_eq_false_iff]
      constructor
      · rw [passenger_wants_down, List.any_eq_false]
        intro j hj hcon
        simp only [Bool.and_eq_true, decide_eq_true_eq] at hcon
        obtain ⟨⟨hne, hcc⟩, hngt⟩ := hcon
        have hc := hno j hj (by omega)
        rw [callAt, Bool.or_eq_false_iff, Bool.or_eq_false_iff] at hc
        rw [hc.2] at hcc
        exact nomatch hcc
      · rw [waiter_wants_down, List.any_eq_false]
        intro j hj hcon
        simp only [Bool.and_eq_true, decide_eq_true_eq] at hcon
        obtain ⟨⟨hne, hud⟩, hngt⟩ := hcon
        have hc := hno j hj (by omega)
        rw [callAt, Bool.or_eq_false_iff, Bool.or_eq_false_iff] at hc
        rw [hc.1.1, hc.1.2] at hud
        exact nomatch hud
    have hne1 : ¬(s.state_ = GoingUp ∧
        ¬(passenger_wants_up s || waiter_wants_up s) = true) := by
      intro h
      rw [hdn] at h
      exact nomatch h.1
    have he2 : e2NewState s =
        if passenger_wants_up s then GoingUp else Neutral := by
      unfold e2NewState
      rw [if_neg hne1, if_pos ⟨hdn, hnb⟩]
    rw [he2]
    constructor
    · constructor
      · intro h
        by_cases hpu : passenger_wants_up s = true
        · exact (passenger_wants_up_iff s).mp hpu
        · rw [if_neg hpu] at h
          exact nomatch h
      · intro hex
        rw [if_pos ((passenger_wants_up_iff s).mpr hex)]
    · constructor
      · intro h j hj hlt
        by_cases hc : s.callcar_ j = true
        · rw [if_pos ((passenger_wants_up_iff s).mpr ⟨j, hj, hlt, hc⟩)] at h
          exact nomatch h
        · exact Bool.eq_false_iff.mpr hc
      · intro hall
        have hpu : ¬passenger_wants_up s = true := by
          intro hpu
          obtain ⟨j, hj, hlt, hc⟩ := (passenger_wants_up_iff s).mp hpu
          rw [hall j hj hlt] at hc
          exact nomatch hc
        rw [if_neg hpu]

theorem C6_amended_witness :
    (upNoAbove.state_ = GoingUp ∧
      (∀ j ∈ floors, upNoAbove.floor_ < j → callAt upNoAbove j = false) ∧
      ((e2NewState upNoAbove = GoingDown ↔
          ∃ j ∈ floors, j < upNoAbove.floor_ ∧ upNoAbove.callcar_ j = true) ∧
        (e2NewState upNoAbove = Neutral ↔
          ∀ j ∈ floors, j < upNoAbove.floor_ → upNoAbove.callcar_ j = false))) ∧
    (downNoBelow.state_ = GoingDown ∧
      (∀ j ∈ floors, j < downNoBelow.floor_ → callAt downNoBelow j = false) ∧
      ((e2NewState downNoBelow = GoingUp ↔
          ∃ j ∈ floors, downNoBelow.floor_ < j ∧ downNoBelow.callcar_ j = true) ∧
        (e2NewState downNoBelow = Neutral ↔
          ∀ j ∈ floors, downNoBelow.floor_ < j → downNoBelow.callcar_ j = false))) :=
  ⟨⟨rfl, by decide, (C6_amended upNoAbove).1 rfl (by decide)⟩,
    ⟨rfl, by decide, (C6_amended downNoBelow).2 rfl (by decide)⟩⟩

/-- Claim C7: in every reachable state the doors-open-and-busy flag `d1_`
and the doors-open-idle flag `d3_` are never simultaneously true. -/
theorem C7_door_flags_exclusive (arr : Nat → NewUserInfo)
    (h : ∀ i, WFInfo (arr i)) (n : Nat) :
    ¬((reach arr n).d1_ = true ∧ (reach arr n).d3_ = true) :=
  (inv_reach arr h n).dExcl

theorem C7_door_flags_exclusive_witness :
    (∀ i, WFInfo (constArrival i)) ∧
    ¬((reach constArrival 2).d1_ = true ∧ (reach constArrival 2).d3_ = true) :=
  ⟨constArrival_wf, C7_door_flags_exclusive constArrival constArrival_wf 2⟩

/-- Claim C8: in a run started from the constructor state the pending
sequence is never empty: some user task pending at its arrival step always
remains scheduled. -/
theorem C8_pending_nonempty (arr : Nat → NewUserInfo)
    (h : ∀ i, WFInfo (arr i)) (n : Nat) :
    (reach arr n).wait_ ≠ [] := by
  obtain ⟨k, hk, _⟩ := (inv_reach arr h n).arriveP
  intro he
  rw [he] at hk
  exact List.not_mem_nil _ hk

theorem C8_pending_nonempty_witness :
    (∀ i, WFInfo (constArrival i)) ∧ (reach constArrival 4).wait_ ≠ [] :=
  ⟨constArrival_wf, C8_pending_nonempty constArrival constArrival_wf 4⟩

theorem runUntil_done {fuel : Nat} {s : Sim} {d : Int} {t : TaskId}
    {rest : List TaskId} (hw : s.wait_ = t :: rest) (h : s.nexttime_ t ≥ d) :
    runUntil fuel s d = s := by
  cases fuel with
  | zero => rfl
  | succ k =>
    unfold runUntil
    rw [hw]
    show (if s.nexttime_ t ≥ d then s else runUntil k (simStep s) d) = s
    rw [if_pos h]

/-- Claim C9 counterexample: with the non-numeric deadline argument "abc",
atoi yields 0, the driver loop runs zero iterations, and the process exits
with status 0 — not a reported error with non-zero status, refuting the
claim. -/
theorem C9_counterexample :
    atoiModel "abc" = 0 ∧
    mainModel 5 constArrival (some "abc") = (initialSim constArrival, 0) ∧
    (mainModel 5 constArrival (some "abc")).2 = 0 := by
  refine ⟨by decide, ?_, rfl⟩
  show (runUntil 5 (initialSim constArrival) (atoiModel "abc"), 0) = _
  rw [runUntil_done (initialSim_wait constArrival) (by decide)]

/-- Claim C9, amended: a non-numeric deadline argument parses (as C atoi
does) to 0, so the driver loop performs no iterations — the final state is
the constructor state — and the process exits with status 0; no error is
reported and the exit status is zero. -/
theorem C9_amended (arr : Nat → NewUserInfo) (a : String) (fuel : Nat)
    (h : atoiModel a ≤ 0) :
    mainModel fuel arr (some a) = (initialSim arr, 0) := by
  have hge : (initialSim arr).nexttime_ (usertask 0) ≥ atoiModel a := by
    show (0 : Int) ≥ atoiModel a
    omega
  have hrun : runUntil fuel (initialSim arr) (atoiModel a) = initialSim arr :=
    runUntil_done (initialSim_wait arr) hge
  show (runUntil fuel (initialSim arr) (atoiModel a), 0) = (initialSim arr, 0)
  rw [hrun]

theorem C9_amended_witness :
    atoiModel "abc" ≤ 0 ∧
    mainModel 7 constArrival (some "abc") = (initialSim constArrival, 0) :=
  ⟨by decide, C9_amended constArrival "abc" 7 (by decide)⟩

/-- Claim C10: when the give-up step U4 fires for an abandoning rider (the
car is not available at its entry floor with busy-open doors), the only
change is the rider's removal from its floor's waiting roster; all call
flags — including the hall button the rider raised on arrival — and every
other field are untouched. -/
theorem C10_giveup_frame (s : Sim) (m : Nat)
    (h4 : s.nextinst_ (usertask m) = 4)
    (hno : ¬(elevator_is_available s ((s.users_ m).in_) = true ∧ s.d1_ = true)) :
    userResume s m =
      { s with
        queue_ := Function.update s.queue_ ((s.users_ m).in_)
          (std_erase (s.queue_ ((s.users_ m).in_)) m) } ∧
    (userResume s m).callup_ = s.callup_ ∧
    (userResume s m).calldown_ = s.calldown_ ∧
    (userResume s m).callcar_ = s.callcar_ ∧
    (userResume s m).wait_ = s.wait_ ∧
    (userResume s m).elevator_ = s.elevator_ ∧
    (userResume s m).users_ = s.users_ ∧
    (userResume s m).floor_ = s.floor_ := by
  have hc : ¬(s.floor_ = (s.users_ m).in_ ∧ s.d1_ = true) := by
    intro hand
    refine hno ⟨?_, hand.2⟩
    unfold elevator_is_available
    exact decide_eq_true hand.1
  have heq : userResume s m =
      { s with
        queue_ := Function.update s.queue_ ((s.users_ m).in_)
          (std_erase (s.queue_ ((s.users_ m).in_)) m) } := by
    unfold userResume
    simp [h4, elevator_is_available, hc]
  exact ⟨heq, by rw [heq], by rw [heq], by rw [heq], by rw [heq],
    by rw [heq], by rw [heq], by rw [heq]⟩

theorem C10_giveup_frame_witness :
    giveupSim.nextinst_ (usertask 0) = 4 ∧
    ¬(elevator_is_available giveupSim ((giveupSim.users_ 0).in_) = true ∧
        giveupSim.d1_ = true) ∧
    (userResume giveupSim 0).callup_ = giveupSim.callup_ :=
  ⟨by decide, by decide,
    (C10_giveup_frame giveupSim 0 (by decide) (by decide)).2.1⟩

end Elevator
